import Mathlib

/-!
Verification development for the debco package builder.

This file shallowly embeds the core subsystems of the repository:

* the package database (`internal/database/database.go`),
* the dependency resolver (`internal/resolve/resolve.go`),
* the SHA-256 verifying reader (`internal/hashreader/hashreader.go`),
* the two unpack implementations (package `unpack`),

and proves or refutes the specified properties about them.

Modelling conventions:

* Debian version strings are modelled as natural numbers.  The version
  library (`github.com/dpeckett/deb822/types/version`) is an external
  dependency that implements a total order on versions; every use of a
  version by the code under verification goes through `Compare`, so only
  the total order is observable.  The zero value of `version.Version`
  (used as the B-tree pivot in `Get` and as the sentinel version of
  virtual packages) is modelled by `0`, the least element.
* The B-tree (`github.com/google/btree`, an external dependency) keyed
  by the package `Less` method is modelled as a list of packages that
  the operations keep strictly sorted by key; `treeGet`,
  `treeReplaceOrInsert` and `treeDelete` mirror the B-tree access
  operations on such a list, and ascending/descending iteration from a
  pivot is the corresponding list traversal.
* Mutexes are dropped: all claims are about the sequential behaviour.
-/

namespace Debco

/-- Debian version, abstracted to its total order (see header). -/
abbrev Ver := Nat

/-- A version constraint attached to a dependency possibility:
`(op, version)` with `op` one of the Debian relation operator strings.
Mirrors `deb822/types/dependency.VersionRelation`. -/
structure VerRel where
  op : String
  ver : Ver
deriving Repr, DecidableEq

/-- One alternative of a dependency relation.  Mirrors
`deb822/types/dependency.Possibility`: a package name plus an optional
version constraint. -/
structure Possi where
  name : String
  rel : Option VerRel
deriving Repr, DecidableEq

/-- A Relation is a disjunction of possibilities (mirrors
`deb822/types/dependency.Relation`). -/
abbrev Relation := List Possi

/-- A dependency field is a list of relations (mirrors
`deb822/types/dependency.Dependency.Relations`). -/
abbrev Dep := List Relation

/-- Modelled from the spec: `internal/types.Package` is not among the
provided sources (only its callers and tests are).  Per the spec's data
model a package record carries name, version, priority, the relation
lists, mirror URLs, the `is_virtual` flag and, for virtual records, the
list of providers.  Providers are compared and used exclusively by
`(name, version)`, so the model stores provider keys.  Fields of the Go
struct never read by the verified code (architecture, filename, sha256,
status) are omitted. -/
structure Pkg where
  name : String
  ver : Ver
  isVirtual : Bool := false
  priority : String := ""
  urls : List String := []
  provides : Dep := []
  preDepends : Dep := []
  depends : Dep := []
  providers : List (String × Ver) := []
deriving Repr, DecidableEq

/-- The `(name, version)` key of a record. -/
abbrev Key := String × Ver

def Pkg.key (p : Pkg) : Key := (p.name, p.ver)

/-- The Go byte-wise order on package names, written on the character
list underlying the string (definitionally the core `String.lt`, spelt
so that the kernel can evaluate it on literals). -/
def nameLt (s t : String) : Prop := s.data < t.data

instance (s t : String) : Decidable (nameLt s t) := by
  unfold nameLt
  infer_instance

theorem nameLt_irrefl (s : String) : ¬ nameLt s s := lt_irrefl _

theorem nameLt_trans {a b c : String} (h₁ : nameLt a b) (h₂ : nameLt b c) : nameLt a c :=
  lt_trans h₁ h₂

theorem string_eq_of_data_eq {s t : String} (h : s.data = t.data) : s = t := by
  cases s
  cases t
  exact congrArg String.mk h

theorem nameLt_trichotomy (s t : String) : nameLt s t ∨ s = t ∨ nameLt t s := by
  rcases lt_trichotomy s.data t.data with h | h | h
  · exact Or.inl h
  · exact Or.inr (Or.inl (string_eq_of_data_eq h))
  · exact Or.inr (Or.inr h)

/-- Modelled from the spec: the ordering used by the B-tree `Less`
method of `internal/types.Package` (missing from the sources) —
"Ordering is lexicographic on name ascending, then version ascending." -/
def keyLt (a b : Key) : Prop := nameLt a.1 b.1 ∨ (a.1 = b.1 ∧ a.2 < b.2)

instance (a b : Key) : Decidable (keyLt a b) := by
  unfold keyLt
  infer_instance

theorem keyLt_irrefl (a : Key) : ¬ keyLt a a := by
  rintro (h | ⟨_, h⟩)
  · exact nameLt_irrefl _ h
  · exact lt_irrefl _ h

theorem keyLt_trans {a b c : Key} (h₁ : keyLt a b) (h₂ : keyLt b c) : keyLt a c := by
  rcases h₁ with h₁ | ⟨e₁, h₁⟩ <;> rcases h₂ with h₂ | ⟨e₂, h₂⟩
  · exact Or.inl (nameLt_trans h₁ h₂)
  · exact Or.inl (e₂ ▸ h₁)
  · exact Or.inl (e₁ ▸ h₂)
  · exact Or.inr ⟨e₁.trans e₂, lt_trans h₁ h₂⟩

theorem keyLt_or_eq_or_gt (a b : Key) : keyLt a b ∨ a = b ∨ keyLt b a := by
  rcases nameLt_trichotomy a.1 b.1 with h | h | h
  · exact Or.inl (Or.inl h)
  · rcases lt_trichotomy a.2 b.2 with h2 | h2 | h2
    · exact Or.inl (Or.inr ⟨h, h2⟩)
    · exact Or.inr (Or.inl (Prod.ext h h2))
    · exact Or.inr (Or.inr (Or.inr ⟨h.symm, h2⟩))
  · exact Or.inr (Or.inr (Or.inl h))

theorem keyLt_asymm {a b : Key} (h : keyLt a b) : ¬ keyLt b a := by
  intro h'
  exact keyLt_irrefl a (keyLt_trans h h')

theorem ne_of_keyLt {a b : Key} (h : keyLt a b) : a ≠ b := by
  rintro rfl
  exact keyLt_irrefl a h

/-- A package database: the B-tree, as the list of its records in
ascending key order. -/
abbrev DB := List Pkg

/-- `btree.Get`: look up a record by key.  The search stops as soon as
it passes the position the key would occupy. -/
def treeGet : DB → Key → Option Pkg
  | [], _ => none
  | p :: ps, k =>
    if keyLt k p.key then none
    else if k = p.key then some p
    else treeGet ps k

/-- `btree.ReplaceOrInsert`: insert a record at its key position,
replacing any record with an equal key. -/
def treeRo : DB → Pkg → DB
  | [], q => [q]
  | p :: ps, q =>
    if keyLt q.key p.key then q :: p :: ps
    else if q.key = p.key then q :: ps
    else p :: treeRo ps q

/-- `btree.Delete`: remove the record with the given key, if present. -/
def treeDel : DB → Key → DB
  | [], _ => []
  | p :: ps, k =>
    if keyLt k p.key then p :: ps
    else if k = p.key then ps
    else p :: treeDel ps k

/-- Strict key-sortedness: the invariant the B-tree maintains. -/
def DBSorted (db : DB) : Prop := db.Pairwise (fun a b => keyLt a.key b.key)

instance (db : DB) : Decidable (DBSorted db) := by
  unfold DBSorted
  infer_instance

/-- `PackageDB.Len` counts the non-virtual records. -/
def dbLen (db : DB) : Nat := (db.filter (fun p => !p.isVirtual)).length

/-- The non-virtual records in ascending order: what
`PackageDB.ForEach` visits. -/
def reals (db : DB) : List Pkg := db.filter (fun p => !p.isVirtual)

/-- Ascending iteration from a pivot (`tree.AscendGreaterOrEqual`):
on a sorted list these are exactly the records with key `≥ k`. -/
def ascendGE (db : DB) (k : Key) : List Pkg :=
  db.dropWhile (fun p => decide (keyLt p.key k))

/-- Descending iteration from a pivot (`tree.DescendLessOrEqual`):
on a sorted list, the records with key `≤ k` in descending order. -/
def descendLE (db : DB) (k : Key) : List Pkg :=
  (db.takeWhile (fun p => !decide (keyLt k p.key))).reverse

/-- `PackageDB.Get`: ascend from `(name, zero version)`, collecting
until the name changes. -/
def dbGet (db : DB) (n : String) : List Pkg :=
  (ascendGE db (n, 0)).takeWhile (fun p => p.name == n)

/-- `PackageDB.StrictlyEarlier`: descend from `(name, v)`, stop when the
name changes, skip the record whose version equals `v`. -/
def strictlyEarlier (db : DB) (n : String) (v : Ver) : List Pkg :=
  ((descendLE db (n, v)).takeWhile (fun p => p.name == n)).filter (fun p => p.ver != v)

/-- `PackageDB.EarlierOrEqual`. -/
def earlierOrEqual (db : DB) (n : String) (v : Ver) : List Pkg :=
  (descendLE db (n, v)).takeWhile (fun p => p.name == n)

/-- `PackageDB.ExactlyEqual`: the first record at or after `(n, v)`,
if it has exactly that name and version. -/
def exactlyEqual (db : DB) (n : String) (v : Ver) : Option Pkg :=
  match ascendGE db (n, v) with
  | [] => none
  | p :: _ => if p.name = n ∧ p.ver = v then some p else none

/-- `PackageDB.LaterOrEqual`. -/
def laterOrEqual (db : DB) (n : String) (v : Ver) : List Pkg :=
  (ascendGE db (n, v)).takeWhile (fun p => p.name == n)

/-- `PackageDB.StrictlyLater`. -/
def strictlyLater (db : DB) (n : String) (v : Ver) : List Pkg :=
  ((ascendGE db (n, v)).takeWhile (fun p => p.name == n)).filter (fun p => p.ver != v)

/-- URL merging in `addPackage`: append each new URL that is not
already present. -/
def mergeURLs (ex new : List String) : List String :=
  new.foldl (fun acc u => if acc.contains u then acc else acc ++ [u]) ex

/-- All possibilities of a `provides` field, flattened. -/
def provPossis (d : Dep) : List Possi := d.flatten

/-- The key of the virtual record for a provides possibility: its name,
and its version if present, else the zero (sentinel) version. -/
def vkey (possi : Possi) : Key :=
  (possi.name, match possi.rel with | some vr => vr.ver | none => 0)

/-- The freshly built virtual record for a provides possibility
(`IsVirtual: true`, version from the possibility or the zero value). -/
def baseVirtual (possi : Possi) : Pkg :=
  { name := possi.name, ver := (vkey possi).2, isVirtual := true }

/-- The shared tail of the provides-upsert: ensure `k` is among
`vpkg`'s providers, re-inserting only when it was missing. -/
def addProviderWith (db : DB) (k : Key) (vpkg : Pkg) : DB :=
  if vpkg.providers.contains k then db
  else treeRo db { vpkg with providers := vpkg.providers ++ [k] }

/-- The provides-upsert step of `addPackage` for one possibility:
fetch (or freshly build) the record at the virtual key and ensure the
adding package's key is among its providers. -/
def addProvider (db : DB) (k : Key) (possi : Possi) : DB :=
  match treeGet db (vkey possi) with
  | some ex => addProviderWith db k ex
  | none => addProviderWith db k (baseVirtual possi)

/-- The record actually stored by `addPackage`: the existing record
with the same key with the new URLs merged in, or the argument. -/
def mergedPkg (db : DB) (pkg : Pkg) : Pkg :=
  match treeGet db pkg.key with
  | some ex => { ex with urls := mergeURLs ex.urls pkg.urls }
  | none => pkg

/-- The insert-then-register-providers tail of `addPackage`. -/
def addPackageAux (pkg1 : Pkg) (db : DB) : DB :=
  (provPossis pkg1.provides).foldl (fun acc possi => addProvider acc pkg1.key possi)
    (treeRo db pkg1)

/-- `PackageDB.addPackage` (also the body of `Add`): merge URLs into an
existing record with the same key, insert, then register the package as
a provider of each possibility it provides. -/
def addPackage (db : DB) (pkg : Pkg) : DB :=
  addPackageAux (mergedPkg db pkg) db

/-- `PackageDB.AddAll`. -/
def addAll (db : DB) (pkgs : List Pkg) : DB := pkgs.foldl addPackage db

/-- The shared tail of the provider-removal step: drop `k` from the
providers, deleting the record when none remain. -/
def removeProviderWith (db : DB) (k : Key) (possi : Possi) (vpkg : Pkg) : DB :=
  if (vpkg.providers.filter (fun pk => pk ≠ k)).isEmpty then treeDel db (vkey possi)
  else treeRo db { vpkg with providers := vpkg.providers.filter (fun pk => pk ≠ k) }

/-- The provider-removal step of `Remove` for one possibility. -/
def removeProvider (db : DB) (k : Key) (possi : Possi) : DB :=
  match treeGet db (vkey possi) with
  | none => db
  | some vpkg => removeProviderWith db k possi vpkg

/-- `PackageDB.Remove`: delete the record with the argument's key, then
remove the argument from the providers of every virtual record for the
argument's provides, deleting virtual records left without providers. -/
def removePkg (db : DB) (pkg : Pkg) : DB :=
  (provPossis pkg.provides).foldl (fun acc possi => removeProvider acc pkg.key possi)
    (treeDel db pkg.key)

/-! ### The resolver (`internal/resolve/resolve.go`)

The include and exclude lists reach the resolver as strings of the form
`name` or `name=version`; the split on the first `=` and the version
parse are modelled by taking the entries as `(name, optional version)`
pairs directly.  The Go maps `requestedPackages` and `excludedPackages`
are modelled by last-entry-wins lookup (`reqLookup`) and name
membership, which is all the code reads from them.

The two unbounded loops (the closure queue of phase 2 and the pruning
fixed point of phases 3/5) are given explicit fuel; running out of fuel
is a distinguished error, so every `.ok` result of the model is a
result the Go code computes. -/

/-- Resolver errors (spec §7 names; the Go code returns wrapped
`fmt.Errorf` values with these meanings). -/
inductive RErr where
  | packageNotFound (n : String) (v : Option Ver)
  | relationOperator (op : String)
  | unsatisfiableDependency (rel : Relation)
  | unsatisfiableVirtual (n : String)
  | ambiguousVirtual (n : String)
  | pinDropped (n : String)
  | fuelExhausted
deriving Repr, DecidableEq

/-- `resolveVirtualPackage`: keep the providers whose exact
(name, version) exists in the full DB; fail on zero, pick a single one,
otherwise prefer a provider already in the candidate DB, then one with
required priority, otherwise fail as ambiguous. -/
def resolveVirtualPackage (pdb cdb : DB) (vp : Pkg) : Except RErr Pkg :=
  match vp.providers.filterMap (fun pk => exactlyEqual pdb pk.1 pk.2) with
  | [] => .error (.unsatisfiableVirtual vp.name)
  | [p] => .ok p
  | p₀ :: p₁ :: rest =>
    let provs := p₀ :: p₁ :: rest
    match provs.find? (fun p => (exactlyEqual cdb p.name p.ver).isSome) with
    | some p => .ok p
    | none =>
      match provs.find? (fun p => p.priority == "required") with
      | some p => .ok p
      | none => .error (.ambiguousVirtual vp.name)

/-- The version-constraint dispatch of `getDependencies`: note the
source collapses `<<` with `<=` and `>>` with `>=`. -/
def resolveConstraint (pdb : DB) (possi : Possi) : Except RErr (List Pkg) :=
  match possi.rel with
  | none => .ok (dbGet pdb possi.name)
  | some vr =>
    if vr.op = "<<" then .ok (earlierOrEqual pdb possi.name vr.ver)
    else if vr.op = "<=" then .ok (earlierOrEqual pdb possi.name vr.ver)
    else if vr.op = "=" then .ok (exactlyEqual pdb possi.name vr.ver).toList
    else if vr.op = ">=" then .ok (laterOrEqual pdb possi.name vr.ver)
    else if vr.op = ">>" then .ok (laterOrEqual pdb possi.name vr.ver)
    else .error (.relationOperator vr.op)

/-- One possibility of a relation: resolve the constraint against the
full DB, then replace each virtual entry by its resolved provider,
dropping entries whose virtual resolution fails. -/
def resolvePossi (pdb cdb : DB) (possi : Possi) : Except RErr (List Pkg) :=
  match resolveConstraint pdb possi with
  | .error e => .error e
  | .ok pl =>
    .ok (pl.filterMap (fun p =>
      if p.isVirtual then (resolveVirtualPackage pdb cdb p).toOption else some p))

/-- The possibility loop of `getDependencies` over a relation `rel`:
take the first possibility that resolves non-empty; an unknown operator
aborts; if none resolves, the relation is unsatisfiable. -/
def resolveRelationAux (pdb cdb : DB) (rel : Relation) : List Possi → Except RErr (List Pkg)
  | [] => .error (.unsatisfiableDependency rel)
  | possi :: rest =>
    match resolvePossi pdb cdb possi with
    | .error e => .error e
    | .ok [] => resolveRelationAux pdb cdb rel rest
    | .ok l => .ok l

def resolveRelation (pdb cdb : DB) (rel : Relation) : Except RErr (List Pkg) :=
  resolveRelationAux pdb cdb rel rel

/-- `getDependencies`: concatenate the resolutions of the pre-depends
then depends relations. -/
def getDependencies (pdb cdb : DB) (pkg : Pkg) : Except RErr (List Pkg) :=
  (pkg.preDepends ++ pkg.depends).foldlM
    (fun acc rel => (resolveRelation pdb cdb rel).map (fun l => acc ++ l)) []

/-- The breadth-first closure loop of phase 2.  `visited` is the Go
`visited` map keyed by `Package.ID()`; the ID determines and is
determined by the `(name, version)` key, so the key stands for it. -/
def bfs (pdb : DB) (excl : List String) : Nat → List Pkg → List Key → DB → Except RErr DB
  | 0, [], _, cdb => .ok cdb
  | 0, _ :: _, _, _ => .error .fuelExhausted
  | _ + 1, [], _, cdb => .ok cdb
  | fuel + 1, pkg :: queue, visited, cdb =>
    if visited.contains pkg.key then bfs pdb excl fuel queue visited cdb
    else
      match getDependencies pdb cdb pkg with
      | .error e => .error e
      | .ok deps =>
        let visited1 := pkg.key :: visited
        let fresh := deps.filter
          (fun d => !excl.contains d.name && !visited1.contains d.key)
        bfs pdb excl fuel (queue ++ fresh) visited1 (fresh.foldl addPackage cdb)

/-- One pass of `pruneUnsatisfied`: the candidates whose dependencies
no longer resolve. -/
def pruneList (cdb pdb : DB) : List Pkg :=
  (reals cdb).filter (fun pkg => !(getDependencies pdb cdb pkg).isOk)

/-- The pruning fixed point (phases 3 and 5). -/
def pruneFix (pdb : DB) : Nat → DB → Except RErr DB
  | 0, _ => .error .fuelExhausted
  | fuel + 1, cdb =>
    let pl := pruneList cdb pdb
    if pl.isEmpty then .ok cdb
    else pruneFix pdb fuel (pl.foldl removePkg cdb)

/-- The Go `requestedPackages` map: later include entries overwrite
earlier ones with the same name. -/
def reqLookup (incl : List (String × Option Ver)) (n : String) : Option (Option Ver) :=
  (incl.reverse.find? (fun e => e.1 == n)).map (fun e => e.2)

/-- Phase 1: seed the candidate DB from the include list. -/
def seed (pdb : DB) : List (String × Option Ver) → DB → Except RErr DB
  | [], cdb => .ok cdb
  | (n, some v) :: rest, cdb =>
    match exactlyEqual pdb n v with
    | none => .error (.packageNotFound n (some v))
    | some p => seed pdb rest (addPackage cdb p)
  | (n, none) :: rest, cdb =>
    match dbGet pdb n with
    | [] => .error (.packageNotFound n none)
    | p :: ps => seed pdb rest (addAll cdb (p :: ps))

/-- Phase 4: the selection step for one candidate, in ascending key
order.  A record pinned to an explicit version is taken only at that
version; otherwise the record replaces the currently selected record of
the same name exactly when its version is greater. -/
def selectStep (req : String → Option (Option Ver)) (sdb : DB) (pkg : Pkg) : DB :=
  match req pkg.name with
  | some (some v) => if pkg.ver = v then addPackage sdb pkg else sdb
  | _ =>
    match dbGet sdb pkg.name with
    | [] => addPackage sdb pkg
    | e₀ :: _ => if e₀.ver < pkg.ver then addPackage (removePkg sdb e₀) pkg else sdb

def selectNewest (req : String → Option (Option Ver)) (cdb : DB) : DB :=
  (reals cdb).foldl (selectStep req) []

/-- Phase 6: is the requested entry still present in the selected DB? -/
def reqSatisfied (sdb : DB) (n : String) : Option Ver → Bool
  | some v => (exactlyEqual sdb n v).isSome
  | none => !(dbGet sdb n).isEmpty

/-- Phase 6: every name of the include list, at its effective (last)
requested version, must still be present. -/
def checkRequested (incl : List (String × Option Ver)) (sdb : DB) : Except RErr Unit :=
  match incl.find? (fun e =>
    match reqLookup incl e.1 with
    | some vo => !reqSatisfied sdb e.1 vo
    | none => false) with
  | some e => .error (.pinDropped e.1)
  | none => .ok ()

/-- Phases 1–2: the candidate DB after the dependency closure. -/
def closure (fuel : Nat) (pdb : DB) (incl excl : List (String × Option Ver)) :
    Except RErr DB := do
  let cdb1 ← seed pdb incl []
  bfs pdb (excl.map (fun e => e.1)) fuel (reals cdb1) [] cdb1

/-- Phases 1–3: the candidate DB after pruning. -/
def postPrune (fuel : Nat) (pdb : DB) (incl excl : List (String × Option Ver)) :
    Except RErr DB := do
  let cdb2 ← closure fuel pdb incl excl
  pruneFix pdb fuel cdb2

/-- `resolve.Resolve`, with the string parsing of the include/exclude
entries factored out (see the section header). -/
def resolveFull (fuel : Nat) (pdb : DB) (incl excl : List (String × Option Ver)) :
    Except RErr DB := do
  let cdb3 ← postPrune fuel pdb incl excl
  let sdb := selectNewest (reqLookup incl) cdb3
  let sdb2 ← pruneFix pdb fuel sdb
  match checkRequested incl sdb2 with
  | .error e => .error e
  | .ok _ => .ok sdb2

/-! ### Specification-side notions for the virtual-mirror claims -/

/-- A database mutation: the argument of `PackageDB.Add` or
`PackageDB.Remove`. -/
inductive DBOp where
  | add (p : Pkg)
  | remove (p : Pkg)
deriving Repr, DecidableEq

def applyOp (db : DB) : DBOp → DB
  | .add p => addPackage db p
  | .remove p => removePkg db p

def applyOps (db : DB) (ops : List DBOp) : DB := ops.foldl applyOp db

def opPkg : DBOp → Pkg
  | .add p => p
  | .remove p => p

/-- The virtual keys induced by a record's provides. -/
def provKeys (r : Pkg) : List Key := (provPossis r.provides).map vkey

/-- The virtual-mirror property exactly as claim C1 states it, per
name: a virtual record named `n` exists iff some non-virtual record
lists `n` in its provides, and any such virtual record's providers are
exactly the keys of those records. -/
def MirrorNameProp (db : DB) : Prop :=
  ∀ n : String,
    ((∃ v ∈ db, v.isVirtual = true ∧ v.name = n) ↔
      (∃ r ∈ db, r.isVirtual = false ∧ ∃ possi ∈ provPossis r.provides, possi.name = n)) ∧
    (∀ v ∈ db, v.isVirtual = true → v.name = n →
      ∀ pk : Key, pk ∈ v.providers ↔
        ∃ r ∈ db, r.isVirtual = false ∧ r.key = pk ∧
          ∃ possi ∈ provPossis r.provides, possi.name = n)

/-- A well-formed package universe: the inputs the repository actually
feeds the database (records parsed from package indices).  All records
are non-virtual, no record's `(name, version)` key collides with any
provides-induced virtual key, and records with equal keys agree on
their provides. -/
def GoodUniverse (U : List Pkg) : Prop :=
  (∀ u ∈ U, u.isVirtual = false) ∧
  (∀ u ∈ U, ∀ w ∈ U, ∀ k ∈ provKeys w, k ≠ u.key) ∧
  (∀ u ∈ U, ∀ w ∈ U, u.key = w.key → u.provides = w.provides)

instance (U : List Pkg) : Decidable (GoodUniverse U) := by
  unfold GoodUniverse
  infer_instance

/-- The per-virtual-key mirror invariant (the amended C1): a virtual
record with key `k` exists iff some non-virtual record's provides
induce `k`, and each virtual record's provider list is, without
duplicates, exactly the set of keys of the non-virtual records whose
provides induce its key. -/
def MirrorInv (U : List Pkg) (db : DB) : Prop :=
  DBSorted db ∧
  (∀ r ∈ db, r.isVirtual = false → ∃ u ∈ U, u.key = r.key ∧ u.provides = r.provides) ∧
  (∀ k : Key, (∃ v ∈ db, v.isVirtual = true ∧ v.key = k) ↔
    (∃ r ∈ db, r.isVirtual = false ∧ k ∈ provKeys r)) ∧
  (∀ v ∈ db, v.isVirtual = true →
    v.providers.Nodup ∧
    (∀ pk : Key, pk ∈ v.providers ↔
      ∃ r ∈ db, r.isVirtual = false ∧ r.key = pk ∧ v.key ∈ provKeys r))

/-- The state in which re-adding `p` changes nothing: a record with
`p`'s key is present carrying all of `p`'s URLs, and that record is
registered as a provider at the virtual key of each of its own
provides possibilities. -/
def Settled (db : DB) (p : Pkg) : Prop :=
  ∃ r, treeGet db p.key = some r ∧ (∀ u ∈ p.urls, u ∈ r.urls) ∧
    ∀ possi ∈ provPossis r.provides,
      ∃ v, treeGet db (vkey possi) = some v ∧ p.key ∈ v.providers

/-- Every non-virtual record named `n` carries version `v`: the state
of a selected database for a name whose effective include pin is `v`. -/
def PinnedAt (n : String) (v : Ver) (db : DB) : Prop :=
  ∀ x ∈ db, x.isVirtual = false → x.name = n → x.ver = v

/-! ### The two `Unpack` implementations (package `unpack`)

A `DebPkg` is the per-package extraction result both variants consume:
the package name, the non-`control` top-level regular files of the
control archive with their contents, the data-archive entry paths
(excluding the root `.`, as collected by the identical
`getDataArchiveFileList` bodies), and the temp path of the decompressed
data archive.  Scope of the shared input: the two variants decompress
through different external libraries (`compressmagic` vs `uncompr`)
whose agreement is outside the repository's sources, and they read the
control archive differently (a recursive `fs.WalkDir` vs a top-level
`ReadDir`) — on flat control archives, the only kind a well-formed
`.deb` carries, the two walks visit exactly the same regular files and
write the same paths and contents, which is the domain this model
covers.

Each variant's dpkg database archive is modelled at two levels.
`unpackStreamMembers`/`unpackMemMembers` are the raw write sequences
(`tar.Writer` keeps every written member, duplicates included; the
memfs accumulates `WriteFile` calls).  `lookupArchive` is the content
a path holds after extraction — later members overwrite earlier ones,
which is both the tar extraction rule and literally the memfs store —
and `memfsArchiveMembers` is the member list `tarfs.Create` serializes
from that store: one member per written path, carrying the last
content.  `deb822.Marshal` of the status paragraphs is an external
function of the package sequence, taken as a parameter `marshal`. -/

structure DebPkg where
  name : String
  controlMembers : List (String × String)
  dataPaths : List String
  dataArchivePath : String
deriving Repr, DecidableEq

/-- `filepath.Join("var/lib/dpkg/info", name ++ "." ++ member)`. -/
def infoPath (pkgName member : String) : String :=
  "var/lib/dpkg/info/" ++ pkgName ++ "." ++ member

/-- `strings.Join(filesList, "\n") + "\n"`. -/
def listContent (dataPaths : List String) : String :=
  String.intercalate "\n" dataPaths ++ "\n"

/-- The dpkg database members written by the second (memfs +
`tarfs.Create`) `Unpack`: the same writes, except the `.list` file is
written only when the file list is nonempty. -/
def unpackMemMembers (marshal : List String → String) (pkgs : List DebPkg) :
    List (String × String) :=
  pkgs.flatMap (fun p =>
    p.controlMembers.map (fun m => (infoPath p.name m.1, m.2)) ++
    (if p.dataPaths.isEmpty then []
     else [(infoPath p.name "list", listContent p.dataPaths)])) ++
  [("var/lib/dpkg/status", marshal (pkgs.map (fun p => p.name)))]

def w32 (x : Nat) : Nat := x % 4294967296

/-- Right-rotation of a 32-bit word, arithmetically. -/
def rotr32 (n x : Nat) : Nat := x / 2 ^ n + x % 2 ^ n * 2 ^ (32 - n)

def shr32 (n x : Nat) : Nat := x / 2 ^ n

def ch32 (x y z : Nat) : Nat := Nat.xor (Nat.land x y) (Nat.land (4294967295 - x) z)

def maj32 (x y z : Nat) : Nat :=
  Nat.xor (Nat.xor (Nat.land x y) (Nat.land x z)) (Nat.land y z)

def bigSigma0 (x : Nat) : Nat :=
  Nat.xor (Nat.xor (rotr32 2 x) (rotr32 13 x)) (rotr32 22 x)

def bigSigma1 (x : Nat) : Nat :=
  Nat.xor (Nat.xor (rotr32 6 x) (rotr32 11 x)) (rotr32 25 x)

def smallSigma0 (x : Nat) : Nat :=
  Nat.xor (Nat.xor (rotr32 7 x) (rotr32 18 x)) (shr32 3 x)

def smallSigma1 (x : Nat) : Nat :=
  Nat.xor (Nat.xor (rotr32 17 x) (rotr32 19 x)) (shr32 10 x)

/-- The SHA-256 round constants. -/
def sha256K : List Nat :=
  [1116352408, 1899447441, 3049323471, 3921009573, 961987163,
   1508970993, 2453635748, 2870763221, 3624381080, 310598401,
   607225278, 1426881987, 1925078388, 2162078206, 2614888103,
   3248222580, 3835390401, 4022224774, 264347078, 604807628,
   770255983, 1249150122, 1555081692, 1996064986, 2554220882,
   2821834349, 2952996808, 3210313671, 3336571891, 3584528711,
   113926993, 338241895, 666307205, 773529912, 1294757372,
   1396182291, 1695183700, 1986661051, 2177026350, 2456956037,
   2730485921, 2820302411, 3259730800, 3345764771, 3516065817,
   3600352804, 4094571909, 275423344, 430227734, 506948616,
   659060556, 883997877, 958139571, 1322822218, 1537002063,
   1747873779, 1955562222, 2024104815, 2227730452, 2361852424,
   2428436474, 2756734187, 3204031479, 3329325298]

def sha256Init : List Nat :=
  [1779033703, 3144134277, 1013904242, 2773480762,
   1359893119, 2600822924, 528734635, 1541459225]

/-- `k` bytes of `x`, big-endian. -/
def toBytesBE : Nat → Nat → List Nat
  | 0, _ => []
  | k + 1, x => toBytesBE k (x / 256) ++ [x % 256]

/-- The 64-entry message schedule from the 16 words of a block. -/
def sha256Extend (w : List Nat) : List Nat :=
  (List.range 48).foldl (fun acc _ =>
    acc ++ [w32 (smallSigma1 (acc.getD (acc.length - 2) 0) + acc.getD (acc.length - 7) 0 +
      smallSigma0 (acc.getD (acc.length - 15) 0) + acc.getD (acc.length - 16) 0)]) w

/-- One SHA-256 compression step over a 64-byte block. -/
def sha256Compress (state block : List Nat) : List Nat :=
  let w0 := (List.range 16).map (fun i =>
    block.getD (4 * i) 0 * 16777216 + block.getD (4 * i + 1) 0 * 65536 +
      block.getD (4 * i + 2) 0 * 256 + block.getD (4 * i + 3) 0)
  let w := sha256Extend w0
  let fin := (List.range 64).foldl (fun st i =>
    let t1 := w32 (st.getD 7 0 + bigSigma1 (st.getD 4 0) +
      ch32 (st.getD 4 0) (st.getD 5 0) (st.getD 6 0) + sha256K.getD i 0 + w.getD i 0)
    let t2 := w32 (bigSigma0 (st.getD 0 0) + maj32 (st.getD 0 0) (st.getD 1 0) (st.getD 2 0))
    [w32 (t1 + t2), st.getD 0 0, st.getD 1 0, st.getD 2 0, w32 (st.getD 3 0 + t1),
      st.getD 4 0, st.getD 5 0, st.getD 6 0]) state
  (List.range 8).map (fun i => w32 (state.getD i 0 + fin.getD i 0))

/-- The number of zero pad bytes after the `0x80` byte. -/
def padZeros (len : Nat) : Nat := (64 - (len + 9) % 64) % 64

/-- SHA-256 of a byte list (FIPS 180-4). -/
def sha256 (m : List Nat) : List Nat :=
  let padded := m ++ 0x80 :: (List.replicate (padZeros m.length) 0 ++ toBytesBE 8 (m.length * 8))
  let fin := (List.range (padded.length / 64)).foldl
    (fun st i => sha256Compress st ((padded.drop (64 * i)).take 64)) sha256Init
  fin.flatMap (fun wv => toBytesBE 4 wv)

/-- Value of one hex digit (Go `encoding/hex` accepts both cases). -/
def hexVal (c : Char) : Option Nat :=
  if '0' ≤ c ∧ c ≤ '9' then some (c.toNat - '0'.toNat)
  else if 'a' ≤ c ∧ c ≤ 'f' then some (c.toNat - 'a'.toNat + 10)
  else if 'A' ≤ c ∧ c ≤ 'F' then some (c.toNat - 'A'.toNat + 10)
  else none

def hexDecodeAux : List Char → Option (List Nat)
  | [] => some []
  | [_] => none
  | c1 :: c2 :: rest =>
    match hexVal c1, hexVal c2, hexDecodeAux rest with
    | some h1, some h2, some bs => some ((h1 * 16 + h2) :: bs)
    | _, _, _ => none

/-- Go `hex.DecodeString`: `none` for an odd length or a non-hex byte. -/
def hexDecode (s : String) : Option (List Nat) := hexDecodeAux s.data

/-- The two failure modes of `HashReader.Verify`: the hex decode error
returned as is, and the distinct "hash mismatch" error. -/
inductive VErr where
  | hexError
  | hashMismatch
deriving Repr, DecidableEq

/-- `HashReader.Verify` after the stream `consumed` has been read:
decode the expected hex (returning its error on failure), then compare
digests (`hmac.Equal` on equal-length byte slices is equality). -/
def verify (consumed : List Nat) (expected : String) : Except VErr Unit :=
  match hexDecode expected with
  | none => .error .hexError
  | some eh => if sha256 consumed = eh then .ok () else .error .hashMismatch

instance {e a : Type} [DecidableEq e] [DecidableEq a] : DecidableEq (Except e a) := fun x y =>
  match x, y with
  | .ok u, .ok w =>
    if h : u = w then .isTrue (congrArg Except.ok h)
    else .isFalse (fun hc => h (by cases hc; rfl))
  | .error u, .error w =>
    if h : u = w then .isTrue (congrArg Except.error h)
    else .isFalse (fun hc => h (by cases hc; rfl))
  | .ok _, .error _ => .isFalse (fun hc => Except.noConfusion hc)
  | .error _, .ok _ => .isFalse (fun hc => Except.noConfusion hc)

/-! ### Theorems -/

/-! #### Basic facts about the B-tree model -/

theorem mem_of_mem_treeRo {db : DB} {q x : Pkg} (h : x ∈ treeRo db q) :
    x = q ∨ x ∈ db := by
  induction db with
  | nil =>
    simp only [treeRo, List.mem_singleton] at h
    exact Or.inl h
  | cons p ps ih =>
    by_cases h1 : keyLt q.key p.key
    · simp only [treeRo, if_pos h1, List.mem_cons] at h
      rcases h with rfl | h
      · exact Or.inl rfl
      · exact Or.inr (List.mem_cons.mpr h)
    · by_cases h2 : q.key = p.key
      · simp only [treeRo, if_neg h1, if_pos h2, List.mem_cons] at h
        rcases h with rfl | h
        · exact Or.inl rfl
        · exact Or.inr (List.mem_cons_of_mem _ h)
      · simp only [treeRo, if_neg h1, if_neg h2, List.mem_cons] at h
        rcases h with rfl | h
        · exact Or.inr (List.mem_cons_self _ _)
        · rcases ih h with h' | h'
          · exact Or.inl h'
          · exact Or.inr (List.mem_cons_of_mem _ h')

theorem treeDel_sublist (db : DB) (k : Key) : (treeDel db k).Sublist db := by
  induction db with
  | nil => simp [treeDel]
  | cons p ps ih =>
    simp only [treeDel]
    split
    · exact List.Sublist.refl _
    · split
      · exact List.sublist_cons_self _ _
      · exact List.Sublist.cons₂ _ ih

theorem treeRo_sorted {db : DB} (q : Pkg) (h : DBSorted db) : DBSorted (treeRo db q) := by
  induction db with
  | nil => simp [treeRo, DBSorted]
  | cons p ps ih =>
    rcases List.pairwise_cons.mp h with ⟨hp, hps⟩
    by_cases h1 : keyLt q.key p.key
    · simp only [treeRo, if_pos h1]
      refine List.pairwise_cons.mpr ⟨?_, h⟩
      intro x hx
      rcases List.mem_cons.mp hx with rfl | hx
      · exact h1
      · exact keyLt_trans h1 (hp _ hx)
    · by_cases h2 : q.key = p.key
      · simp only [treeRo, if_neg h1, if_pos h2]
        refine List.pairwise_cons.mpr ⟨?_, hps⟩
        intro x hx
        exact h2 ▸ hp _ hx
      · simp only [treeRo, if_neg h1, if_neg h2]
        refine List.pairwise_cons.mpr ⟨?_, ih hps⟩
        intro x hx
        rcases mem_of_mem_treeRo hx with rfl | hx'
        · rcases keyLt_or_eq_or_gt x.key p.key with h' | h' | h'
          · exact absurd h' h1
          · exact absurd h' h2
          · exact h'
        · exact hp _ hx'

theorem treeDel_sorted {db : DB} (k : Key) (h : DBSorted db) : DBSorted (treeDel db k) :=
  h.sublist (treeDel_sublist db k)

theorem treeGet_eq_some_iff {db : DB} {k : Key} {p : Pkg} (h : DBSorted db) :
    treeGet db k = some p ↔ p ∈ db ∧ p.key = k := by
  induction db with
  | nil => simp [treeGet]
  | cons q qs ih =>
    rcases List.pairwise_cons.mp h with ⟨hq, hqs⟩
    by_cases h1 : keyLt k q.key
    · simp only [treeGet, if_pos h1]
      constructor
      · intro h'
        exact absurd h' (by simp)
      · rintro ⟨hmem, rfl⟩
        rcases List.mem_cons.mp hmem with rfl | hmem
        · exact absurd h1 (keyLt_irrefl _)
        · exact absurd h1 (keyLt_asymm (hq _ hmem))
    · by_cases h2 : k = q.key
      · simp only [treeGet, if_neg h1, if_pos h2, Option.some_inj]
        constructor
        · rintro rfl
          exact ⟨List.mem_cons_self _ _, h2.symm⟩
        · rintro ⟨hmem, hk⟩
          rcases List.mem_cons.mp hmem with rfl | hmem
          · rfl
          · exact absurd (h2 ▸ hk : p.key = q.key)
              (Ne.symm (ne_of_keyLt (hq _ hmem)))
      · simp only [treeGet, if_neg h1, if_neg h2, ih hqs]
        constructor
        · rintro ⟨hmem, hk⟩
          exact ⟨List.mem_cons_of_mem _ hmem, hk⟩
        · rintro ⟨hmem, hk⟩
          rcases List.mem_cons.mp hmem with rfl | hmem
          · exact absurd (hk.symm) h2
          · exact ⟨hmem, hk⟩

theorem mem_treeRo_iff {db : DB} {q x : Pkg} (h : DBSorted db) :
    x ∈ treeRo db q ↔ x = q ∨ (x ∈ db ∧ x.key ≠ q.key) := by
  induction db with
  | nil => simp [treeRo]
  | cons p ps ih =>
    rcases List.pairwise_cons.mp h with ⟨hp, hps⟩
    by_cases h1 : keyLt q.key p.key
    · simp only [treeRo, if_pos h1, List.mem_cons]
      constructor
      · rintro (rfl | rfl | hx)
        · exact Or.inl rfl
        · exact Or.inr ⟨Or.inl rfl, (ne_of_keyLt h1).symm⟩
        · exact Or.inr ⟨Or.inr hx, (ne_of_keyLt (keyLt_trans h1 (hp _ hx))).symm⟩
      · rintro (rfl | ⟨rfl | hmem, _⟩)
        · exact Or.inl rfl
        · exact Or.inr (Or.inl rfl)
        · exact Or.inr (Or.inr hmem)
    · by_cases h2 : q.key = p.key
      · simp only [treeRo, if_neg h1, if_pos h2, List.mem_cons]
        constructor
        · rintro (rfl | hx)
          · exact Or.inl rfl
          · exact Or.inr ⟨Or.inr hx, fun hk => keyLt_irrefl _ (hk ▸ h2 ▸ hp _ hx)⟩
        · rintro (rfl | ⟨rfl | hmem, hne⟩)
          · exact Or.inl rfl
          · exact absurd h2.symm hne
          · exact Or.inr hmem
      · simp only [treeRo, if_neg h1, if_neg h2, List.mem_cons, ih hps]
        constructor
        · rintro (rfl | rfl | ⟨hmem, hne'⟩)
          · exact Or.inr ⟨Or.inl rfl, fun hk => h2 hk.symm⟩
          · exact Or.inl rfl
          · exact Or.inr ⟨Or.inr hmem, hne'⟩
        · rintro (rfl | ⟨rfl | hmem, hne'⟩)
          · exact Or.inr (Or.inl rfl)
          · exact Or.inl rfl
          · exact Or.inr (Or.inr ⟨hmem, hne'⟩)

theorem mem_treeDel_iff {db : DB} {k : Key} {x : Pkg} (h : DBSorted db) :
    x ∈ treeDel db k ↔ x ∈ db ∧ x.key ≠ k := by
  induction db with
  | nil => simp [treeDel]
  | cons p ps ih =>
    rcases List.pairwise_cons.mp h with ⟨hp, hps⟩
    by_cases h1 : keyLt k p.key
    · simp only [treeDel, if_pos h1, List.mem_cons]
      constructor
      · rintro (rfl | hx)
        · exact ⟨Or.inl rfl, (ne_of_keyLt h1).symm⟩
        · exact ⟨Or.inr hx, (ne_of_keyLt (keyLt_trans h1 (hp _ hx))).symm⟩
      · rintro ⟨hmem, _⟩
        exact hmem
    · by_cases h2 : k = p.key
      · simp only [treeDel, if_neg h1, if_pos h2, List.mem_cons]
        constructor
        · intro hx
          exact ⟨Or.inr hx, fun hk => keyLt_irrefl _ (hk ▸ h2 ▸ hp _ hx)⟩
        · rintro ⟨rfl | hmem, hne⟩
          · exact absurd h2.symm hne
          · exact hmem
      · simp only [treeDel, if_neg h1, if_neg h2, List.mem_cons, ih hps]
        constructor
        · rintro (rfl | ⟨hmem, hne'⟩)
          · exact ⟨Or.inl rfl, fun hk => h2 hk.symm⟩
          · exact ⟨Or.inr hmem, hne'⟩
        · rintro ⟨rfl | hmem, hne'⟩
          · exact Or.inl rfl
          · exact Or.inr ⟨hmem, hne'⟩

/-! #### Query characterizations on sorted databases -/

theorem takeWhile_eq_filter_of_pairwise {α} {p : α → Bool} :
    ∀ {l : List α}, l.Pairwise (fun a b => p b = true → p a = true) →
      l.takeWhile p = l.filter p := by
  intro l
  induction l with
  | nil => intro _; rfl
  | cons x xs ih =>
    intro h
    rcases List.pairwise_cons.mp h with ⟨hx, hxs⟩
    by_cases hpx : p x = true
    · simp only [List.takeWhile_cons, List.filter_cons, hpx, if_pos, ih hxs]
    · simp only [List.takeWhile_cons, List.filter_cons, hpx]
      simp only [Bool.false_eq_true, if_false]
      have : xs.filter p = [] := by
        refine List.filter_eq_nil_iff.mpr ?_
        intro a ha
        by_contra hpa
        exact hpx (hx a ha (by simpa using hpa))
      simp [this]

theorem dropWhile_eq_filter_not_of_pairwise {α} {p : α → Bool} :
    ∀ {l : List α}, l.Pairwise (fun a b => p b = true → p a = true) →
      l.dropWhile p = l.filter (fun x => !p x) := by
  intro l
  induction l with
  | nil => intro _; rfl
  | cons x xs ih =>
    intro h
    rcases List.pairwise_cons.mp h with ⟨hx, hxs⟩
    by_cases hpx : p x = true
    · simp only [List.dropWhile_cons, List.filter_cons, hpx, if_pos, Bool.not_true, ih hxs]
      simp
    · simp only [List.dropWhile_cons, List.filter_cons, hpx]
      have hall : xs.filter (fun x => !p x) = xs := by
        refine List.filter_eq_self.mpr ?_
        intro a ha
        by_contra hpa
        exact hpx (hx a ha (by simpa using hpa))
      simp only [Bool.false_eq_true, if_false, Bool.not_false]
      simp [hall, hpx]

theorem ascendGE_eq_filter {db : DB} (k : Key) (h : DBSorted db) :
    ascendGE db k = db.filter (fun p => !decide (keyLt p.key k)) := by
  unfold ascendGE
  exact dropWhile_eq_filter_not_of_pairwise
    (h.imp_of_mem (by
      intro a b _ _ hab hb
      simp only [decide_eq_true_eq] at hb ⊢
      exact keyLt_trans hab hb))

theorem descendLE_eq_filter {db : DB} (k : Key) (h : DBSorted db) :
    descendLE db k = (db.filter (fun p => !decide (keyLt k p.key))).reverse := by
  unfold descendLE
  congr 1
  exact takeWhile_eq_filter_of_pairwise
    (h.imp_of_mem (by
      intro a b _ _ hab hb
      simp only [Bool.not_eq_true', decide_eq_false_iff_not] at hb ⊢
      intro hka
      exact hb (keyLt_trans hka hab)))

theorem takeWhile_name_of_bounded {n : String} {v : Ver} :
    ∀ {l : List Pkg}, l.Pairwise (fun a b => keyLt a.key b.key) →
      (∀ x ∈ l, ¬ keyLt x.key (n, v)) →
      l.takeWhile (fun p => p.name == n) = l.filter (fun p => p.name == n) := by
  intro l hs hb
  refine takeWhile_eq_filter_of_pairwise (hs.imp_of_mem ?_)
  intro a b ha _ hab hbn
  simp only [beq_iff_eq] at hbn ⊢
  have hle : nameLt a.name b.name ∨ a.name = b.name := by
    rcases hab with h' | ⟨h', _⟩
    · exact Or.inl h'
    · exact Or.inr h'
  have han : a.name.data ≤ n.data := by
    rcases hle with h' | h'
    · have h'' : nameLt a.name n := hbn ▸ h'
      exact le_of_lt h''
    · exact le_of_eq (congrArg String.data (hbn ▸ h'))
  have han2 : n.data ≤ a.name.data := by
    by_contra hcon
    exact hb a ha (Or.inl (lt_of_not_le hcon))
  exact string_eq_of_data_eq (le_antisymm han han2)

theorem takeWhile_name_of_bounded_desc {n : String} {v : Ver} :
    ∀ {l : List Pkg}, l.Pairwise (fun a b => keyLt b.key a.key) →
      (∀ x ∈ l, ¬ keyLt (n, v) x.key) →
      l.takeWhile (fun p => p.name == n) = l.filter (fun p => p.name == n) := by
  intro l hs hb
  refine takeWhile_eq_filter_of_pairwise (hs.imp_of_mem ?_)
  intro a b ha _ hab hbn
  simp only [beq_iff_eq] at hbn ⊢
  have hle : nameLt b.name a.name ∨ b.name = a.name := by
    rcases hab with h' | ⟨h', _⟩
    · exact Or.inl h'
    · exact Or.inr h'
  have han : n.data ≤ a.name.data := by
    rcases hle with h' | h'
    · have h'' : nameLt n a.name := hbn ▸ h'
      exact le_of_lt h''
    · exact le_of_eq (congrArg String.data (hbn ▸ h'))
  have han2 : a.name.data ≤ n.data := by
    by_contra hcon
    exact hb a ha (Or.inl (lt_of_not_le hcon))
  exact string_eq_of_data_eq (le_antisymm han2 han)

theorem dbGet_eq_filter {db : DB} (n : String) (h : DBSorted db) :
    dbGet db n = db.filter (fun p => p.name == n) := by
  unfold dbGet
  rw [ascendGE_eq_filter _ h]
  rw [@takeWhile_name_of_bounded n 0 _ (h.filter _) ?bound]
  case bound =>
    intro x hx
    simp only [List.mem_filter, Bool.not_eq_true', decide_eq_false_iff_not] at hx
    exact hx.2
  rw [List.filter_filter]
  apply List.filter_congr
  intro p _
  by_cases hpn : p.name = n
  · have hnl : ¬ keyLt p.key (n, 0) := by
      rintro (h' | ⟨_, h'⟩)
      · simp only [Pkg.key] at h'
        exact nameLt_irrefl n (hpn ▸ h')
      · exact Nat.not_lt_zero _ h'
    simp [hpn, hnl]
  · simp [hpn]

theorem laterOrEqual_eq_filter {db : DB} (n : String) (v : Ver) (h : DBSorted db) :
    laterOrEqual db n v = db.filter (fun p => p.name == n && decide (v ≤ p.ver)) := by
  unfold laterOrEqual
  rw [ascendGE_eq_filter _ h]
  rw [@takeWhile_name_of_bounded n v _ (h.filter _) ?bound]
  case bound =>
    intro x hx
    simp only [List.mem_filter, Bool.not_eq_true', decide_eq_false_iff_not] at hx
    exact hx.2
  rw [List.filter_filter]
  apply List.filter_congr
  intro p _
  by_cases hpn : p.name = n
  · by_cases hv : v ≤ p.ver
    · have hnl : ¬ keyLt p.key (n, v) := by
        rintro (h' | ⟨_, h'⟩)
        · simp only [Pkg.key] at h'
          exact nameLt_irrefl n (hpn ▸ h')
        · exact absurd hv (not_le_of_lt h')
      simp [hpn, hnl, hv]
    · have hl : keyLt p.key (n, v) := Or.inr ⟨hpn, lt_of_not_le hv⟩
      simp [hpn, hl, hv]
  · simp [beq_eq_false_iff_ne.mpr hpn]

theorem strictlyLater_eq_filter {db : DB} (n : String) (v : Ver) (h : DBSorted db) :
    strictlyLater db n v = db.filter (fun p => p.name == n && decide (v < p.ver)) := by
  unfold strictlyLater
  have hle : (ascendGE db (n, v)).takeWhile (fun p => p.name == n) = laterOrEqual db n v := rfl
  rw [hle, laterOrEqual_eq_filter _ _ h, List.filter_filter]
  apply List.filter_congr
  intro p _
  by_cases hpn : p.name = n
  · by_cases hv : v < p.ver
    · simp [hpn, hv, Nat.ne_of_gt hv, le_of_lt hv]
    · by_cases he : p.ver = v
      · simp [hpn, he, hv]
      · have hnle : ¬ v ≤ p.ver := by
          rcases lt_or_le p.ver v with h' | h'
          · exact not_le_of_lt h'
          · exact absurd (lt_of_le_of_ne h' (Ne.symm he)) hv
        simp [hpn, hnle, hv, he]
  · simp [beq_eq_false_iff_ne.mpr hpn]

theorem earlierOrEqual_eq_filter {db : DB} (n : String) (v : Ver) (h : DBSorted db) :
    earlierOrEqual db n v = (db.filter (fun p => p.name == n && decide (p.ver ≤ v))).reverse := by
  unfold earlierOrEqual
  rw [descendLE_eq_filter _ h]
  rw [@takeWhile_name_of_bounded_desc n v _
    (List.pairwise_reverse.mpr (h.filter _)) ?bound]
  case bound =>
    intro x hx
    simp only [List.mem_reverse, List.mem_filter, Bool.not_eq_true',
      decide_eq_false_iff_not] at hx
    exact hx.2
  rw [List.filter_reverse, List.filter_filter]
  congr 1
  apply List.filter_congr
  intro p _
  by_cases hpn : p.name = n
  · by_cases hv : p.ver ≤ v
    · have hnl : ¬ keyLt (n, v) p.key := by
        rintro (h' | ⟨_, h'⟩)
        · simp only [Pkg.key] at h'
          exact nameLt_irrefl n (hpn ▸ h')
        · simp only [Pkg.key] at h'
          exact absurd hv (not_le_of_lt h')
      simp [hpn, hnl, hv]
    · have hl : keyLt (n, v) p.key := by
        refine Or.inr ⟨hpn.symm, ?_⟩
        exact lt_of_not_le hv
      simp [hpn, hl, hv]
  · simp [beq_eq_false_iff_ne.mpr hpn]

theorem strictlyEarlier_eq_filter {db : DB} (n : String) (v : Ver) (h : DBSorted db) :
    strictlyEarlier db n v = (db.filter (fun p => p.name == n && decide (p.ver < v))).reverse := by
  unfold strictlyEarlier
  have hee : (descendLE db (n, v)).takeWhile (fun p => p.name == n) = earlierOrEqual db n v := rfl
  rw [hee, earlierOrEqual_eq_filter _ _ h, List.filter_reverse, List.filter_filter]
  congr 1
  apply List.filter_congr
  intro p _
  by_cases hpn : p.name = n
  · by_cases hv : p.ver < v
    · simp [hpn, hv, Nat.ne_of_lt hv, le_of_lt hv]
    · by_cases he : p.ver = v
      · simp [hpn, he, hv]
      · have hnle : ¬ p.ver ≤ v := fun h' => hv (lt_of_le_of_ne h' he)
        simp [hpn, hnle, hv, he]
  · simp [beq_eq_false_iff_ne.mpr hpn]

theorem exactlyEqual_eq_some_iff {db : DB} {n : String} {v : Ver} {p : Pkg}
    (h : DBSorted db) :
    exactlyEqual db n v = some p ↔ p ∈ db ∧ p.name = n ∧ p.ver = v := by
  induction db with
  | nil => simp [exactlyEqual, ascendGE]
  | cons q qs ih =>
    rcases List.pairwise_cons.mp h with ⟨hq, hqs⟩
    by_cases h1 : keyLt q.key (n, v)
    · have : ascendGE (q :: qs) (n, v) = ascendGE qs (n, v) := by
        simp [ascendGE, List.dropWhile_cons, h1]
      unfold exactlyEqual
      rw [this]
      rw [show (match ascendGE qs (n, v) with
        | [] => (none : Option Pkg)
        | p :: _ => if p.name = n ∧ p.ver = v then some p else none) =
          exactlyEqual qs n v from rfl]
      rw [ih hqs]
      constructor
      · rintro ⟨hmem, hn, hv⟩
        exact ⟨List.mem_cons_of_mem _ hmem, hn, hv⟩
      · rintro ⟨hmem, hn, hv⟩
        rcases List.mem_cons.mp hmem with rfl | hmem
        · exact absurd h1 (by rw [show p.key = (n, v) from Prod.ext hn hv]; exact keyLt_irrefl _)
        · exact ⟨hmem, hn, hv⟩
    · have hag : ascendGE (q :: qs) (n, v) = q :: qs := by
        simp [ascendGE, List.dropWhile_cons, h1]
      unfold exactlyEqual
      rw [hag]
      rw [show (match q :: qs with
        | [] => (none : Option Pkg)
        | p :: _ => if p.name = n ∧ p.ver = v then some p else none) =
          (if q.name = n ∧ q.ver = v then some q else none) from rfl]
      by_cases h2 : q.name = n ∧ q.ver = v
      · rw [if_pos h2, Option.some_inj]
        constructor
        · rintro rfl
          exact ⟨List.mem_cons_self _ _, h2⟩
        · rintro ⟨hmem, hn, hv⟩
          rcases List.mem_cons.mp hmem with rfl | hmem
          · rfl
          · have hk : q.key = p.key := by
              rw [show p.key = (n, v) from Prod.ext hn hv,
                show q.key = (n, v) from Prod.ext h2.1 h2.2]
            exact absurd hk (ne_of_keyLt (hq _ hmem))
      · rw [if_neg h2]
        constructor
        · intro h'
          exact absurd h' (by simp)
        · rintro ⟨hmem, hn, hv⟩
          rcases List.mem_cons.mp hmem with rfl | hmem
          · exact absurd ⟨hn, hv⟩ h2
          · have hqk : keyLt (n, v) q.key := by
              rcases keyLt_or_eq_or_gt (n, v) q.key with h' | h' | h'
              · exact h'
              · refine absurd ?_ h2
                have hn' : q.name = n := congrArg Prod.fst h'.symm
                have hv' : q.ver = v := congrArg Prod.snd h'.symm
                exact ⟨hn', hv'⟩
              · exact absurd h' h1
            have hpq := hq _ hmem
            rw [show p.key = (n, v) from Prod.ext hn hv] at hpq
            exact absurd (keyLt_trans hqk hpq) (keyLt_irrefl _)

/-! #### Sortedness is preserved by every database operation -/

theorem foldl_preserve {α β : Type} {P : α → Prop} {step : α → β → α}
    (hstep : ∀ a b, P a → P (step a b)) :
    ∀ (l : List β) (a : α), P a → P (l.foldl step a) := by
  intro l
  induction l with
  | nil => intro a ha; exact ha
  | cons x xs ih => intro a ha; exact ih _ (hstep a x ha)

theorem addProviderWith_sorted {db : DB} {k : Key} {vpkg : Pkg} (h : DBSorted db) :
    DBSorted (addProviderWith db k vpkg) := by
  unfold addProviderWith
  split
  · exact h
  · exact treeRo_sorted _ h

theorem addProvider_sorted {db : DB} {k : Key} {possi : Possi} (h : DBSorted db) :
    DBSorted (addProvider db k possi) := by
  unfold addProvider
  split
  · exact addProviderWith_sorted h
  · exact addProviderWith_sorted h

theorem addPackage_sorted {db : DB} (pkg : Pkg) (h : DBSorted db) :
    DBSorted (addPackage db pkg) := by
  unfold addPackage addPackageAux
  exact foldl_preserve (fun a b ha => addProvider_sorted ha) _ _ (treeRo_sorted _ h)

theorem addAll_sorted {db : DB} (pkgs : List Pkg) (h : DBSorted db) :
    DBSorted (addAll db pkgs) :=
  foldl_preserve (fun a b ha => addPackage_sorted b ha) _ _ h

theorem removeProviderWith_sorted {db : DB} {k : Key} {possi : Possi} {vpkg : Pkg}
    (h : DBSorted db) : DBSorted (removeProviderWith db k possi vpkg) := by
  unfold removeProviderWith
  split
  · exact treeDel_sorted _ h
  · exact treeRo_sorted _ h

theorem removeProvider_sorted {db : DB} {k : Key} {possi : Possi} (h : DBSorted db) :
    DBSorted (removeProvider db k possi) := by
  unfold removeProvider
  split
  · exact h
  · exact removeProviderWith_sorted h

theorem removePkg_sorted {db : DB} (pkg : Pkg) (h : DBSorted db) :
    DBSorted (removePkg db pkg) := by
  unfold removePkg
  exact foldl_preserve (fun a b ha => removeProvider_sorted ha) _ _ (treeDel_sorted _ h)

/-! #### C2: range queries partition `Get` -/

/-- **C2**.  On any sorted database state (the invariant every
API-reachable state satisfies, see `addAll_sorted` et al.): `Get n`
returns exactly the records named `n`, in ascending version order, and
`StrictlyEarlier n v`, `ExactlyEqual n v`, `StrictlyLater n v` are
pairwise disjoint with union `Get n`. -/
theorem pdb_total_order (db : DB) (n : String) (v : Ver) (h : DBSorted db) :
    dbGet db n = db.filter (fun p => p.name == n) ∧
    (dbGet db n).Pairwise (fun a b => a.ver < b.ver) ∧
    (∀ p : Pkg, p ∈ dbGet db n ↔
      p ∈ strictlyEarlier db n v ∨ exactlyEqual db n v = some p ∨
        p ∈ strictlyLater db n v) ∧
    (∀ p : Pkg, p ∈ strictlyEarlier db n v → exactlyEqual db n v ≠ some p) ∧
    (∀ p : Pkg, p ∈ strictlyEarlier db n v → p ∉ strictlyLater db n v) ∧
    (∀ p : Pkg, exactlyEqual db n v = some p → p ∉ strictlyLater db n v) := by
  have hget : ∀ p : Pkg, p ∈ dbGet db n ↔ p ∈ db ∧ p.name = n := by
    intro p
    rw [dbGet_eq_filter _ h]
    simp [List.mem_filter]
  have hse : ∀ p : Pkg, p ∈ strictlyEarlier db n v ↔ p ∈ db ∧ p.name = n ∧ p.ver < v := by
    intro p
    rw [strictlyEarlier_eq_filter _ _ h]
    simp [List.mem_filter, and_assoc]
  have hsl : ∀ p : Pkg, p ∈ strictlyLater db n v ↔ p ∈ db ∧ p.name = n ∧ v < p.ver := by
    intro p
    rw [strictlyLater_eq_filter _ _ h]
    simp [List.mem_filter, and_assoc]
  refine ⟨dbGet_eq_filter _ h, ?_, ?_, ?_, ?_, ?_⟩
  · rw [dbGet_eq_filter _ h]
    refine (h.filter _).imp_of_mem ?_
    intro a b ha hb hab
    rcases List.mem_filter.mp ha with ⟨_, han⟩
    rcases List.mem_filter.mp hb with ⟨_, hbn⟩
    simp only [beq_iff_eq] at han hbn
    rcases hab with h' | ⟨_, h'⟩
    · simp only [Pkg.key] at h'
      rw [han, hbn] at h'
      exact absurd h' (nameLt_irrefl n)
    · exact h'
  · intro p
    rw [hget, hse, hsl, exactlyEqual_eq_some_iff h]
    constructor
    · rintro ⟨hmem, hn⟩
      rcases lt_trichotomy p.ver v with h' | h' | h'
      · exact Or.inl ⟨hmem, hn, h'⟩
      · exact Or.inr (Or.inl ⟨hmem, hn, h'⟩)
      · exact Or.inr (Or.inr ⟨hmem, hn, h'⟩)
    · rintro (⟨hmem, hn, _⟩ | ⟨hmem, hn, _⟩ | ⟨hmem, hn, _⟩) <;> exact ⟨hmem, hn⟩
  · intro p hp he
    rcases (hse p).mp hp with ⟨_, _, hlt⟩
    rcases (exactlyEqual_eq_some_iff h).mp he with ⟨_, _, hv⟩
    exact absurd (hv ▸ hlt) (lt_irrefl v)
  · intro p hp hp'
    rcases (hse p).mp hp with ⟨_, _, hlt⟩
    rcases (hsl p).mp hp' with ⟨_, _, hgt⟩
    exact absurd (lt_trans hlt hgt) (lt_irrefl _)
  · intro p he hp
    rcases (exactlyEqual_eq_some_iff h).mp he with ⟨_, _, hv⟩
    rcases (hsl p).mp hp with ⟨_, _, hgt⟩
    exact absurd (hv ▸ hgt) (lt_irrefl _)

/-- Witness for C2 at a concrete three-record database. -/
theorem pdb_total_order_witness :
    DBSorted [{ name := "bar", ver := 2 }, { name := "foo", ver := 1 },
      { name := "foo", ver := 2 }] ∧
    ((dbGet [{ name := "bar", ver := 2 }, { name := "foo", ver := 1 },
        { name := "foo", ver := 2 }] "foo" =
      List.filter (fun p => p.name == "foo")
        [{ name := "bar", ver := 2 }, { name := "foo", ver := 1 },
          { name := "foo", ver := 2 }]) ∧
      (dbGet [{ name := "bar", ver := 2 }, { name := "foo", ver := 1 },
        { name := "foo", ver := 2 }] "foo").Pairwise (fun a b => a.ver < b.ver) ∧
      (∀ p : Pkg, p ∈ dbGet [{ name := "bar", ver := 2 }, { name := "foo", ver := 1 },
          { name := "foo", ver := 2 }] "foo" ↔
        p ∈ strictlyEarlier [{ name := "bar", ver := 2 }, { name := "foo", ver := 1 },
          { name := "foo", ver := 2 }] "foo" 2 ∨
        exactlyEqual [{ name := "bar", ver := 2 }, { name := "foo", ver := 1 },
          { name := "foo", ver := 2 }] "foo" 2 = some p ∨
        p ∈ strictlyLater [{ name := "bar", ver := 2 }, { name := "foo", ver := 1 },
          { name := "foo", ver := 2 }] "foo" 2) ∧
      (∀ p : Pkg, p ∈ strictlyEarlier [{ name := "bar", ver := 2 },
          { name := "foo", ver := 1 }, { name := "foo", ver := 2 }] "foo" 2 →
        exactlyEqual [{ name := "bar", ver := 2 }, { name := "foo", ver := 1 },
          { name := "foo", ver := 2 }] "foo" 2 ≠ some p) ∧
      (∀ p : Pkg, p ∈ strictlyEarlier [{ name := "bar", ver := 2 },
          { name := "foo", ver := 1 }, { name := "foo", ver := 2 }] "foo" 2 →
        p ∉ strictlyLater [{ name := "bar", ver := 2 }, { name := "foo", ver := 1 },
          { name := "foo", ver := 2 }] "foo" 2) ∧
      (∀ p : Pkg, exactlyEqual [{ name := "bar", ver := 2 }, { name := "foo", ver := 1 },
          { name := "foo", ver := 2 }] "foo" 2 = some p →
        p ∉ strictlyLater [{ name := "bar", ver := 2 }, { name := "foo", ver := 1 },
          { name := "foo", ver := 2 }] "foo" 2)) :=
  ⟨by decide, pdb_total_order _ "foo" 2 (by decide)⟩

/-! #### B-tree access lemmas that need no sortedness

These hold for the raw list operations on any list, because `treeGet`
and `treeRo`/`treeDel` walk the list with the same stopping rule. -/

theorem treeGet_key : ∀ {db : DB} {k : Key} {r : Pkg}, treeGet db k = some r → r.key = k := by
  intro db
  induction db with
  | nil => intro k r h; simp [treeGet] at h
  | cons p ps ih =>
    intro k r h
    by_cases h1 : keyLt k p.key
    · simp [treeGet, h1] at h
    · by_cases h2 : k = p.key
      · simp only [treeGet, if_neg h1, if_pos h2, Option.some_inj] at h
        exact h ▸ h2.symm
      · simp only [treeGet, if_neg h1, if_neg h2] at h
        exact ih h

theorem treeGet_treeRo_self (db : DB) (q : Pkg) : treeGet (treeRo db q) q.key = some q := by
  induction db with
  | nil =>
    show treeGet [q] q.key = some q
    simp [treeGet, keyLt_irrefl]
  | cons p ps ih =>
    by_cases h1 : keyLt q.key p.key
    · rw [show treeRo (p :: ps) q = q :: p :: ps from by simp [treeRo, if_pos h1]]
      simp [treeGet, keyLt_irrefl]
    · by_cases h2 : q.key = p.key
      · rw [show treeRo (p :: ps) q = q :: ps from by simp [treeRo, if_neg h1, if_pos h2]]
        simp [treeGet, keyLt_irrefl]
      · rw [show treeRo (p :: ps) q = p :: treeRo ps q from by simp [treeRo, if_neg h1, if_neg h2]]
        show (if keyLt q.key p.key then none
          else if q.key = p.key then some p else treeGet (treeRo ps q) q.key) = some q
        rw [if_neg h1, if_neg h2]
        exact ih

theorem treeGet_treeRo_other {db : DB} {q : Pkg} {k : Key} (hne : k ≠ q.key) :
    treeGet (treeRo db q) k = treeGet db k := by
  induction db with
  | nil =>
    show (if keyLt k q.key then none
      else if k = q.key then some q else treeGet [] k) = treeGet [] k
    rw [if_neg hne]
    by_cases hk : keyLt k q.key
    · rw [if_pos hk]
      rfl
    · rw [if_neg hk]
  | cons p ps ih =>
    by_cases h1 : keyLt q.key p.key
    · rw [show treeRo (p :: ps) q = q :: p :: ps from by simp [treeRo, if_pos h1]]
      show (if keyLt k q.key then none
        else if k = q.key then some q else treeGet (p :: ps) k) = treeGet (p :: ps) k
      rw [if_neg hne]
      by_cases hk : keyLt k q.key
      · rw [if_pos hk]
        rw [show treeGet (p :: ps) k = none from by simp [treeGet, if_pos (keyLt_trans hk h1)]]
      · rw [if_neg hk]
    · by_cases h2 : q.key = p.key
      · rw [show treeRo (p :: ps) q = q :: ps from by simp [treeRo, if_neg h1, if_pos h2]]
        show (if keyLt k q.key then none
          else if k = q.key then some q else treeGet ps k) =
          (if keyLt k p.key then none else if k = p.key then some p else treeGet ps k)
        rw [if_neg hne, if_neg (fun h : k = p.key => hne (h.trans h2.symm))]
        by_cases hk : keyLt k q.key
        · rw [if_pos hk, if_pos (h2 ▸ hk)]
        · rw [if_neg hk, if_neg (h2 ▸ hk)]
      · rw [show treeRo (p :: ps) q = p :: treeRo ps q from by simp [treeRo, if_neg h1, if_neg h2]]
        show (if keyLt k p.key then none
          else if k = p.key then some p else treeGet (treeRo ps q) k) =
          (if keyLt k p.key then none else if k = p.key then some p else treeGet ps k)
        by_cases hk1 : keyLt k p.key
        · rw [if_pos hk1, if_pos hk1]
        · by_cases hk2 : k = p.key
          · rw [if_neg hk1, if_pos hk2, if_neg hk1, if_pos hk2]
          · rw [if_neg hk1, if_neg hk2, if_neg hk1, if_neg hk2, ih]

theorem treeRo_id {db : DB} {q : Pkg} (h : treeGet db q.key = some q) : treeRo db q = db := by
  induction db with
  | nil => simp [treeGet] at h
  | cons p ps ih =>
    by_cases h1 : keyLt q.key p.key
    · rw [show treeGet (p :: ps) q.key = none from by simp [treeGet, if_pos h1]] at h
      exact absurd h (by simp)
    · by_cases h2 : q.key = p.key
      · have hpq : p = q := by
          rw [show treeGet (p :: ps) q.key = some p from
            by simp [treeGet, if_neg h1, if_pos h2]] at h
          exact Option.some_inj.mp h
        rw [show treeRo (p :: ps) q = q :: ps from by simp [treeRo, if_neg h1, if_pos h2]]
        rw [hpq]
      · rw [show treeGet (p :: ps) q.key = treeGet ps q.key from
          by simp [treeGet, if_neg h1, if_neg h2]] at h
        rw [show treeRo (p :: ps) q = p :: treeRo ps q from by simp [treeRo, if_neg h1, if_neg h2]]
        rw [ih h]

/-! #### URL merging -/

theorem mergeURLs_mono (ex new : List String) : ∃ extra, mergeURLs ex new = ex ++ extra := by
  induction new generalizing ex with
  | nil => exact ⟨[], by simp [mergeURLs]⟩
  | cons u us ih =>
    by_cases hu : ex.contains u
    · simp only [mergeURLs, List.foldl_cons, if_pos hu]
      exact ih ex
    · simp only [mergeURLs, List.foldl_cons, if_neg hu]
      rcases ih (ex ++ [u]) with ⟨extra, hex⟩
      refine ⟨u :: extra, ?_⟩
      rw [show List.foldl (fun acc u => if acc.contains u then acc else acc ++ [u])
        (ex ++ [u]) us = mergeURLs (ex ++ [u]) us from rfl]
      simpa [mergeURLs] using hex

theorem mem_mergeURLs_iff (ex new : List String) (u : String) :
    u ∈ mergeURLs ex new ↔ u ∈ ex ∨ u ∈ new := by
  induction new generalizing ex with
  | nil => simp [mergeURLs]
  | cons x xs ih =>
    by_cases hx : ex.contains x
    · simp only [mergeURLs, List.foldl_cons, if_pos hx]
      rw [show List.foldl _ ex xs = mergeURLs ex xs from rfl, ih]
      constructor
      · rintro (h | h)
        · exact Or.inl h
        · exact Or.inr (List.mem_cons_of_mem _ h)
      · rintro (h | h)
        · exact Or.inl h
        · rcases List.mem_cons.mp h with rfl | h
          · exact Or.inl (by simpa using hx)
          · exact Or.inr h
    · simp only [mergeURLs, List.foldl_cons, if_neg hx]
      rw [show List.foldl _ (ex ++ [x]) xs = mergeURLs (ex ++ [x]) xs from rfl, ih]
      simp only [List.mem_append, List.mem_singleton, List.mem_cons]
      tauto

theorem mergeURLs_eq_self {ex new : List String} (h : ∀ u ∈ new, u ∈ ex) :
    mergeURLs ex new = ex := by
  induction new with
  | nil => rfl
  | cons x xs ih =>
    have hx : ex.contains x := by
      simpa using h x (List.mem_cons_self _ _)
    simp only [mergeURLs, List.foldl_cons, if_pos hx]
    exact ih (fun u hu => h u (List.mem_cons_of_mem _ hu))

theorem mergeURLs_sublist (ex new : List String) :
    ∃ extra, mergeURLs ex new = ex ++ extra ∧ extra.Sublist new := by
  induction new generalizing ex with
  | nil => exact ⟨[], by simp [mergeURLs]⟩
  | cons u us ih =>
    by_cases hu : ex.contains u
    · simp only [mergeURLs, List.foldl_cons, if_pos hu]
      rcases ih ex with ⟨extra, he, hs⟩
      exact ⟨extra, he, hs.cons _⟩
    · simp only [mergeURLs, List.foldl_cons, if_neg hu]
      rcases ih (ex ++ [u]) with ⟨extra, he, hs⟩
      refine ⟨u :: extra, ?_, hs.cons₂ _⟩
      rw [show List.foldl _ (ex ++ [u]) us = mergeURLs (ex ++ [u]) us from rfl] at *
      simpa using he

theorem mergeURLs_nodup {ex new : List String} (h : ex.Nodup) : (mergeURLs ex new).Nodup := by
  induction new generalizing ex with
  | nil => exact h
  | cons u us ih =>
    by_cases hu : ex.contains u
    · simp only [mergeURLs, List.foldl_cons, if_pos hu]
      exact ih h
    · simp only [mergeURLs, List.foldl_cons, if_neg hu]
      refine ih ?_
      rw [List.nodup_append]
      refine ⟨h, List.nodup_singleton u, ?_⟩
      intro a ha
      simp only [List.mem_singleton]
      rintro rfl
      exact absurd ha (by simpa using hu)

/-! #### C7: merge semantics and idempotence of `AddAll` -/

theorem contains_iff_mem {α} [BEq α] [LawfulBEq α] (l : List α) (a : α) :
    l.contains a = true ↔ a ∈ l := by
  simp [List.contains]

theorem mergedPkg_key (db : DB) (pkg : Pkg) : (mergedPkg db pkg).key = pkg.key := by
  unfold mergedPkg
  split
  · rename_i ex hex
    exact show ex.key = pkg.key from treeGet_key hex
  · rfl

theorem mergedPkg_urls_sup (db : DB) (pkg : Pkg) :
    ∀ u ∈ pkg.urls, u ∈ (mergedPkg db pkg).urls := by
  unfold mergedPkg
  split
  · intro u hu
    exact (mem_mergeURLs_iff _ _ _).mpr (Or.inr hu)
  · intro u hu
    exact hu

theorem baseVirtual_key (possi : Possi) : (baseVirtual possi).key = vkey possi := rfl

/-- One `addProvider` step never deletes a record and only ever grows a
record's provider list, leaving its URLs and provides unchanged. -/
theorem addProvider_mono {d : DB} {mk : Key} {x : Possi} {k : Key} {r : Pkg}
    (h : treeGet d k = some r) :
    ∃ r', treeGet (addProvider d mk x) k = some r' ∧ r'.key = r.key ∧
      r'.urls = r.urls ∧ r'.provides = r.provides ∧
      ∀ pk ∈ r.providers, pk ∈ r'.providers := by
  unfold addProvider
  split
  · rename_i ex hex
    unfold addProviderWith
    by_cases hc : ex.providers.contains mk
    · rw [if_pos hc]
      exact ⟨r, h, rfl, rfl, rfl, fun pk hpk => hpk⟩
    · rw [if_neg hc]
      by_cases hk : k = vkey x
      · have hexk : ex.key = vkey x := treeGet_key hex
        have hrx : r = ex := by
          rw [hk] at h
          rw [h] at hex
          exact Option.some_inj.mp hex
        refine ⟨{ ex with providers := ex.providers ++ [mk] }, ?_, ?_, ?_, ?_, ?_⟩
        · rw [hk]
          have hxk : ({ ex with providers := ex.providers ++ [mk] } : Pkg).key = vkey x :=
            show ex.key = vkey x from hexk
          rw [← hxk]
          exact treeGet_treeRo_self _ _
        · rw [hrx]
          rfl
        · rw [hrx]
        · rw [hrx]
        · intro pk hpk
          rw [hrx] at hpk
          exact List.mem_append_left _ hpk
      · have : treeGet (treeRo d { ex with providers := ex.providers ++ [mk] }) k =
            treeGet d k := by
          refine treeGet_treeRo_other ?_
          rw [show ({ ex with providers := ex.providers ++ [mk] } : Pkg).key = ex.key from rfl,
            treeGet_key hex]
          exact hk
        exact ⟨r, this ▸ h, rfl, rfl, rfl, fun pk hpk => hpk⟩
  · rename_i hnone
    unfold addProviderWith
    rw [if_neg (by simp [baseVirtual])]
    by_cases hk : k = vkey x
    · rw [hk] at h
      rw [hnone] at h
      exact absurd h (by simp)
    · have : treeGet (treeRo d { baseVirtual x with
          providers := (baseVirtual x).providers ++ [mk] }) k = treeGet d k := by
        refine treeGet_treeRo_other ?_
        rw [show ({ baseVirtual x with providers := (baseVirtual x).providers ++ [mk] } :
          Pkg).key = vkey x from rfl]
        exact hk
      exact ⟨r, this ▸ h, rfl, rfl, rfl, fun pk hpk => hpk⟩

/-- One `addProvider` step registers `mk` at the virtual key of `x`. -/
theorem addProvider_registers (d : DB) (mk : Key) (x : Possi) :
    ∃ v, treeGet (addProvider d mk x) (vkey x) = some v ∧ mk ∈ v.providers := by
  unfold addProvider
  split
  · rename_i ex hex
    unfold addProviderWith
    by_cases hc : ex.providers.contains mk
    · rw [if_pos hc]
      exact ⟨ex, hex, (contains_iff_mem _ _).mp hc⟩
    · rw [if_neg hc]
      refine ⟨{ ex with providers := ex.providers ++ [mk] }, ?_, ?_⟩
      · have hxk : ({ ex with providers := ex.providers ++ [mk] } : Pkg).key = vkey x :=
          show ex.key = vkey x from treeGet_key hex
        rw [← hxk]
        exact treeGet_treeRo_self _ _
      · exact List.mem_append_right _ (List.mem_singleton.mpr rfl)
  · unfold addProviderWith
    rw [if_neg (by simp [baseVirtual])]
    refine ⟨{ baseVirtual x with providers := (baseVirtual x).providers ++ [mk] }, ?_, ?_⟩
    · have : ({ baseVirtual x with providers := (baseVirtual x).providers ++ [mk] } :
        Pkg).key = vkey x := rfl
      rw [← this]
      exact treeGet_treeRo_self _ _
    · exact List.mem_append_right _ (List.mem_singleton.mpr rfl)

/-- The provider-registration fold: the record at `m`'s key keeps its
URLs and provides, every processed possibility ends registered, and
existing registrations persist. -/
theorem fold_addProvider_spec (mk : Key) :
    ∀ (L : List Possi) (d : DB),
      (∀ k r, treeGet d k = some r →
        ∃ r', treeGet (L.foldl (fun acc possi => addProvider acc mk possi) d) k = some r' ∧
          r'.key = r.key ∧ r'.urls = r.urls ∧ r'.provides = r.provides ∧
          ∀ pk ∈ r.providers, pk ∈ r'.providers) ∧
      (∀ possi ∈ L,
        ∃ v, treeGet (L.foldl (fun acc possi => addProvider acc mk possi) d) (vkey possi) =
          some v ∧ mk ∈ v.providers) := by
  intro L
  induction L with
  | nil =>
    intro d
    refine ⟨?_, ?_⟩
    · intro k r h
      exact ⟨r, h, rfl, rfl, rfl, fun pk hpk => hpk⟩
    · intro possi hmem
      exact absurd hmem (List.not_mem_nil _)
  | cons x xs ih =>
    intro d
    have hstep := fun {k r} (h : treeGet d k = some r) => @addProvider_mono d mk x k r h
    refine ⟨?_, ?_⟩
    · intro k r h
      rcases hstep h with ⟨r1, h1, hk1, hu1, hp1, hpr1⟩
      rcases (ih (addProvider d mk x)).1 k r1 h1 with ⟨r2, h2, hk2, hu2, hp2, hpr2⟩
      exact ⟨r2, h2, hk2.trans hk1, hu2.trans hu1, hp2.trans hp1,
        fun pk hpk => hpr2 _ (hpr1 _ hpk)⟩
    · intro possi hmem
      rcases List.mem_cons.mp hmem with rfl | hmem
      · rcases addProvider_registers d mk possi with ⟨v, hv, hmkv⟩
        rcases (ih (addProvider d mk possi)).1 _ _ hv with ⟨v', hv', _, _, _, hprv⟩
        exact ⟨v', hv', hprv _ hmkv⟩
      · exact (ih (addProvider d mk x)).2 possi hmem

/-- Re-adding a settled package is a no-op. -/
theorem addPackage_of_settled {db : DB} {p : Pkg} (h : Settled db p) :
    addPackage db p = db := by
  rcases h with ⟨r, hget, hurls, hprov⟩
  have hm : mergedPkg db p = r := by
    simp only [mergedPkg, hget]
    rw [mergeURLs_eq_self hurls]
  unfold addPackage addPackageAux
  rw [hm]
  rw [treeRo_id (treeGet_key hget ▸ hget)]
  have : ∀ (L : List Possi),
      (∀ possi ∈ L, ∃ v, treeGet db (vkey possi) = some v ∧ p.key ∈ v.providers) →
      L.foldl (fun acc possi => addProvider acc r.key possi) db = db := by
    intro L
    induction L with
    | nil => intro _; rfl
    | cons x xs ihL =>
      intro hL
      rcases hL x (List.mem_cons_self _ _) with ⟨v, hv, hpv⟩
      have hstep : addProvider db r.key x = db := by
        simp only [addProvider, hv, addProviderWith]
        rw [if_pos ((contains_iff_mem _ _).mpr (by rw [treeGet_key hget]; exact hpv))]
      rw [List.foldl_cons, hstep]
      exact ihL (fun possi hmem => hL possi (List.mem_cons_of_mem _ hmem))
  exact this _ (fun possi hmem => hprov possi hmem)

/-- Adding a package leaves it settled. -/
theorem addPackage_settles (db : DB) (p : Pkg) : Settled (addPackage db p) p := by
  unfold addPackage addPackageAux
  have hbase : treeGet (treeRo db (mergedPkg db p)) (mergedPkg db p).key =
      some (mergedPkg db p) := treeGet_treeRo_self _ _
  rcases (fold_addProvider_spec (mergedPkg db p).key (provPossis (mergedPkg db p).provides)
    (treeRo db (mergedPkg db p))) with ⟨hmono, hreg⟩
  rcases hmono _ _ hbase with ⟨r, hr, hrk, hru, hrp, _⟩
  refine ⟨r, ?_, ?_, ?_⟩
  · rw [← show (mergedPkg db p).key = p.key from mergedPkg_key db p]
    exact hr
  · intro u hu
    rw [hru]
    exact mergedPkg_urls_sup db p u hu
  · intro possi hmem
    rw [hrp] at hmem
    rcases hreg possi hmem with ⟨v, hv, hmv⟩
    exact ⟨v, hv, mergedPkg_key db p ▸ hmv⟩

/-- `addPackage` is monotone: records are never deleted, URLs and
providers only grow, provides are unchanged. -/
theorem addPackage_mono {db : DB} (q : Pkg) {k : Key} {r : Pkg}
    (h : treeGet db k = some r) :
    ∃ r', treeGet (addPackage db q) k = some r' ∧ r'.key = r.key ∧
      (∀ u ∈ r.urls, u ∈ r'.urls) ∧ r'.provides = r.provides ∧
      ∀ pk ∈ r.providers, pk ∈ r'.providers := by
  unfold addPackage addPackageAux
  have hstage1 : ∃ r1, treeGet (treeRo db (mergedPkg db q)) k = some r1 ∧
      r1.key = r.key ∧ (∀ u ∈ r.urls, u ∈ r1.urls) ∧ r1.provides = r.provides ∧
      ∀ pk ∈ r.providers, pk ∈ r1.providers := by
    by_cases hk : k = q.key
    · have hall : mergedPkg db q = { r with urls := mergeURLs r.urls q.urls } := by
        unfold mergedPkg
        rw [hk] at h
        rw [h]
      refine ⟨{ r with urls := mergeURLs r.urls q.urls }, ?_, rfl, ?_, rfl, fun pk hpk => hpk⟩
      · rw [← hall]
        have : (mergedPkg db q).key = k := by rw [mergedPkg_key, hk]
        rw [← this]
        exact treeGet_treeRo_self _ _
      · intro u hu
        exact (mem_mergeURLs_iff _ _ _).mpr (Or.inl hu)
    · refine ⟨r, ?_, rfl, fun u hu => hu, rfl, fun pk hpk => hpk⟩
      rw [treeGet_treeRo_other (by rw [mergedPkg_key]; exact hk)]
      exact h
  rcases hstage1 with ⟨r1, h1, hk1, hu1, hp1, hpr1⟩
  rcases (fold_addProvider_spec (mergedPkg db q).key (provPossis (mergedPkg db q).provides)
    (treeRo db (mergedPkg db q))).1 _ _ h1 with ⟨r2, h2, hk2, hu2, hp2, hpr2⟩
  exact ⟨r2, h2, hk2.trans hk1, fun u hu => hu2 ▸ hu1 u hu, hp2.trans hp1,
    fun pk hpk => hpr2 _ (hpr1 _ hpk)⟩

theorem settled_addPackage_preserve {db : DB} {p : Pkg} (q : Pkg) (h : Settled db p) :
    Settled (addPackage db q) p := by
  rcases h with ⟨r, hget, hurls, hprov⟩
  rcases addPackage_mono q hget with ⟨r', hr', hk', hu', hp', _⟩
  refine ⟨r', hr', fun u hu => hu' u (hurls u hu), ?_⟩
  intro possi hmem
  rw [hp'] at hmem
  rcases hprov possi hmem with ⟨v, hv, hpv⟩
  rcases addPackage_mono q hv with ⟨v', hv', _, _, _, hprv⟩
  exact ⟨v', hv', hprv _ hpv⟩

theorem settled_addAll_preserve {db : DB} {p : Pkg} (l : List Pkg) (h : Settled db p) :
    Settled (addAll db l) p := by
  induction l generalizing db with
  | nil => exact h
  | cons x xs ih => exact ih (settled_addPackage_preserve x h)

theorem addAll_settles (db : DB) (l : List Pkg) : ∀ p ∈ l, Settled (addAll db l) p := by
  induction l generalizing db with
  | nil => intro p hp; exact absurd hp (List.not_mem_nil _)
  | cons x xs ih =>
    intro p hp
    rcases List.mem_cons.mp hp with rfl | hp
    · exact settled_addAll_preserve xs (addPackage_settles db p)
    · exact ih (addPackage db x) p hp

theorem addAll_of_settled {db : DB} {l : List Pkg} (h : ∀ p ∈ l, Settled db p) :
    addAll db l = db := by
  induction l with
  | nil => rfl
  | cons x xs ih =>
    show addAll (addPackage db x) xs = db
    rw [addPackage_of_settled (h x (List.mem_cons_self _ _))]
    exact ih (fun p hp => h p (List.mem_cons_of_mem _ hp))

/-- An `addProvider` step only touches the record at the virtual key. -/
theorem addProvider_other {d : DB} {mk : Key} {x : Possi} {k : Key} (hk : k ≠ vkey x) :
    treeGet (addProvider d mk x) k = treeGet d k := by
  unfold addProvider
  split
  · rename_i ex hex
    unfold addProviderWith
    by_cases hc : ex.providers.contains mk
    · rw [if_pos hc]
    · rw [if_neg hc]
      refine treeGet_treeRo_other ?_
      rw [show ({ ex with providers := ex.providers ++ [mk] } : Pkg).key = ex.key from rfl,
        treeGet_key hex]
      exact hk
  · unfold addProviderWith
    rw [if_neg (by simp [baseVirtual])]
    refine treeGet_treeRo_other ?_
    rw [show ({ baseVirtual x with providers := (baseVirtual x).providers ++ [mk] } :
      Pkg).key = vkey x from rfl]
    exact hk

/-- Adding a package over an existing record with the same key leaves,
at that key, exactly the existing record with the URLs merged — all
other fields from the existing record.  (The side condition rules out a
record providing its own key while not yet being its own registered
provider, a state the API cannot produce.) -/
theorem addPackage_existing {db : DB} {pkg ex : Pkg}
    (hget : treeGet db pkg.key = some ex)
    (hc : ∀ possi ∈ provPossis ex.provides, vkey possi = pkg.key → pkg.key ∈ ex.providers) :
    treeGet (addPackage db pkg) pkg.key =
      some { ex with urls := mergeURLs ex.urls pkg.urls } := by
  have hexk : ex.key = pkg.key := treeGet_key hget
  have hm : mergedPkg db pkg = { ex with urls := mergeURLs ex.urls pkg.urls } := by
    simp only [mergedPkg, hget]
  have hmk : ({ ex with urls := mergeURLs ex.urls pkg.urls } : Pkg).key = pkg.key := hexk
  have haux : ∀ (L : List Possi),
      (∀ possi ∈ L, vkey possi = pkg.key → pkg.key ∈ ex.providers) →
      ∀ d : DB, treeGet d pkg.key = some { ex with urls := mergeURLs ex.urls pkg.urls } →
      treeGet (L.foldl (fun acc possi =>
        addProvider acc ({ ex with urls := mergeURLs ex.urls pkg.urls } : Pkg).key possi) d)
        pkg.key = some { ex with urls := mergeURLs ex.urls pkg.urls } := by
    intro L
    induction L with
    | nil => intro _ d hd; exact hd
    | cons x xs ihL =>
      intro hL d hd
      rw [List.foldl_cons]
      refine ihL (fun possi hmem h' => hL possi (List.mem_cons_of_mem _ hmem) h') _ ?_
      by_cases hvx : vkey x = pkg.key
      · have hdx : treeGet d (vkey x) =
            some { ex with urls := mergeURLs ex.urls pkg.urls } := by
          rw [hvx]
          exact hd
        simp only [addProvider, hdx, addProviderWith]
        rw [if_pos]
        · exact hd
        · refine (contains_iff_mem _ _).mpr ?_
          rw [show ({ ex with urls := mergeURLs ex.urls pkg.urls } : Pkg).providers =
            ex.providers from rfl, hmk]
          exact hL x (List.mem_cons_self _ _) hvx
      · rw [addProvider_other (fun h => hvx h.symm)]
        exact hd
  unfold addPackage addPackageAux
  rw [hm]
  refine haux _ ?_ _ ?_
  · intro possi hmem h'
    exact hc possi (by simpa using hmem) h'
  · rw [← hmk]
    exact treeGet_treeRo_self _ _

/-- **C7**.  `Add` over an existing `(name, version)` record keeps the
record in place, replacing only its URL list by the duplicate-free
order-preserving union of the existing and new URLs; consequently
`AddAll` is idempotent: a second identical `AddAll` leaves any database
unchanged. -/
theorem add_merge_and_addAll_idempotent :
    (∀ (ex new : List String) (u : String), u ∈ mergeURLs ex new ↔ u ∈ ex ∨ u ∈ new) ∧
    (∀ ex new : List String, ex.Nodup → (mergeURLs ex new).Nodup) ∧
    (∀ ex new : List String, ∃ extra, mergeURLs ex new = ex ++ extra ∧ extra.Sublist new) ∧
    (∀ (db : DB) (pkg ex : Pkg), treeGet db pkg.key = some ex →
      (∀ possi ∈ provPossis ex.provides, vkey possi = pkg.key → pkg.key ∈ ex.providers) →
      treeGet (addPackage db pkg) pkg.key =
        some { ex with urls := mergeURLs ex.urls pkg.urls }) ∧
    (∀ (db : DB) (l : List Pkg), addAll (addAll db l) l = addAll db l) :=
  ⟨mem_mergeURLs_iff,
   fun _ _ => mergeURLs_nodup,
   mergeURLs_sublist,
   fun _ _ _ h hc => addPackage_existing h hc,
   fun db l => addAll_of_settled (addAll_settles db l)⟩

/-- Witness for C7's conditional conjunct at a concrete database. -/
theorem add_merge_and_addAll_idempotent_witness :
    (treeGet [({ name := "a", ver := 1, urls := ["u"] } : Pkg)]
        ({ name := "a", ver := 1, urls := ["w", "u"] } : Pkg).key =
      some { name := "a", ver := 1, urls := ["u"] }) ∧
    (∀ possi ∈ provPossis ({ name := "a", ver := 1, urls := ["u"] } : Pkg).provides,
      vkey possi = ({ name := "a", ver := 1, urls := ["w", "u"] } : Pkg).key →
      ({ name := "a", ver := 1, urls := ["w", "u"] } : Pkg).key ∈
        ({ name := "a", ver := 1, urls := ["u"] } : Pkg).providers) ∧
    treeGet (addPackage [({ name := "a", ver := 1, urls := ["u"] } : Pkg)]
        { name := "a", ver := 1, urls := ["w", "u"] })
      ({ name := "a", ver := 1, urls := ["w", "u"] } : Pkg).key =
      some { ({ name := "a", ver := 1, urls := ["u"] } : Pkg) with
        urls := mergeURLs ["u"] ["w", "u"] } :=
  ⟨by decide, by decide,
   add_merge_and_addAll_idempotent.2.2.2.1 _ _ _ (by decide) (by decide)⟩

/-! #### C1: the virtual mirror -/

/-- **C1, counterexample**: a single `Add` of a package that provides
its own `(name, version)` key leaves the database with a non-virtual
record that lists its own name in its provides while no virtual record
with that name exists, refuting the claimed iff. -/
theorem virtual_mirror_counterexample :
    ¬ MirrorNameProp (addPackage []
      { name := "a", ver := 1,
        provides := [[{ name := "a", rel := some { op := "=", ver := 1 } }]] }) := by
  intro h
  exact absurd ((h "a").1.mpr (by decide)) (by decide)

theorem treeGet_eq_none_iff {db : DB} {k : Key} (h : DBSorted db) :
    treeGet db k = none ↔ ∀ x ∈ db, x.key ≠ k := by
  cases hg : treeGet db k with
  | some r =>
    rcases (treeGet_eq_some_iff h).mp hg with ⟨hmem, hk⟩
    simp only [false_iff, (by simp : (some r : Option Pkg) = none ↔ False)]
    intro hall
    exact hall r hmem hk
  | none =>
    simp only [true_iff]
    intro x hx hk
    rw [(treeGet_eq_some_iff h).mpr ⟨hx, hk⟩] at hg
    exact absurd hg (by simp)

theorem treeGet_of_mem {db : DB} {x : Pkg} (h : DBSorted db) (hx : x ∈ db) :
    treeGet db x.key = some x :=
  (treeGet_eq_some_iff h).mpr ⟨hx, rfl⟩

theorem treeGet_treeDel_self {db : DB} (k : Key) (h : DBSorted db) :
    treeGet (treeDel db k) k = none := by
  rw [treeGet_eq_none_iff (treeDel_sorted _ h)]
  intro x hx
  exact ((mem_treeDel_iff h).mp hx).2

theorem treeGet_treeDel_other {db : DB} {k k0 : Key} (h : DBSorted db) (hne : k ≠ k0) :
    treeGet (treeDel db k0) k = treeGet db k := by
  cases hg : treeGet db k with
  | some r =>
    rcases (treeGet_eq_some_iff h).mp hg with ⟨hmem, hk⟩
    exact (treeGet_eq_some_iff (treeDel_sorted _ h)).mpr
      ⟨(mem_treeDel_iff h).mpr ⟨hmem, hk ▸ hne⟩, hk⟩
  | none =>
    rw [treeGet_eq_none_iff h] at hg
    rw [treeGet_eq_none_iff (treeDel_sorted _ h)]
    intro x hx
    exact hg x ((mem_treeDel_iff h).mp hx).1

/-- `addProvider` at an occupied virtual key: the stored record keeps
all fields except that `mk` is ensured among the providers. -/
theorem addProvider_at_some {d : DB} {mk : Key} {x : Possi} {v0 : Pkg}
    (h : treeGet d (vkey x) = some v0) :
    ∃ v1, treeGet (addProvider d mk x) (vkey x) = some v1 ∧ v1.key = v0.key ∧
      v1.isVirtual = v0.isVirtual ∧ v1.urls = v0.urls ∧ v1.provides = v0.provides ∧
      (∀ pk : Key, pk ∈ v1.providers ↔ pk ∈ v0.providers ∨ pk = mk) ∧
      (v0.providers.Nodup → v1.providers.Nodup) := by
  simp only [addProvider, h, addProviderWith]
  by_cases hc : v0.providers.contains mk
  · rw [if_pos hc]
    refine ⟨v0, h, rfl, rfl, rfl, rfl, ?_, fun hn => hn⟩
    intro pk
    constructor
    · intro hpk
      exact Or.inl hpk
    · rintro (hpk | rfl)
      · exact hpk
      · exact (contains_iff_mem _ _).mp hc
  · rw [if_neg hc]
    refine ⟨{ v0 with providers := v0.providers ++ [mk] }, ?_, rfl, rfl, rfl, rfl, ?_, ?_⟩
    · have hxk : ({ v0 with providers := v0.providers ++ [mk] } : Pkg).key = vkey x :=
        show v0.key = vkey x from treeGet_key h
      rw [← hxk]
      exact treeGet_treeRo_self _ _
    · intro pk
      simp [List.mem_append]
    · intro hn
      simp only [List.nodup_append]
      exact ⟨hn, List.nodup_singleton _, by
        intro a ha
        simp only [List.mem_singleton]
        rintro rfl
        exact absurd ((contains_iff_mem _ _).mpr ha) hc⟩

/-- `addProvider` at an empty virtual key: a fresh virtual record is
created with `mk` as sole provider. -/
theorem addProvider_at_none {d : DB} {mk : Key} {x : Possi}
    (h : treeGet d (vkey x) = none) :
    ∃ v1, treeGet (addProvider d mk x) (vkey x) = some v1 ∧ v1.key = vkey x ∧
      v1.isVirtual = true ∧ v1.provides = [] ∧
      (∀ pk : Key, pk ∈ v1.providers ↔ pk = mk) ∧ v1.providers.Nodup := by
  simp only [addProvider, h, addProviderWith]
  rw [if_neg (by simp [baseVirtual])]
  refine ⟨{ baseVirtual x with providers := (baseVirtual x).providers ++ [mk] },
    ?_, rfl, rfl, rfl, ?_, ?_⟩
  · have hxk : ({ baseVirtual x with providers := (baseVirtual x).providers ++ [mk] } :
      Pkg).key = vkey x := rfl
    rw [← hxk]
    exact treeGet_treeRo_self _ _
  · intro pk
    simp [baseVirtual]
  · simp [baseVirtual]

/-- Get-level description of the provider-registration fold relative to
its starting database. -/
theorem fold_addProvider_get (mk : Key) :
    ∀ (L : List Possi) (d : DB),
      (∀ k : Key, k ∉ L.map vkey →
        treeGet (L.foldl (fun acc possi => addProvider acc mk possi) d) k = treeGet d k) ∧
      (∀ k : Key, k ∈ L.map vkey →
        (∃ v0, treeGet d k = some v0 ∧
          ∃ v1, treeGet (L.foldl (fun acc possi => addProvider acc mk possi) d) k = some v1 ∧
            v1.key = v0.key ∧ v1.isVirtual = v0.isVirtual ∧ v1.urls = v0.urls ∧
            v1.provides = v0.provides ∧
            (∀ pk : Key, pk ∈ v1.providers ↔ pk ∈ v0.providers ∨ pk = mk) ∧
            (v0.providers.Nodup → v1.providers.Nodup)) ∨
        (treeGet d k = none ∧
          ∃ v1, treeGet (L.foldl (fun acc possi => addProvider acc mk possi) d) k = some v1 ∧
            v1.key = k ∧ v1.isVirtual = true ∧ v1.provides = [] ∧
            (∀ pk : Key, pk ∈ v1.providers ↔ pk = mk) ∧ v1.providers.Nodup)) := by
  intro L
  induction L with
  | nil =>
    intro d
    refine ⟨fun k _ => rfl, fun k hk => absurd hk (by simp)⟩
  | cons x xs ih =>
    intro d
    have hd1 := ih (addProvider d mk x)
    constructor
    · intro k hk
      have hk1 : k ≠ vkey x := fun h => hk (by simp [h])
      have hk2 : k ∉ xs.map vkey := fun h => hk (by simp [h])
      rw [List.foldl_cons, hd1.1 k hk2, addProvider_other hk1]
    · intro k hk
      rw [List.foldl_cons]
      by_cases hkx : k = vkey x
      · subst hkx
        cases hg : treeGet d (vkey x) with
        | some v0 =>
          rcases addProvider_at_some hg with ⟨va, hva, hk0, hv0, hu0, hp0, hpr0, hn0⟩
          by_cases hmem : vkey x ∈ xs.map vkey
          · rcases hd1.2 (vkey x) hmem with ⟨v0', hv0', v1, h1, hk1, hv1, hu1, hp1, hpr1, hn1⟩ |
              ⟨hnone, _⟩
            · rw [hva] at hv0'
              have hveq : v0' = va := Option.some_inj.mp hv0'.symm
              subst hveq
              refine Or.inl ⟨v0, rfl, v1, h1, hk1.trans hk0, hv1.trans hv0,
                hu1.trans hu0, hp1.trans hp0, ?_, fun hn => hn1 (hn0 hn)⟩
              intro pk
              rw [hpr1, hpr0]
              tauto
            · rw [hva] at hnone
              exact absurd hnone (by simp)
          · refine Or.inl ⟨v0, rfl, va, ?_, hk0, hv0, hu0, hp0, hpr0, hn0⟩
            rw [hd1.1 (vkey x) hmem]
            exact hva
        | none =>
          rcases addProvider_at_none hg with ⟨va, hva, hk0, hv0, hp0, hpr0, hn0⟩
          by_cases hmem : vkey x ∈ xs.map vkey
          · rcases hd1.2 (vkey x) hmem with ⟨v0', hv0', v1, h1, hk1, hv1, hu1, hp1, hpr1, hn1⟩ |
              ⟨hnone, _⟩
            · rw [hva] at hv0'
              have hveq : v0' = va := Option.some_inj.mp hv0'.symm
              subst hveq
              refine Or.inr ⟨rfl, v1, h1, hk1.trans hk0, hv1.trans hv0,
                hp1.trans hp0, ?_, hn1 hn0⟩
              intro pk
              rw [hpr1, hpr0]
              tauto
            · rw [hva] at hnone
              exact absurd hnone (by simp)
          · refine Or.inr ⟨rfl, va, ?_, hk0, hv0, hp0, hpr0, hn0⟩
            rw [hd1.1 (vkey x) hmem]
            exact hva
      · have hmem : k ∈ xs.map vkey := by
          rcases (by simpa using hk : k = vkey x ∨ k ∈ xs.map vkey) with h' | h'
          · exact absurd h' hkx
          · exact h'
        have hstep : treeGet (addProvider d mk x) k = treeGet d k := addProvider_other hkx
        rcases hd1.2 k hmem with ⟨v0', hv0', rest⟩ | ⟨hnone, rest⟩
        · rw [hstep] at hv0'
          exact Or.inl ⟨v0', hv0', rest⟩
        · rw [hstep] at hnone
          exact Or.inr ⟨hnone, rest⟩

theorem provKeys_congr {p q : Pkg} (h : p.provides = q.provides) : provKeys p = provKeys q := by
  unfold provKeys
  rw [h]

/-- `Add` of a universe package preserves the per-key virtual mirror. -/
theorem mirrorInv_add {U : List Pkg} (hU : GoodUniverse U) {db : DB}
    (hinv : MirrorInv U db) {u : Pkg} (hu : u ∈ U) :
    MirrorInv U (addPackage db u) := by
  obtain ⟨hsort, hreal, hiff, hprov⟩ := hinv
  obtain ⟨hU1, hU2, hU3⟩ := hU
  have hsort' : DBSorted (addPackage db u) := addPackage_sorted u hsort
  have hmk : (mergedPkg db u).key = u.key := mergedPkg_key db u
  -- the record stored at u's key is real and carries u's provides
  have hmfacts : (mergedPkg db u).isVirtual = false ∧ (mergedPkg db u).provides = u.provides := by
    unfold mergedPkg
    split
    · rename_i ex hex
      rcases (treeGet_eq_some_iff hsort).mp hex with ⟨hexmem, hexk⟩
      have hexreal : ex.isVirtual = false := by
        by_contra hvirt
        have hvirt' : ex.isVirtual = true := by
          cases h' : ex.isVirtual
          · exact absurd h' hvirt
          · rfl
        rcases (hiff ex.key).mp ⟨ex, hexmem, hvirt', rfl⟩ with ⟨r, hr, hrreal, hkpr⟩
        rcases hreal r hr hrreal with ⟨w, hw, hwk, hwp⟩
        refine hU2 u hu w hw ex.key ?_ hexk
        rw [provKeys_congr hwp]
        exact hkpr
      refine ⟨hexreal, ?_⟩
      rcases hreal ex hexmem hexreal with ⟨w, hw, hwk, hwp⟩
      have : u.provides = w.provides := hU3 u hu w hw (by rw [hwk, hexk])
      rw [show ({ ex with urls := mergeURLs ex.urls u.urls } : Pkg).provides =
        ex.provides from rfl, ← hwp, ← this]
    · exact ⟨hU1 u hu, rfl⟩
  have hmreal := hmfacts.1
  have hmprov := hmfacts.2
  have hmpk : provKeys (mergedPkg db u) = provKeys u := provKeys_congr hmprov
  -- any real record of db with u's key has u's provides
  have hsamekey : ∀ r ∈ db, r.isVirtual = false → r.key = u.key →
      provKeys r = provKeys u := by
    intro r hr hrreal hrk
    rcases hreal r hr hrreal with ⟨w, hw, hwk, hwp⟩
    have h1 : u.provides = w.provides := hU3 u hu w hw (by rw [hwk, hrk])
    refine provKeys_congr ?_
    rw [← hwp, ← h1]
  -- a real record of db never sits at a provides key of u
  have hrealnotvk : ∀ r ∈ db, r.isVirtual = false → r.key ∉ provKeys u := by
    intro r hr hrreal hmem
    rcases hreal r hr hrreal with ⟨w, hw, hwk, _⟩
    exact hU2 w hw u hu r.key hmem hwk.symm
  have hunotvk : u.key ∉ provKeys u := fun h => hU2 u hu u hu u.key h rfl
  -- get-level description of the result
  have hget1 : ∀ k, k ≠ u.key → treeGet (treeRo db (mergedPkg db u)) k = treeGet db k :=
    fun k hk => treeGet_treeRo_other (by rw [hmk]; exact hk)
  have hget1u : treeGet (treeRo db (mergedPkg db u)) u.key = some (mergedPkg db u) := by
    rw [← hmk]
    exact treeGet_treeRo_self _ _
  have hGdef : addPackage db u = (provPossis (mergedPkg db u).provides).foldl
      (fun acc possi => addProvider acc (mergedPkg db u).key possi)
      (treeRo db (mergedPkg db u)) := rfl
  have hVK : (provPossis (mergedPkg db u).provides).map vkey = provKeys u := by
    rw [← hmpk]
    rfl
  obtain ⟨hf1, hf2⟩ := fold_addProvider_get (mergedPkg db u).key
    (provPossis (mergedPkg db u).provides) (treeRo db (mergedPkg db u))
  have hGu : treeGet (addPackage db u) u.key = some (mergedPkg db u) := by
    rw [hGdef, hf1 u.key (by rw [hVK]; exact hunotvk), hget1u]
  have hGother : ∀ k, k ≠ u.key → k ∉ provKeys u →
      treeGet (addPackage db u) k = treeGet db k := by
    intro k h1 h2
    rw [hGdef, hf1 k (by rw [hVK]; exact h2), hget1 k h1]
  have hvknu : ∀ k ∈ provKeys u, k ≠ u.key := fun k hk => hU2 u hu u hu k hk
  have hGvk : ∀ k ∈ provKeys u,
      (∃ v0, treeGet db k = some v0 ∧
        ∃ v1, treeGet (addPackage db u) k = some v1 ∧
          v1.key = v0.key ∧ v1.isVirtual = v0.isVirtual ∧ v1.urls = v0.urls ∧
          v1.provides = v0.provides ∧
          (∀ pk : Key, pk ∈ v1.providers ↔ pk ∈ v0.providers ∨ pk = u.key) ∧
          (v0.providers.Nodup → v1.providers.Nodup)) ∨
      (treeGet db k = none ∧
        ∃ v1, treeGet (addPackage db u) k = some v1 ∧
          v1.key = k ∧ v1.isVirtual = true ∧ v1.provides = [] ∧
          (∀ pk : Key, pk ∈ v1.providers ↔ pk = u.key) ∧ v1.providers.Nodup) := by
    intro k hk
    have h2 := hf2 k (by rw [hVK]; exact hk)
    rw [hget1 k (hvknu k hk)] at h2
    rw [← hGdef] at h2
    rw [hmk] at h2
    exact h2
  -- membership characterizations of the result
  have hrealsG : ∀ x : Pkg, (x ∈ addPackage db u ∧ x.isVirtual = false) ↔
      (x = mergedPkg db u ∨ (x ∈ db ∧ x.isVirtual = false ∧ x.key ≠ u.key)) := by
    intro x
    constructor
    · rintro ⟨hx, hxreal⟩
      have hgx := treeGet_of_mem hsort' hx
      by_cases hk1 : x.key = u.key
      · left
        rw [hk1, hGu] at hgx
        exact (Option.some_inj.mp hgx).symm
      · by_cases hk2 : x.key ∈ provKeys u
        · exfalso
          rcases hGvk x.key hk2 with ⟨v0, hv0, v1, hv1, _, hvirt1, _, _, _, _⟩ |
            ⟨_, v1, hv1, _, hvirt1, _, _, _⟩
          · rw [hgx] at hv1
            have hx1 : x = v1 := Option.some_inj.mp hv1
            rcases (treeGet_eq_some_iff hsort).mp hv0 with ⟨hv0mem, hv0k⟩
            have hv0real : v0.isVirtual = false := by
              rw [← hvirt1, ← hx1]
              exact hxreal
            have hv0in : v0.key ∈ provKeys u := by
              rw [hv0k]
              exact hk2
            exact hrealnotvk v0 hv0mem hv0real hv0in
          · rw [hgx] at hv1
            have hx1 : x = v1 := Option.some_inj.mp hv1
            rw [hx1, hvirt1] at hxreal
            exact absurd hxreal (by simp)
        · right
          rw [hGother x.key hk1 hk2] at hgx
          exact ⟨((treeGet_eq_some_iff hsort).mp hgx).1, hxreal, hk1⟩
    · rintro (rfl | ⟨hx, hxreal, hk⟩)
      · refine ⟨?_, hmreal⟩
        have := hGu
        rw [← hmk] at this
        exact ((treeGet_eq_some_iff hsort').mp this).1
      · have hk2 : x.key ∉ provKeys u := hrealnotvk x hx hxreal
        have : treeGet (addPackage db u) x.key = some x := by
          rw [hGother x.key hk hk2]
          exact treeGet_of_mem hsort hx
        exact ⟨((treeGet_eq_some_iff hsort').mp this).1, hxreal⟩
  have hvirtnotu : ∀ v ∈ db, v.isVirtual = true → v.key ≠ u.key := by
    intro v hv hvirt hk
    rcases (hiff v.key).mp ⟨v, hv, hvirt, rfl⟩ with ⟨r, hr, hrreal, hkpr⟩
    rcases hreal r hr hrreal with ⟨w, hw, hwk, hwp⟩
    refine hU2 u hu w hw v.key ?_ hk
    rw [provKeys_congr hwp]
    exact hkpr
  have hvirtG : ∀ k : Key, (∃ v ∈ addPackage db u, v.isVirtual = true ∧ v.key = k) ↔
      ((∃ v ∈ db, v.isVirtual = true ∧ v.key = k) ∨ k ∈ provKeys u) := by
    intro k
    constructor
    · rintro ⟨v, hv, hvirt, rfl⟩
      by_cases hk2 : v.key ∈ provKeys u
      · exact Or.inr hk2
      · left
        have hk1 : v.key ≠ u.key := by
          intro hk
          have hgv := treeGet_of_mem hsort' hv
          rw [hk, hGu] at hgv
          have : v = mergedPkg db u := (Option.some_inj.mp hgv).symm
          rw [this, hmreal] at hvirt
          exact absurd hvirt (by simp)
        have hgv := treeGet_of_mem hsort' hv
        rw [hGother v.key hk1 hk2] at hgv
        exact ⟨v, ((treeGet_eq_some_iff hsort).mp hgv).1, hvirt, rfl⟩
    · rintro (⟨v, hv, hvirt, rfl⟩ | hk)
      · by_cases hk2 : v.key ∈ provKeys u
        · rcases hGvk v.key hk2 with ⟨v0, hv0, v1, hv1, hk1, hvirt1, _, _, _, _⟩ |
            ⟨hnone, _⟩
          · have hveq : v0 = v := by
              rw [treeGet_of_mem hsort hv] at hv0
              exact Option.some_inj.mp hv0.symm
            subst hveq
            exact ⟨v1, ((treeGet_eq_some_iff hsort').mp hv1).1, hvirt1.trans hvirt, hk1⟩
          · rw [treeGet_of_mem hsort hv] at hnone
            exact absurd hnone (by simp)
        · have hk1 : v.key ≠ u.key := hvirtnotu v hv hvirt
          have : treeGet (addPackage db u) v.key = some v := by
            rw [hGother v.key hk1 hk2]
            exact treeGet_of_mem hsort hv
          exact ⟨v, ((treeGet_eq_some_iff hsort').mp this).1, hvirt, rfl⟩
      · rcases hGvk k hk with ⟨v0, hv0, v1, hv1, hk1, hvirt1, _, _, _, _⟩ |
          ⟨hnone, v1, hv1, hk1, hvirt1, _, _, _⟩
        · rcases (treeGet_eq_some_iff hsort).mp hv0 with ⟨hv0mem, hv0k⟩
          have hv0virt : v0.isVirtual = true := by
            cases h' : v0.isVirtual
            · exact absurd (hrealnotvk v0 hv0mem h' (hv0k ▸ hk)) (by simp)
            · rfl
          exact ⟨v1, ((treeGet_eq_some_iff hsort').mp hv1).1, hvirt1.trans hv0virt,
            hk1.trans hv0k⟩
        · exact ⟨v1, ((treeGet_eq_some_iff hsort').mp hv1).1, hvirt1, hk1⟩
  refine ⟨hsort', ?_, ?_, ?_⟩
  · -- reals come from the universe
    intro r hr hrreal
    rcases (hrealsG r).mp ⟨hr, hrreal⟩ with rfl | ⟨hrdb, hrreal', _⟩
    · exact ⟨u, hu, hmk.symm, hmprov.symm⟩
    · exact hreal r hrdb hrreal'
  · -- existence iff
    intro k
    rw [hvirtG k, hiff k]
    constructor
    · rintro (⟨r, hr, hrreal, hkpr⟩ | hk)
      · by_cases hrk : r.key = u.key
        · refine ⟨mergedPkg db u, ?_, ?_⟩
          · exact ((hrealsG _).mpr (Or.inl rfl)).1
          · refine ⟨hmreal, ?_⟩
            rw [hmpk, ← hsamekey r hr hrreal hrk]
            exact hkpr
        · exact ⟨r, ((hrealsG r).mpr (Or.inr ⟨hr, hrreal, hrk⟩)).1, hrreal, hkpr⟩
      · refine ⟨mergedPkg db u, ((hrealsG _).mpr (Or.inl rfl)).1, hmreal, ?_⟩
        rw [hmpk]
        exact hk
    · rintro ⟨r, hr, hrreal, hkpr⟩
      rcases (hrealsG r).mp ⟨hr, hrreal⟩ with rfl | ⟨hrdb, hrreal', hrk⟩
      · right
        rw [← hmpk]
        exact hkpr
      · exact Or.inl ⟨r, hrdb, hrreal', hkpr⟩
  · -- providers are exactly the providing reals
    intro v' hv' hvirt'
    have hgv' := treeGet_of_mem hsort' hv'
    have hk1 : v'.key ≠ u.key := by
      intro hk
      rw [hk, hGu] at hgv'
      have : v' = mergedPkg db u := (Option.some_inj.mp hgv').symm
      rw [this, hmreal] at hvirt'
      exact absurd hvirt' (by simp)
    by_cases hk2 : v'.key ∈ provKeys u
    · rcases hGvk v'.key hk2 with ⟨v0, hv0, v1, hv1, hkk, hvv, _, _, hpr, hnd⟩ |
        ⟨hnone, v1, hv1, hkk, hvv, _, hpr, hnd⟩
      · have hv1eq : v1 = v' := by
          rw [hgv'] at hv1
          exact (Option.some_inj.mp hv1).symm
        rw [hv1eq] at hkk hpr hnd
        rcases (treeGet_eq_some_iff hsort).mp hv0 with ⟨hv0mem, hv0k⟩
        have hv0virt : v0.isVirtual = true := by
          cases h' : v0.isVirtual
          · have hv0in : v0.key ∈ provKeys u := by
              rw [hv0k]
              exact hk2
            exact absurd (hrealnotvk v0 hv0mem h' hv0in) (by simp)
          · rfl
        rcases hprov v0 hv0mem hv0virt with ⟨hnd0, hiff0⟩
        refine ⟨hnd hnd0, ?_⟩
        intro pk
        rw [hpr pk]
        constructor
        · rintro (hpk | rfl)
          · rcases (hiff0 pk).mp hpk with ⟨r, hr, hrreal, hrk, hkpr⟩
            by_cases hru : r.key = u.key
            · refine ⟨mergedPkg db u, ((hrealsG _).mpr (Or.inl rfl)).1, hmreal,
                hmk.trans (hru.symm.trans hrk), ?_⟩
              rw [hmpk, ← hsamekey r hr hrreal hru, hkk]
              exact hkpr
            · refine ⟨r, ((hrealsG r).mpr (Or.inr ⟨hr, hrreal, hru⟩)).1, hrreal, hrk, ?_⟩
              rw [hkk]
              exact hkpr
          · refine ⟨mergedPkg db u, ((hrealsG _).mpr (Or.inl rfl)).1, hmreal, hmk, ?_⟩
            rw [hmpk]
            exact hk2
        · rintro ⟨r, hr, hrreal, hrk, hkpr⟩
          rcases (hrealsG r).mp ⟨hr, hrreal⟩ with rfl | ⟨hrdb, hrreal', hru⟩
          · right
            rw [← hrk, hmk]
          · left
            refine (hiff0 pk).mpr ⟨r, hrdb, hrreal', hrk, ?_⟩
            rw [hv0k]
            exact hkpr
      · have hv1eq : v1 = v' := by
          rw [hgv'] at hv1
          exact (Option.some_inj.mp hv1).symm
        rw [hv1eq] at hpr hnd
        refine ⟨hnd, ?_⟩
        intro pk
        rw [hpr pk]
        constructor
        · rintro rfl
          refine ⟨mergedPkg db u, ((hrealsG _).mpr (Or.inl rfl)).1, hmreal, hmk, ?_⟩
          rw [hmpk]
          exact hk2
        · rintro ⟨r, hr, hrreal, hrk, hkpr⟩
          rcases (hrealsG r).mp ⟨hr, hrreal⟩ with rfl | ⟨hrdb, hrreal', hru⟩
          · rw [← hrk, hmk]
          · exfalso
            rcases (hiff v'.key).mpr ⟨r, hrdb, hrreal', hkpr⟩ with ⟨w, hw, hwvirt, hwk⟩
            have hgw : treeGet db v'.key = some w := by
              rw [← hwk]
              exact treeGet_of_mem hsort hw
            rw [hgw] at hnone
            exact absurd hnone (by simp)
    · have hgdb : treeGet db v'.key = some v' := by
        rw [← hGother v'.key hk1 hk2]
        exact hgv'
      have hv'db : v' ∈ db := ((treeGet_eq_some_iff hsort).mp hgdb).1
      rcases hprov v' hv'db hvirt' with ⟨hnd0, hiff0⟩
      refine ⟨hnd0, ?_⟩
      intro pk
      rw [hiff0 pk]
      constructor
      · rintro ⟨r, hr, hrreal, hrk, hkpr⟩
        have hru : r.key ≠ u.key := by
          intro hru
          rw [hsamekey r hr hrreal hru] at hkpr
          exact hk2 hkpr
        exact ⟨r, ((hrealsG r).mpr (Or.inr ⟨hr, hrreal, hru⟩)).1, hrreal, hrk, hkpr⟩
      · rintro ⟨r, hr, hrreal, hrk, hkpr⟩
        rcases (hrealsG r).mp ⟨hr, hrreal⟩ with rfl | ⟨hrdb, hrreal', hru⟩
        · exfalso
          rw [hmpk] at hkpr
          exact hk2 hkpr
        · exact ⟨r, hrdb, hrreal', hrk, hkpr⟩

/-- A `removeProvider` step only touches the record at the virtual key. -/
theorem removeProvider_other {d : DB} (hs : DBSorted d) {mk : Key} {x : Possi} {k : Key}
    (hk : k ≠ vkey x) :
    treeGet (removeProvider d mk x) k = treeGet d k := by
  unfold removeProvider
  split
  · rfl
  · rename_i vpkg hg
    unfold removeProviderWith
    by_cases hc : (vpkg.providers.filter (fun pk => pk ≠ mk)).isEmpty
    · rw [if_pos hc]
      exact treeGet_treeDel_other hs hk
    · rw [if_neg hc]
      refine treeGet_treeRo_other ?_
      rw [show ({ vpkg with providers := vpkg.providers.filter (fun pk => pk ≠ mk) } :
        Pkg).key = vpkg.key from rfl, treeGet_key hg]
      exact hk

/-- `removeProvider` at the virtual key: `mk` is dropped from the
providers, and the record is deleted when no providers remain. -/
theorem removeProvider_self {d : DB} (hs : DBSorted d) (mk : Key) (x : Possi) :
    treeGet (removeProvider d mk x) (vkey x) =
      match treeGet d (vkey x) with
      | none => none
      | some v0 =>
        if v0.providers.filter (fun pk => pk ≠ mk) = [] then none
        else some { v0 with providers := v0.providers.filter (fun pk => pk ≠ mk) } := by
  cases hg : treeGet d (vkey x) with
  | none => simp only [removeProvider, hg]
  | some vpkg =>
    simp only [removeProvider, hg, removeProviderWith]
    by_cases he : vpkg.providers.filter (fun pk => pk ≠ mk) = []
    · rw [if_pos (by simpa using he), if_pos he]
      exact treeGet_treeDel_self _ hs
    · rw [if_neg (by simpa using he), if_neg he]
      have hqk : vpkg.key = vkey x := treeGet_key hg
      rw [← hqk]
      exact treeGet_treeRo_self d _

/-- Get-level description of the provider-removal fold of `Remove`
relative to its starting database. -/
theorem fold_removeProvider_get (mk : Key) :
    ∀ (L : List Possi) (d : DB), DBSorted d →
      (∀ k : Key, k ∉ L.map vkey →
        treeGet (L.foldl (fun acc possi => removeProvider acc mk possi) d) k = treeGet d k) ∧
      (∀ k : Key, k ∈ L.map vkey → treeGet d k = none →
        treeGet (L.foldl (fun acc possi => removeProvider acc mk possi) d) k = none) ∧
      (∀ k : Key, k ∈ L.map vkey → ∀ v0, treeGet d k = some v0 →
        (v0.providers.filter (fun pk => pk ≠ mk) = [] →
          treeGet (L.foldl (fun acc possi => removeProvider acc mk possi) d) k = none) ∧
        (v0.providers.filter (fun pk => pk ≠ mk) ≠ [] →
          ∃ v1, treeGet (L.foldl (fun acc possi => removeProvider acc mk possi) d) k = some v1 ∧
            v1.key = v0.key ∧ v1.isVirtual = v0.isVirtual ∧ v1.urls = v0.urls ∧
            v1.provides = v0.provides ∧
            v1.providers = v0.providers.filter (fun pk => pk ≠ mk))) := by
  intro L
  induction L with
  | nil =>
    intro d _
    exact ⟨fun k _ => rfl, fun k hk => absurd hk (by simp),
      fun k hk => absurd hk (by simp)⟩
  | cons x xs ih =>
    intro d hs
    have hs1 : DBSorted (removeProvider d mk x) := removeProvider_sorted hs
    obtain ⟨h1, h2, h3⟩ := ih (removeProvider d mk x) hs1
    refine ⟨?_, ?_, ?_⟩
    · intro k hk
      have hk1 : k ≠ vkey x := fun h => hk (by simp [h])
      have hk2 : k ∉ xs.map vkey := fun h => hk (by simp [h])
      rw [List.foldl_cons, h1 k hk2, removeProvider_other hs hk1]
    · intro k hk hg
      rw [List.foldl_cons]
      by_cases hkx : k = vkey x
      · subst hkx
        have hstep : treeGet (removeProvider d mk x) (vkey x) = none := by
          simp only [removeProvider_self hs mk x, hg]
        by_cases hmem : vkey x ∈ xs.map vkey
        · exact h2 (vkey x) hmem hstep
        · rw [h1 (vkey x) hmem]
          exact hstep
      · have hmem : k ∈ xs.map vkey := by
          rcases (by simpa using hk : k = vkey x ∨ k ∈ xs.map vkey) with h' | h'
          · exact absurd h' hkx
          · exact h'
        refine h2 k hmem ?_
        rw [removeProvider_other hs hkx]
        exact hg
    · intro k hk v0 hg
      rw [List.foldl_cons]
      by_cases hkx : k = vkey x
      · subst hkx
        constructor
        · intro he
          have hstep : treeGet (removeProvider d mk x) (vkey x) = none := by
            simp only [removeProvider_self hs mk x, hg]
            rw [if_pos he]
          by_cases hmem : vkey x ∈ xs.map vkey
          · exact h2 (vkey x) hmem hstep
          · rw [h1 (vkey x) hmem]
            exact hstep
        · intro he
          have hstep : treeGet (removeProvider d mk x) (vkey x) =
              some { v0 with providers := v0.providers.filter (fun pk => pk ≠ mk) } := by
            simp only [removeProvider_self hs mk x, hg]
            rw [if_neg he]
          have hff : (v0.providers.filter (fun pk => pk ≠ mk)).filter (fun pk => pk ≠ mk) =
              v0.providers.filter (fun pk => pk ≠ mk) :=
            List.filter_eq_self.mpr (fun a ha => (List.mem_filter.mp ha).2)
          by_cases hmem : vkey x ∈ xs.map vkey
          · obtain ⟨hemp', hnon'⟩ := h3 (vkey x) hmem
              { v0 with providers := v0.providers.filter (fun pk => pk ≠ mk) } hstep
            have hqne : ({ v0 with providers :=
                v0.providers.filter (fun pk => pk ≠ mk) } : Pkg).providers.filter
                  (fun pk => pk ≠ mk) ≠ [] := by
              intro hcontra
              exact he (hff ▸ hcontra)
            obtain ⟨v1, hv1, hk1, hvv1, hu1, hp1, hpr1⟩ := hnon' hqne
            exact ⟨v1, hv1, hk1, hvv1, hu1, hp1, hpr1.trans hff⟩
          · refine ⟨{ v0 with providers := v0.providers.filter (fun pk => pk ≠ mk) }, ?_,
              rfl, rfl, rfl, rfl, rfl⟩
            rw [h1 (vkey x) hmem]
            exact hstep
      · have hmem : k ∈ xs.map vkey := by
          rcases (by simpa using hk : k = vkey x ∨ k ∈ xs.map vkey) with h' | h'
          · exact absurd h' hkx
          · exact h'
        refine h3 k hmem v0 ?_
        rw [removeProvider_other hs hkx]
        exact hg

/-- `Remove` of a universe package preserves the per-key virtual mirror. -/
theorem mirrorInv_remove {U : List Pkg} (hU : GoodUniverse U) {db : DB}
    (hinv : MirrorInv U db) {u : Pkg} (hu : u ∈ U) :
    MirrorInv U (removePkg db u) := by
  obtain ⟨hsort, hreal, hiff, hprov⟩ := hinv
  obtain ⟨hU1, hU2, hU3⟩ := hU
  have hsort' : DBSorted (removePkg db u) := removePkg_sorted u hsort
  have hsort0 : DBSorted (treeDel db u.key) := treeDel_sorted _ hsort
  -- any real record of db with u's key has u's provides keys
  have hsamekey : ∀ r ∈ db, r.isVirtual = false → r.key = u.key →
      provKeys r = provKeys u := by
    intro r hr hrreal hrk
    rcases hreal r hr hrreal with ⟨w, hw, hwk, hwp⟩
    have h1 : u.provides = w.provides := hU3 u hu w hw (by rw [hwk, hrk])
    refine provKeys_congr ?_
    rw [← hwp, ← h1]
  have hrealnotvk : ∀ r ∈ db, r.isVirtual = false → r.key ∉ provKeys u := by
    intro r hr hrreal hmem
    rcases hreal r hr hrreal with ⟨w, hw, hwk, _⟩
    exact hU2 w hw u hu r.key hmem hwk.symm
  have hunotvk : u.key ∉ provKeys u := fun h => hU2 u hu u hu u.key h rfl
  have hvknu : ∀ k ∈ provKeys u, k ≠ u.key := fun k hk => hU2 u hu u hu k hk
  have hvirtnotu : ∀ v ∈ db, v.isVirtual = true → v.key ≠ u.key := by
    intro v hv hvirt hk
    rcases (hiff v.key).mp ⟨v, hv, hvirt, rfl⟩ with ⟨r, hr, hrreal, hkpr⟩
    rcases hreal r hr hrreal with ⟨w, hw, hwk, hwp⟩
    refine hU2 u hu w hw v.key ?_ hk
    rw [provKeys_congr hwp]
    exact hkpr
  have hGdef : removePkg db u = (provPossis u.provides).foldl
      (fun acc possi => removeProvider acc u.key possi) (treeDel db u.key) := rfl
  have hVK : (provPossis u.provides).map vkey = provKeys u := rfl
  obtain ⟨hf1, hf2, hf3⟩ := fold_removeProvider_get u.key (provPossis u.provides)
    (treeDel db u.key) hsort0
  have hGu : treeGet (removePkg db u) u.key = none := by
    rw [hGdef, hf1 u.key (by rw [hVK]; exact hunotvk)]
    exact treeGet_treeDel_self _ hsort
  have hGother : ∀ k, k ≠ u.key → k ∉ provKeys u →
      treeGet (removePkg db u) k = treeGet db k := by
    intro k h1 h2
    rw [hGdef, hf1 k (by rw [hVK]; exact h2), treeGet_treeDel_other hsort h1]
  have hGvk_none : ∀ k ∈ provKeys u, treeGet db k = none →
      treeGet (removePkg db u) k = none := by
    intro k hk hg
    rw [hGdef]
    refine hf2 k (by rw [hVK]; exact hk) ?_
    rw [treeGet_treeDel_other hsort (hvknu k hk)]
    exact hg
  have hGvk_some : ∀ k ∈ provKeys u, ∀ v0, treeGet db k = some v0 →
      (v0.providers.filter (fun pk => pk ≠ u.key) = [] →
        treeGet (removePkg db u) k = none) ∧
      (v0.providers.filter (fun pk => pk ≠ u.key) ≠ [] →
        ∃ v1, treeGet (removePkg db u) k = some v1 ∧
          v1.key = v0.key ∧ v1.isVirtual = v0.isVirtual ∧ v1.urls = v0.urls ∧
          v1.provides = v0.provides ∧
          v1.providers = v0.providers.filter (fun pk => pk ≠ u.key)) := by
    intro k hk v0 hg
    rw [hGdef]
    refine hf3 k (by rw [hVK]; exact hk) v0 ?_
    rw [treeGet_treeDel_other hsort (hvknu k hk)]
    exact hg
  -- the real records of the result are those of db other than u's key
  have hrealsG : ∀ x : Pkg, (x ∈ removePkg db u ∧ x.isVirtual = false) ↔
      (x ∈ db ∧ x.isVirtual = false ∧ x.key ≠ u.key) := by
    intro x
    constructor
    · rintro ⟨hx, hxreal⟩
      have hgx := treeGet_of_mem hsort' hx
      have hk1 : x.key ≠ u.key := by
        intro hk
        rw [hk, hGu] at hgx
        exact absurd hgx (by simp)
      by_cases hk2 : x.key ∈ provKeys u
      · exfalso
        cases hg : treeGet db x.key with
        | none =>
          rw [hGvk_none x.key hk2 hg] at hgx
          exact absurd hgx (by simp)
        | some v0 =>
          obtain ⟨hemp, hnon⟩ := hGvk_some x.key hk2 v0 hg
          by_cases he : v0.providers.filter (fun pk => pk ≠ u.key) = []
          · rw [hemp he] at hgx
            exact absurd hgx (by simp)
          · obtain ⟨v1, hv1, _, hvv1, _, _, _⟩ := hnon he
            rw [hv1] at hgx
            have hxe : v1 = x := Option.some_inj.mp hgx
            rcases (treeGet_eq_some_iff hsort).mp hg with ⟨hv0mem, hv0k⟩
            cases h0 : v0.isVirtual
            · refine hrealnotvk v0 hv0mem h0 ?_
              rw [hv0k]
              exact hk2
            · rw [← hxe, hvv1, h0] at hxreal
              exact absurd hxreal (by simp)
      · rw [hGother x.key hk1 hk2] at hgx
        exact ⟨((treeGet_eq_some_iff hsort).mp hgx).1, hxreal, hk1⟩
    · rintro ⟨hx, hxreal, hk⟩
      have hk2 : x.key ∉ provKeys u := hrealnotvk x hx hxreal
      have hgx : treeGet (removePkg db u) x.key = some x := by
        rw [hGother x.key hk hk2]
        exact treeGet_of_mem hsort hx
      exact ⟨((treeGet_eq_some_iff hsort').mp hgx).1, hxreal⟩
  refine ⟨hsort', ?_, ?_, ?_⟩
  · -- reals come from the universe
    intro r hr hrreal
    exact hreal r ((hrealsG r).mp ⟨hr, hrreal⟩).1 hrreal
  · -- existence iff, per key
    intro k
    constructor
    · rintro ⟨v, hv, hvirt, rfl⟩
      have hgv := treeGet_of_mem hsort' hv
      have hk1 : v.key ≠ u.key := by
        intro hk
        rw [hk, hGu] at hgv
        exact absurd hgv (by simp)
      by_cases hk2 : v.key ∈ provKeys u
      · cases hg : treeGet db v.key with
        | none =>
          rw [hGvk_none v.key hk2 hg] at hgv
          exact absurd hgv (by simp)
        | some v0 =>
          obtain ⟨hemp, hnon⟩ := hGvk_some v.key hk2 v0 hg
          by_cases he : v0.providers.filter (fun pk => pk ≠ u.key) = []
          · rw [hemp he] at hgv
            exact absurd hgv (by simp)
          · obtain ⟨v1, hv1, _, hvv1, _, _, hpr1⟩ := hnon he
            rw [hv1] at hgv
            have hxe : v1 = v := Option.some_inj.mp hgv
            rcases (treeGet_eq_some_iff hsort).mp hg with ⟨hv0mem, hv0k⟩
            have hv0virt : v0.isVirtual = true := by
              rw [← hvv1, hxe]
              exact hvirt
            obtain ⟨pk0, hpk0⟩ := List.exists_mem_of_ne_nil _ he
            have hpk0' := List.mem_filter.mp hpk0
            have hpkne : pk0 ≠ u.key := of_decide_eq_true hpk0'.2
            rcases hprov v0 hv0mem hv0virt with ⟨_, hiff0⟩
            rcases (hiff0 pk0).mp hpk0'.1 with ⟨r, hr, hrreal, hrk, hkpr⟩
            have hrku : r.key ≠ u.key := by
              rw [hrk]
              exact hpkne
            refine ⟨r, ((hrealsG r).mpr ⟨hr, hrreal, hrku⟩).1, hrreal, ?_⟩
            rw [← hv0k]
            exact hkpr
      · rw [hGother v.key hk1 hk2] at hgv
        have hvdb : v ∈ db := ((treeGet_eq_some_iff hsort).mp hgv).1
        rcases (hiff v.key).mp ⟨v, hvdb, hvirt, rfl⟩ with ⟨r, hr, hrreal, hkpr⟩
        have hrku : r.key ≠ u.key := by
          intro hrk
          rw [hsamekey r hr hrreal hrk] at hkpr
          exact hk2 hkpr
        exact ⟨r, ((hrealsG r).mpr ⟨hr, hrreal, hrku⟩).1, hrreal, hkpr⟩
    · rintro ⟨r, hr, hrreal, hkpr⟩
      obtain ⟨hrdb, hrreal', hrku⟩ := (hrealsG r).mp ⟨hr, hrreal⟩
      rcases (hiff k).mpr ⟨r, hrdb, hrreal', hkpr⟩ with ⟨v, hv, hvirt, hvk⟩
      by_cases hk2 : k ∈ provKeys u
      · subst hvk
        have hgv : treeGet db v.key = some v := treeGet_of_mem hsort hv
        obtain ⟨hemp, hnon⟩ := hGvk_some v.key hk2 v hgv
        rcases hprov v hv hvirt with ⟨_, hiffv⟩
        have hrin : r.key ∈ v.providers := (hiffv r.key).mpr ⟨r, hrdb, hrreal', rfl, hkpr⟩
        have hrfil : r.key ∈ v.providers.filter (fun pk => pk ≠ u.key) :=
          List.mem_filter.mpr ⟨hrin, decide_eq_true hrku⟩
        have hne : v.providers.filter (fun pk => pk ≠ u.key) ≠ [] := by
          intro hcontra
          rw [hcontra] at hrfil
          exact absurd hrfil (by simp)
        obtain ⟨v1, hv1, hk1', hvv1, _, _, _⟩ := hnon hne
        refine ⟨v1, ((treeGet_eq_some_iff hsort').mp hv1).1, ?_, hk1'⟩
        rw [hvv1]
        exact hvirt
      · have hgv : treeGet (removePkg db u) k = some v := by
          rw [hGother k (by rw [← hvk]; exact hvirtnotu v hv hvirt) hk2, ← hvk]
          exact treeGet_of_mem hsort hv
        exact ⟨v, ((treeGet_eq_some_iff hsort').mp hgv).1, hvirt, hvk⟩
  · -- providers are exactly the surviving providing reals
    intro v' hv' hvirt'
    have hgv' := treeGet_of_mem hsort' hv'
    have hk1 : v'.key ≠ u.key := by
      intro hk
      rw [hk, hGu] at hgv'
      exact absurd hgv' (by simp)
    by_cases hk2 : v'.key ∈ provKeys u
    · cases hg : treeGet db v'.key with
      | none =>
        rw [hGvk_none v'.key hk2 hg] at hgv'
        exact absurd hgv' (by simp)
      | some v0 =>
        obtain ⟨hemp, hnon⟩ := hGvk_some v'.key hk2 v0 hg
        by_cases he : v0.providers.filter (fun pk => pk ≠ u.key) = []
        · rw [hemp he] at hgv'
          exact absurd hgv' (by simp)
        · obtain ⟨v1, hv1, hk1', hvv1, _, _, hpr1⟩ := hnon he
          rw [hv1] at hgv'
          have hxe : v1 = v' := Option.some_inj.mp hgv'
          rw [hxe] at hk1' hvv1 hpr1
          rcases (treeGet_eq_some_iff hsort).mp hg with ⟨hv0mem, hv0k⟩
          have hv0virt : v0.isVirtual = true := by
            rw [← hvv1]
            exact hvirt'
          rcases hprov v0 hv0mem hv0virt with ⟨hnd0, hiff0⟩
          constructor
          · rw [hpr1]
            exact hnd0.filter _
          · intro pk
            rw [hpr1, List.mem_filter]
            constructor
            · rintro ⟨hpk, hpkne⟩
              have hpkne' : pk ≠ u.key := of_decide_eq_true hpkne
              rcases (hiff0 pk).mp hpk with ⟨r, hr, hrreal, hrk, hkpr⟩
              have hrku : r.key ≠ u.key := by
                rw [hrk]
                exact hpkne'
              refine ⟨r, ((hrealsG r).mpr ⟨hr, hrreal, hrku⟩).1, hrreal, hrk, ?_⟩
              rw [hk1']
              exact hkpr
            · rintro ⟨r, hr, hrreal, hrk, hkpr⟩
              obtain ⟨hrdb, hrreal'', hrku⟩ := (hrealsG r).mp ⟨hr, hrreal⟩
              refine ⟨(hiff0 pk).mpr ⟨r, hrdb, hrreal'', hrk, ?_⟩,
                decide_eq_true (hrk ▸ hrku)⟩
              rw [← hk1']
              exact hkpr
    · have hgdb : treeGet db v'.key = some v' := by
        rw [← hGother v'.key hk1 hk2]
        exact hgv'
      have hv'db : v' ∈ db := ((treeGet_eq_some_iff hsort).mp hgdb).1
      rcases hprov v' hv'db hvirt' with ⟨hnd0, hiff0⟩
      refine ⟨hnd0, ?_⟩
      intro pk
      rw [hiff0 pk]
      constructor
      · rintro ⟨r, hr, hrreal, hrk, hkpr⟩
        have hrku : r.key ≠ u.key := by
          intro hrk'
          rw [hsamekey r hr hrreal hrk'] at hkpr
          exact hk2 hkpr
        exact ⟨r, ((hrealsG r).mpr ⟨hr, hrreal, hrku⟩).1, hrreal, hrk, hkpr⟩
      · rintro ⟨r, hr, hrreal, hrk, hkpr⟩
        obtain ⟨hrdb, hrreal'', _⟩ := (hrealsG r).mp ⟨hr, hrreal⟩
        exact ⟨r, hrdb, hrreal'', hrk, hkpr⟩

theorem mirrorInv_nil (U : List Pkg) : MirrorInv U [] := by
  refine ⟨List.Pairwise.nil, ?_, ?_, ?_⟩
  · intro r hr
    exact absurd hr (by simp)
  · intro k
    simp
  · intro v hv
    exact absurd hv (by simp)

theorem mirrorInv_applyOps {U : List Pkg} (hU : GoodUniverse U) :
    ∀ (ops : List DBOp) (db : DB), MirrorInv U db → (∀ op ∈ ops, opPkg op ∈ U) →
      MirrorInv U (applyOps db ops) := by
  intro ops
  induction ops with
  | nil =>
    intro db hinv _
    exact hinv
  | cons op rest ih =>
    intro db hinv hops
    have h1 : MirrorInv U (applyOp db op) := by
      cases op with
      | add p => exact mirrorInv_add hU hinv (hops (.add p) (List.mem_cons_self _ _))
      | remove p => exact mirrorInv_remove hU hinv (hops (.remove p) (List.mem_cons_self _ _))
    exact ih (applyOp db op) h1 (fun o ho => hops o (List.mem_cons_of_mem _ ho))

/-- **C1 (amended)**.  The claimed per-name virtual mirror is refuted
by `virtual_mirror_counterexample` (a package providing its own
`(name, version)` key swallows the virtual record).  For the inputs the
repository actually stores — non-virtual records whose provides keys
collide with no record key, equal-key records agreeing on provides
(`GoodUniverse`) — every finite sequence of `Add`/`Remove` maintains
the per-(name, version)-key mirror: a virtual record at key `k` exists
iff some stored non-virtual record's provides induce `k`, and its
providers list is, without duplicates, exactly the set of keys of those
records. -/
theorem virtual_mirror_amended {U : List Pkg} (hU : GoodUniverse U) {ops : List DBOp}
    (hops : ∀ op ∈ ops, opPkg op ∈ U) :
    MirrorInv U (applyOps [] ops) :=
  mirrorInv_applyOps hU ops [] (mirrorInv_nil U) hops

/-- Witness for the amended C1 at a concrete history: two providers of
one virtual key are added, then one is removed. -/
theorem virtual_mirror_amended_witness :
    GoodUniverse
      [{ name := "a", ver := 1, provides := [[{ name := "vp", rel := none }]] },
       { name := "b", ver := 2, provides := [[{ name := "vp", rel := none }]] }] ∧
    MirrorInv
      [{ name := "a", ver := 1, provides := [[{ name := "vp", rel := none }]] },
       { name := "b", ver := 2, provides := [[{ name := "vp", rel := none }]] }]
      (applyOps []
        [.add { name := "a", ver := 1, provides := [[{ name := "vp", rel := none }]] },
         .add { name := "b", ver := 2, provides := [[{ name := "vp", rel := none }]] },
         .remove { name := "a", ver := 1, provides := [[{ name := "vp", rel := none }]] }]) :=
  ⟨by decide, virtual_mirror_amended (by decide) (by decide)⟩

/-! #### Pin preservation through selection and pruning (claim C3) -/

theorem treeGet_mem : ∀ {db : DB} {k : Key} {r : Pkg}, treeGet db k = some r → r ∈ db := by
  intro db
  induction db with
  | nil =>
    intro k r h
    exact absurd h (by simp [treeGet])
  | cons p ps ih =>
    intro k r h
    unfold treeGet at h
    split at h
    · exact absurd h (by simp)
    · split at h
      · rw [← Option.some_inj.mp h]
        exact List.mem_cons_self p ps
      · exact List.mem_cons_of_mem p (ih h)

theorem pinnedAt_treeRo {n : String} {v : Ver} {db : DB} {q : Pkg} (h : PinnedAt n v db)
    (hq : q.isVirtual = false → q.name = n → q.ver = v) :
    PinnedAt n v (treeRo db q) := by
  intro x hx hreal hname
  rcases mem_of_mem_treeRo hx with rfl | hx'
  · exact hq hreal hname
  · exact h x hx' hreal hname

theorem pinnedAt_treeDel {n : String} {v : Ver} {db : DB} (k : Key) (h : PinnedAt n v db) :
    PinnedAt n v (treeDel db k) :=
  fun x hx => h x ((treeDel_sublist db k).mem hx)

theorem pinnedAt_addProvider {n : String} {v : Ver} {d : DB} {mk : Key} {possi : Possi}
    (h : PinnedAt n v d) : PinnedAt n v (addProvider d mk possi) := by
  unfold addProvider
  split
  · rename_i ex hex
    unfold addProviderWith
    split
    · exact h
    · refine pinnedAt_treeRo h ?_
      intro hreal hname
      exact h ex (treeGet_mem hex) hreal hname
  · unfold addProviderWith
    split
    · exact h
    · refine pinnedAt_treeRo h ?_
      intro hreal _
      exact absurd hreal (by simp [baseVirtual])

theorem pinnedAt_addPackage {n : String} {v : Ver} {s : DB} {pkg : Pkg} (h : PinnedAt n v s)
    (hpkg : pkg.name = n → pkg.ver = v) : PinnedAt n v (addPackage s pkg) := by
  have hm : (mergedPkg s pkg).isVirtual = false → (mergedPkg s pkg).name = n →
      (mergedPkg s pkg).ver = v := by
    unfold mergedPkg
    split
    · rename_i ex hex
      intro hreal hname
      exact h ex (treeGet_mem hex) hreal hname
    · exact fun _ => hpkg
  unfold addPackage addPackageAux
  refine foldl_preserve ?_ _ _ (pinnedAt_treeRo h hm)
  intro d possi hd
  exact pinnedAt_addProvider hd

theorem pinnedAt_removeProvider {n : String} {v : Ver} {d : DB} {mk : Key} {possi : Possi}
    (h : PinnedAt n v d) : PinnedAt n v (removeProvider d mk possi) := by
  unfold removeProvider
  split
  · exact h
  · rename_i vpkg hg
    unfold removeProviderWith
    split
    · exact pinnedAt_treeDel _ h
    · refine pinnedAt_treeRo h ?_
      intro hreal hname
      exact h vpkg (treeGet_mem hg) hreal hname

theorem pinnedAt_removePkg {n : String} {v : Ver} {db : DB} {u : Pkg} (h : PinnedAt n v db) :
    PinnedAt n v (removePkg db u) := by
  unfold removePkg
  refine foldl_preserve ?_ _ _ (pinnedAt_treeDel _ h)
  intro d possi hd
  exact pinnedAt_removeProvider hd

theorem pinnedAt_selectStep {n : String} {v : Ver} {req : String → Option (Option Ver)}
    {sdb : DB} {pkg : Pkg} (hreqn : req n = some (some v)) (h : PinnedAt n v sdb) :
    PinnedAt n v (selectStep req sdb pkg) := by
  unfold selectStep
  split
  · rename_i v' hreq
    split
    · rename_i hver
      refine pinnedAt_addPackage h ?_
      intro hname
      rw [hname, hreqn] at hreq
      exact hver.trans (Option.some_inj.mp (Option.some_inj.mp hreq)).symm
    · exact h
  · rename_i hne
    have hpname : ¬ pkg.name = n := by
      intro hname
      exact hne v (by rw [hname]; exact hreqn)
    split
    · exact pinnedAt_addPackage h (fun hname => absurd hname hpname)
    · split
      · exact pinnedAt_addPackage (pinnedAt_removePkg h) (fun hname => absurd hname hpname)
      · exact h

theorem pinnedAt_selectNewest {n : String} {v : Ver} {req : String → Option (Option Ver)}
    (cdb : DB) (hreqn : req n = some (some v)) :
    PinnedAt n v (selectNewest req cdb) := by
  unfold selectNewest
  refine foldl_preserve ?_ _ _ ?_
  · intro d pkg hd
    exact pinnedAt_selectStep hreqn hd
  · intro x hx
    exact absurd hx (by simp)

theorem pinnedAt_pruneFix {n : String} {v : Ver} {pdb : DB} :
    ∀ (fuel : Nat) {cdb out : DB}, PinnedAt n v cdb → pruneFix pdb fuel cdb = .ok out →
      PinnedAt n v out := by
  intro fuel
  induction fuel with
  | zero =>
    intro cdb out _ h
    exact absurd h (by simp [pruneFix])
  | succ f ih =>
    intro cdb out hp h
    simp only [pruneFix] at h
    split at h
    · rw [← Except.ok.inj h]
      exact hp
    · exact ih (foldl_preserve (fun d u hd => pinnedAt_removePkg hd) _ _ hp) h

theorem selectStep_sorted {req : String → Option (Option Ver)} {sdb : DB} {pkg : Pkg}
    (h : DBSorted sdb) : DBSorted (selectStep req sdb pkg) := by
  unfold selectStep
  split
  · split
    · exact addPackage_sorted _ h
    · exact h
  · split
    · exact addPackage_sorted _ h
    · split
      · exact addPackage_sorted _ (removePkg_sorted _ h)
      · exact h

theorem selectNewest_sorted (req : String → Option (Option Ver)) (cdb : DB) :
    DBSorted (selectNewest req cdb) := by
  unfold selectNewest
  refine foldl_preserve ?_ _ _ List.Pairwise.nil
  intro d pkg hd
  exact selectStep_sorted hd

theorem pruneFix_sorted {pdb : DB} :
    ∀ (fuel : Nat) {cdb out : DB}, DBSorted cdb → pruneFix pdb fuel cdb = .ok out →
      DBSorted out := by
  intro fuel
  induction fuel with
  | zero =>
    intro cdb out _ h
    exact absurd h (by simp [pruneFix])
  | succ f ih =>
    intro cdb out hs h
    simp only [pruneFix] at h
    split at h
    · rw [← Except.ok.inj h]
      exact hs
    · exact ih (foldl_preserve (fun d u hd => removePkg_sorted u hd) _ _ hs) h

theorem dbsorted_key_inj {db : DB} (h : DBSorted db) :
    ∀ {x y : Pkg}, x ∈ db → y ∈ db → x.key = y.key → x = y := by
  induction db with
  | nil =>
    intro x y hx
    exact absurd hx (by simp)
  | cons p ps ih =>
    intro x y hx hy hk
    rcases List.mem_cons.mp hx with rfl | hx' <;> rcases List.mem_cons.mp hy with rfl | hy'
    · rfl
    · exact absurd (hk ▸ (List.pairwise_cons.mp h).1 y hy') (keyLt_irrefl _)
    · exact absurd (hk ▸ (List.pairwise_cons.mp h).1 x hx') (keyLt_irrefl _)
    · exact ih (List.pairwise_cons.mp h).2 hx' hy' hk

theorem resolveFull_ok_elim {fuel : Nat} {pdb : DB} {incl excl : List (String × Option Ver)}
    {sdb : DB} (h : resolveFull fuel pdb incl excl = .ok sdb) :
    ∃ cdb3, postPrune fuel pdb incl excl = .ok cdb3 ∧
      pruneFix pdb fuel (selectNewest (reqLookup incl) cdb3) = .ok sdb ∧
      checkRequested incl sdb = .ok () := by
  unfold resolveFull at h
  cases hpp : postPrune fuel pdb incl excl with
  | error e =>
    rw [hpp] at h
    exact absurd h (by simp [Bind.bind, Except.bind])
  | ok cdb3 =>
    rw [hpp] at h
    simp only [Bind.bind, Except.bind] at h
    cases hpf : pruneFix pdb fuel (selectNewest (reqLookup incl) cdb3) with
    | error e =>
      rw [hpf] at h
      exact absurd h (by simp)
    | ok sdb2 =>
      rw [hpf] at h
      simp only [] at h
      cases hcr : checkRequested incl sdb2 with
      | error e =>
        rw [hcr] at h
        exact absurd h (by simp)
      | ok u =>
        rw [hcr] at h
        have hs : sdb2 = sdb := Except.ok.inj h
        subst hs
        exact ⟨cdb3, rfl, hpf, by rw [hcr]⟩

theorem checkRequested_ok {incl : List (String × Option Ver)} {sdb : DB}
    (h : checkRequested incl sdb = .ok ()) :
    ∀ e ∈ incl, ∀ vo, reqLookup incl e.1 = some vo → reqSatisfied sdb e.1 vo = true := by
  intro e he vo hvo
  unfold checkRequested at h
  split at h
  · exact absurd h (by simp)
  · rename_i hf
    have hpe := List.find?_eq_none.mp hf e he
    simp only [hvo] at hpe
    simpa using hpe

theorem reqLookup_mem {incl : List (String × Option Ver)} {n : String} {vo : Option Ver}
    (h : reqLookup incl n = some vo) : (n, vo) ∈ incl := by
  unfold reqLookup at h
  cases hf : incl.reverse.find? (fun e => e.1 == n) with
  | none =>
    rw [hf] at h
    exact absurd h (by simp)
  | some e =>
    rw [hf] at h
    have he : e ∈ incl := List.mem_reverse.mp (List.mem_of_find?_eq_some hf)
    have hn : e.1 = n := by simpa using List.find?_some hf
    have hvo : e.2 = vo := by simpa using h
    have heq : e = (n, vo) := Prod.ext hn hvo
    rw [← heq]
    exact he

/-- **C3, counterexample**: the include list `["n=1", "n"]` contains
the entry `n=1` and `Resolve` succeeds, yet the selected database holds
only `n` at version 2 — the later bare entry overwrote the pin in the
`requestedPackages` map, so the claimed guarantee for "an entry n=v in
the include list" fails. -/
theorem resolver_pin_counterexample :
    resolveFull 9 (addAll [] [{ name := "n", ver := 1 }, { name := "n", ver := 2 }])
        [("n", some 1), ("n", none)] [] =
      .ok [{ name := "n", ver := 2 }] ∧
    ¬ ∃ r ∈ [({ name := "n", ver := 2 } : Pkg)], r.isVirtual = false ∧ r.name = "n" ∧
        r.ver = 1 :=
  ⟨by decide, by decide⟩

/-- **C3 (amended)**.  The guarantee holds for the *effective* pin —
the last include entry for the name, since later entries overwrite
earlier ones in the `requestedPackages` map
(`resolver_pin_counterexample` refutes the per-entry reading): if
`Resolve` succeeds and the effective request for `n` is version `v`,
then a record at `(n, v)` is present (`ExactlyEqual` hits, the phase-6
check), every non-virtual selected record named `n` has version `v`,
and there is at most one such record. -/
theorem resolver_pin_amended {fuel : Nat} {pdb sdb : DB} {incl excl : List (String × Option Ver)}
    (hok : resolveFull fuel pdb incl excl = .ok sdb)
    {n : String} {v : Ver} (hpin : reqLookup incl n = some (some v)) :
    (∃ r, exactlyEqual sdb n v = some r) ∧
    (∀ x ∈ sdb, x.isVirtual = false → x.name = n → x.ver = v) ∧
    (∀ x ∈ sdb, ∀ y ∈ sdb, x.isVirtual = false → y.isVirtual = false →
      x.name = n → y.name = n → x = y) := by
  obtain ⟨cdb3, hpp, hpf, hcr⟩ := resolveFull_ok_elim hok
  have hpinned : PinnedAt n v sdb :=
    pinnedAt_pruneFix fuel (pinnedAt_selectNewest cdb3 hpin) hpf
  have hsorted : DBSorted sdb := pruneFix_sorted fuel (selectNewest_sorted _ _) hpf
  refine ⟨?_, hpinned, ?_⟩
  · have hmem : (n, some v) ∈ incl := reqLookup_mem hpin
    have hsat := checkRequested_ok hcr (n, some v) hmem (some v) hpin
    simp only [reqSatisfied] at hsat
    exact Option.isSome_iff_exists.mp hsat
  · intro x hx y hy hxr hyr hxn hyn
    refine dbsorted_key_inj hsorted hx hy ?_
    show (x.name, x.ver) = (y.name, y.ver)
    rw [hxn, hyn, hpinned x hx hxr hxn, hpinned y hy hyr hyn]

/-- Witness for the amended C3 at a one-package database pinned to its
only version. -/
theorem resolver_pin_amended_witness :
    (resolveFull 9 (addAll [] [{ name := "p", ver := 3 }]) [("p", some 3)] [] =
      .ok [{ name := "p", ver := 3 }] ∧
     reqLookup [("p", some 3)] "p" = some (some 3)) ∧
    ((∃ r, exactlyEqual [{ name := "p", ver := 3 }] "p" 3 = some r) ∧
     (∀ x ∈ [({ name := "p", ver := 3 } : Pkg)], x.isVirtual = false → x.name = "p" →
       x.ver = 3) ∧
     (∀ x ∈ [({ name := "p", ver := 3 } : Pkg)], ∀ y ∈ [({ name := "p", ver := 3 } : Pkg)],
       x.isVirtual = false → y.isVirtual = false → x.name = "p" → y.name = "p" → x = y)) :=
  ⟨⟨by decide, by decide⟩,
    @resolver_pin_amended 9 (addAll [] [{ name := "p", ver := 3 }]) [{ name := "p", ver := 3 }]
      [("p", some 3)] [] (by decide) "p" 3 (by decide)⟩

/-! #### Shape of records produced by the database operations (claim C4):
membership descriptions that track name, version, virtual flag and
provides through `Add`, `Remove` and the selection step. -/

theorem mem_addProvider_shape {d : DB} {mk : Key} {possi : Possi} {x : Pkg}
    (hx : x ∈ addProvider d mk possi) :
    (∃ y ∈ d, x.name = y.name ∧ x.ver = y.ver ∧ x.isVirtual = y.isVirtual ∧
      x.provides = y.provides) ∨
    (x.isVirtual = true ∧ x.provides = [] ∧ x.name = possi.name) := by
  unfold addProvider at hx
  split at hx
  · rename_i ex hex
    unfold addProviderWith at hx
    split at hx
    · exact Or.inl ⟨x, hx, rfl, rfl, rfl, rfl⟩
    · rcases mem_of_mem_treeRo hx with rfl | hx'
      · exact Or.inl ⟨ex, treeGet_mem hex, rfl, rfl, rfl, rfl⟩
      · exact Or.inl ⟨x, hx', rfl, rfl, rfl, rfl⟩
  · unfold addProviderWith at hx
    split at hx
    · exact Or.inl ⟨x, hx, rfl, rfl, rfl, rfl⟩
    · rcases mem_of_mem_treeRo hx with rfl | hx'
      · exact Or.inr ⟨rfl, rfl, rfl⟩
      · exact Or.inl ⟨x, hx', rfl, rfl, rfl, rfl⟩

theorem mem_addProvider_fold_shape (mk : Key) :
    ∀ (L : List Possi) (d : DB) (x : Pkg),
      x ∈ L.foldl (fun acc possi => addProvider acc mk possi) d →
      (∃ y ∈ d, x.name = y.name ∧ x.ver = y.ver ∧ x.isVirtual = y.isVirtual ∧
        x.provides = y.provides) ∨
      (x.isVirtual = true ∧ x.provides = [] ∧ ∃ possi ∈ L, x.name = possi.name) := by
  intro L
  induction L with
  | nil =>
    intro d x hx
    exact Or.inl ⟨x, hx, rfl, rfl, rfl, rfl⟩
  | cons p ps ih =>
    intro d x hx
    rw [List.foldl_cons] at hx
    rcases ih (addProvider d mk p) x hx with ⟨y, hy, h1, h2, h3, h4⟩ | ⟨h1, h2, possi, hp, h3⟩
    · rcases mem_addProvider_shape hy with ⟨z, hz, g1, g2, g3, g4⟩ | ⟨g1, g2, g3⟩
      · exact Or.inl ⟨z, hz, h1.trans g1, h2.trans g2, h3.trans g3, h4.trans g4⟩
      · exact Or.inr ⟨h3.trans g1, h4.trans g2, p, List.mem_cons_self _ _, h1.trans g3⟩
    · exact Or.inr ⟨h1, h2, possi, List.mem_cons_of_mem _ hp, h3⟩

theorem mem_addPackage_shape {s : DB} {pkg x : Pkg} (hx : x ∈ addPackage s pkg) :
    (∃ y ∈ s, x.name = y.name ∧ x.ver = y.ver ∧ x.isVirtual = y.isVirtual ∧
      x.provides = y.provides) ∨
    (x.name = pkg.name ∧ x.ver = pkg.ver ∧ x.isVirtual = pkg.isVirtual ∧
      x.provides = pkg.provides) ∨
    (x.isVirtual = true ∧ x.provides = [] ∧
      ∃ possi, (possi ∈ provPossis pkg.provides ∨ ∃ y ∈ s, possi ∈ provPossis y.provides) ∧
        x.name = possi.name) := by
  have hmshape : ((mergedPkg s pkg).name = pkg.name ∧ (mergedPkg s pkg).ver = pkg.ver ∧
      (mergedPkg s pkg).isVirtual = pkg.isVirtual ∧
      (mergedPkg s pkg).provides = pkg.provides) ∨
      (∃ y ∈ s, (mergedPkg s pkg).name = y.name ∧ (mergedPkg s pkg).ver = y.ver ∧
        (mergedPkg s pkg).isVirtual = y.isVirtual ∧
        (mergedPkg s pkg).provides = y.provides) := by
    unfold mergedPkg
    split
    · rename_i ex hex
      exact Or.inr ⟨ex, treeGet_mem hex, rfl, rfl, rfl, rfl⟩
    · exact Or.inl ⟨rfl, rfl, rfl, rfl⟩
  have hstep := mem_addProvider_fold_shape (mergedPkg s pkg).key
    (provPossis (mergedPkg s pkg).provides) (treeRo s (mergedPkg s pkg)) x hx
  rcases hstep with ⟨y, hy, h1, h2, h3, h4⟩ | ⟨h1, h2, possi, hp, h3⟩
  · rcases mem_of_mem_treeRo hy with rfl | hy'
    · rcases hmshape with ⟨g1, g2, g3, g4⟩ | ⟨z, hz, g1, g2, g3, g4⟩
      · exact Or.inr (Or.inl ⟨h1.trans g1, h2.trans g2, h3.trans g3, h4.trans g4⟩)
      · exact Or.inl ⟨z, hz, h1.trans g1, h2.trans g2, h3.trans g3, h4.trans g4⟩
    · exact Or.inl ⟨y, hy', h1, h2, h3, h4⟩
  · refine Or.inr (Or.inr ⟨h1, h2, possi, ?_, h3⟩)
    rcases hmshape with ⟨_, _, _, g4⟩ | ⟨z, hz, _, _, _, g4⟩
    · rw [g4] at hp
      exact Or.inl hp
    · rw [g4] at hp
      exact Or.inr ⟨z, hz, hp⟩

theorem mem_removeProvider_shape {d : DB} {mk : Key} {possi : Possi} {x : Pkg}
    (hx : x ∈ removeProvider d mk possi) :
    ∃ y ∈ d, x.name = y.name ∧ x.ver = y.ver ∧ x.isVirtual = y.isVirtual ∧
      x.provides = y.provides := by
  unfold removeProvider at hx
  split at hx
  · exact ⟨x, hx, rfl, rfl, rfl, rfl⟩
  · rename_i vpkg hg
    unfold removeProviderWith at hx
    split at hx
    · exact ⟨x, (treeDel_sublist d _).mem hx, rfl, rfl, rfl, rfl⟩
    · rcases mem_of_mem_treeRo hx with rfl | hx'
      · exact ⟨vpkg, treeGet_mem hg, rfl, rfl, rfl, rfl⟩
      · exact ⟨x, hx', rfl, rfl, rfl, rfl⟩

theorem mem_removePkg_shape {db : DB} {u x : Pkg} (hx : x ∈ removePkg db u) :
    ∃ y ∈ db, x.name = y.name ∧ x.ver = y.ver ∧ x.isVirtual = y.isVirtual ∧
      x.provides = y.provides := by
  have hfold : ∀ (L : List Possi) (d : DB) (z : Pkg),
      z ∈ L.foldl (fun acc possi => removeProvider acc u.key possi) d →
      ∃ y ∈ d, z.name = y.name ∧ z.ver = y.ver ∧ z.isVirtual = y.isVirtual ∧
        z.provides = y.provides := by
    intro L
    induction L with
    | nil =>
      intro d z hz
      exact ⟨z, hz, rfl, rfl, rfl, rfl⟩
    | cons p ps ih =>
      intro d z hz
      rw [List.foldl_cons] at hz
      rcases ih (removeProvider d u.key p) z hz with ⟨y, hy, h1, h2, h3, h4⟩
      rcases mem_removeProvider_shape hy with ⟨w, hw, g1, g2, g3, g4⟩
      exact ⟨w, hw, h1.trans g1, h2.trans g2, h3.trans g3, h4.trans g4⟩
  rcases hfold (provPossis u.provides) (treeDel db u.key) x hx with ⟨y, hy, h⟩
  exact ⟨y, (treeDel_sublist db _).mem hy, h⟩

/-- The record stored by `addPackage` survives the provider fold when
the package's key is not one of its provides keys. -/
theorem addPackage_get_self {db : DB} {pkg : Pkg}
    (hself : pkg.key ∉ provKeys (mergedPkg db pkg)) :
    treeGet (addPackage db pkg) pkg.key = some (mergedPkg db pkg) := by
  obtain ⟨hf1, _⟩ := fold_addProvider_get (mergedPkg db pkg).key
    (provPossis (mergedPkg db pkg).provides) (treeRo db (mergedPkg db pkg))
  show treeGet ((provPossis (mergedPkg db pkg).provides).foldl _ _) pkg.key = _
  rw [hf1 pkg.key hself]
  rw [show pkg.key = (mergedPkg db pkg).key from (mergedPkg_key db pkg).symm]
  exact treeGet_treeRo_self _ _

/-- After `Remove`, no record remains at the removed key, provided the
package does not list its own key among its provides keys. -/
theorem removePkg_get_self {db : DB} {u : Pkg} (hs : DBSorted db)
    (hself : u.key ∉ provKeys u) :
    treeGet (removePkg db u) u.key = none := by
  obtain ⟨hf1, _, _⟩ := fold_removeProvider_get u.key (provPossis u.provides)
    (treeDel db u.key) (treeDel_sorted _ hs)
  show treeGet ((provPossis u.provides).foldl _ _) u.key = none
  rw [hf1 u.key hself]
  exact treeGet_treeDel_self _ hs

/-- Records named `n` after an `Add` whose provides never mention `n`:
they carry the profile of a record of the base or of the package. -/
theorem addPackage_named_shape {s : DB} {pkg x : Pkg} {n : String}
    (hsprov : ∀ y ∈ s, ∀ possi ∈ provPossis y.provides, possi.name ≠ n)
    (hpprov : ∀ possi ∈ provPossis pkg.provides, possi.name ≠ n)
    (hx : x ∈ addPackage s pkg) (hxn : x.name = n) :
    (∃ y ∈ s, y.name = n ∧ x.ver = y.ver ∧ x.isVirtual = y.isVirtual ∧
      x.provides = y.provides) ∨
    (pkg.name = n ∧ x.ver = pkg.ver ∧ x.isVirtual = pkg.isVirtual ∧
      x.provides = pkg.provides) := by
  rcases mem_addPackage_shape hx with ⟨y, hy, h1, h2, h3, h4⟩ | ⟨h1, h2, h3, h4⟩ |
    ⟨h1, h2, possi, hp, h3⟩
  · exact Or.inl ⟨y, hy, h1.symm.trans hxn, h2, h3, h4⟩
  · exact Or.inr ⟨h1.symm.trans hxn, h2, h3, h4⟩
  · have hposs : possi.name = n := h3.symm.trans hxn
    rcases hp with hp | ⟨y, hy, hp⟩
    · exact absurd hposs (hpprov possi hp)
    · exact absurd hposs (hsprov y hy possi hp)

/-- Removing the unique record named `n` leaves no record named `n`. -/
theorem removePkg_named_none {s : DB} {e : Pkg} {n : String} (hs : DBSorted s)
    (he : e ∈ s) (hen : e.name = n)
    (heprov : ∀ possi ∈ provPossis e.provides, possi.name ≠ n)
    (huniq : ∀ x ∈ s, x.name = n → x.ver = e.ver) :
    ∀ x ∈ removePkg s e, x.name ≠ n := by
  intro x hx hxn
  rcases mem_removePkg_shape hx with ⟨y, hy, h1, h2, _, _⟩
  have hyn : y.name = n := h1.symm.trans hxn
  have hxkey : x.key = e.key := by
    show (x.name, x.ver) = (e.name, e.ver)
    rw [hxn, hen, h2, huniq y hy hyn]
  have hself : e.key ∉ provKeys e := by
    intro hmem
    rcases List.mem_map.mp hmem with ⟨possi, hp, hkeq⟩
    have h5 : possi.name = e.name := congrArg Prod.fst hkeq
    exact heprov possi hp (h5.trans hen)
  have hgx : treeGet (removePkg s e) x.key = some x :=
    treeGet_of_mem (removePkg_sorted _ hs) hx
  rw [hxkey, removePkg_get_self hs hself] at hgx
  exact absurd hgx (by simp)

/-- Over a base with no record named the package's name, `Add` stores
the package itself (no merge, and its key is not a provides key). -/
theorem addPackage_fresh_named {s : DB} {pkg : Pkg} {n : String}
    (hnone : ∀ x ∈ s, x.name ≠ n) (hpn : pkg.name = n)
    (hpprov : ∀ possi ∈ provPossis pkg.provides, possi.name ≠ n) :
    pkg ∈ addPackage s pkg := by
  have hget : treeGet s pkg.key = none := by
    cases hg : treeGet s pkg.key with
    | none => rfl
    | some r =>
      have h5 : r.name = pkg.name := congrArg Prod.fst (treeGet_key hg)
      exact absurd (h5.trans hpn) (hnone r (treeGet_mem hg))
  have hm : mergedPkg s pkg = pkg := by
    unfold mergedPkg
    rw [hget]
  have hself : pkg.key ∉ provKeys (mergedPkg s pkg) := by
    rw [hm]
    intro hmem
    rcases List.mem_map.mp hmem with ⟨possi, hp, hkeq⟩
    have h5 : possi.name = pkg.name := congrArg Prod.fst hkeq
    exact hpprov possi hp (h5.trans hpn)
  have hg2 := addPackage_get_self hself
  rw [hm] at hg2
  exact treeGet_mem hg2

/-- One selection step, seen from an unpinned name `n`: the invariant
(no provides mention `n`; records named `n` are unique-by-version,
non-virtual) is preserved, the tracked version never decreases, and a
package named `n` leaves a record at least as new as itself. -/
theorem selectStep_newest {n : String} {req : String → Option (Option Ver)}
    (hreq : ∀ v : Ver, req n ≠ some (some v)) {s : DB} {pkg : Pkg}
    (hs : DBSorted s)
    (hsprov : ∀ x ∈ s, ∀ possi ∈ provPossis x.provides, possi.name ≠ n)
    (hsreal : ∀ x ∈ s, x.name = n → x.isVirtual = false)
    (hsuniq : ∀ x ∈ s, ∀ y ∈ s, x.name = n → y.name = n → x.ver = y.ver)
    (hpprov : ∀ possi ∈ provPossis pkg.provides, possi.name ≠ n)
    (hpreal : pkg.name = n → pkg.isVirtual = false) :
    (∀ x ∈ selectStep req s pkg, ∀ possi ∈ provPossis x.provides, possi.name ≠ n) ∧
    (∀ x ∈ selectStep req s pkg, x.name = n → x.isVirtual = false) ∧
    (∀ x ∈ selectStep req s pkg, ∀ y ∈ selectStep req s pkg, x.name = n → y.name = n →
      x.ver = y.ver) ∧
    (∀ x ∈ selectStep req s pkg, x.name = n → ∀ y ∈ s, y.name = n → y.ver ≤ x.ver) ∧
    (∀ x ∈ selectStep req s pkg, x.name = n →
      (pkg.name = n ∧ x.ver = pkg.ver) ∨ ∃ y ∈ s, y.name = n ∧ y.ver = x.ver) ∧
    (pkg.name = n → ∃ w ∈ selectStep req s pkg, w.name = n ∧ pkg.ver ≤ w.ver) := by
  have hprovAdd : ∀ {b : DB}, (∀ x ∈ b, ∀ possi ∈ provPossis x.provides, possi.name ≠ n) →
      ∀ x ∈ addPackage b pkg, ∀ possi ∈ provPossis x.provides, possi.name ≠ n := by
    intro b hb x hx possi hp
    rcases mem_addPackage_shape hx with ⟨y, hy, _, _, _, h4⟩ | ⟨_, _, _, h4⟩ |
      ⟨_, h4, _, _, _⟩
    · rw [h4] at hp
      exact hb y hy possi hp
    · rw [h4] at hp
      exact hpprov possi hp
    · rw [h4] at hp
      exact absurd hp (by simp [provPossis])
  have hprovRem : ∀ {e : Pkg}, ∀ x ∈ removePkg s e, ∀ possi ∈ provPossis x.provides,
      possi.name ≠ n := by
    intro e x hx possi hp
    rcases mem_removePkg_shape hx with ⟨y, hy, _, _, _, h4⟩
    rw [h4] at hp
    exact hsprov y hy possi hp
  by_cases hpn : pkg.name = n
  · have hsel : selectStep req s pkg =
        match dbGet s pkg.name with
        | [] => addPackage s pkg
        | e₀ :: _ => if e₀.ver < pkg.ver then addPackage (removePkg s e₀) pkg else s := by
      cases hrq : req pkg.name with
      | none => simp only [selectStep, hrq]
      | some vo =>
        cases vo with
        | none => simp only [selectStep, hrq]
        | some v => exact absurd (hpn ▸ hrq) (hreq v)
    cases hdg : dbGet s pkg.name with
    | nil =>
      have hsel2 : selectStep req s pkg = addPackage s pkg := by
        rw [hsel, hdg]
      have hnone : ∀ x ∈ s, x.name ≠ n := by
        intro x hx hxn
        have hf := dbGet_eq_filter pkg.name hs
        rw [hdg] at hf
        have hxin : x ∈ s.filter (fun p => p.name == pkg.name) :=
          List.mem_filter.mpr ⟨hx, by simp [hxn, hpn]⟩
        rw [← hf] at hxin
        exact absurd hxin (by simp)
      rw [hsel2]
      refine ⟨hprovAdd hsprov, ?_, ?_, ?_, ?_, ?_⟩
      · intro x hx hxn
        rcases addPackage_named_shape hsprov hpprov hx hxn with ⟨y, hy, hyn, _⟩ | ⟨_, _, h3, _⟩
        · exact absurd hyn (hnone y hy)
        · rw [h3]
          exact hpreal hpn
      · intro x hx y hy hxn hyn
        rcases addPackage_named_shape hsprov hpprov hx hxn with ⟨z, hz, hzn, _⟩ | ⟨_, h2, _, _⟩
        · exact absurd hzn (hnone z hz)
        · rcases addPackage_named_shape hsprov hpprov hy hyn with ⟨z, hz, hzn, _⟩ |
            ⟨_, g2, _, _⟩
          · exact absurd hzn (hnone z hz)
          · rw [h2, g2]
      · intro x hx hxn y hy hyn
        exact absurd hyn (hnone y hy)
      · intro x hx hxn
        rcases addPackage_named_shape hsprov hpprov hx hxn with ⟨z, hz, hzn, _⟩ | ⟨_, h2, _, _⟩
        · exact absurd hzn (hnone z hz)
        · exact Or.inl ⟨hpn, h2⟩
      · intro _
        exact ⟨pkg, addPackage_fresh_named hnone hpn hpprov, hpn, le_refl _⟩
    | cons e tl =>
      have hef : e ∈ s ∧ e.name = n := by
        have hf := dbGet_eq_filter pkg.name hs
        rw [hdg] at hf
        have hein : e ∈ s.filter (fun p => p.name == pkg.name) := by
          rw [← hf]
          exact List.mem_cons_self _ _
        have h1 := List.mem_filter.mp hein
        exact ⟨h1.1, (by simpa using h1.2 : e.name = pkg.name).trans hpn⟩
      have huniq' : ∀ x ∈ s, x.name = n → x.ver = e.ver :=
        fun x hx hxn => hsuniq x hx e hef.1 hxn hef.2
      by_cases hcmp : e.ver < pkg.ver
      · have hsel2 : selectStep req s pkg = addPackage (removePkg s e) pkg := by
          rw [hsel, hdg]
          show (if e.ver < pkg.ver then addPackage (removePkg s e) pkg else s) = _
          rw [if_pos hcmp]
        have hrnone : ∀ x ∈ removePkg s e, x.name ≠ n :=
          removePkg_named_none hs hef.1 hef.2 (hsprov e hef.1) huniq'
        rw [hsel2]
        refine ⟨hprovAdd hprovRem, ?_, ?_, ?_, ?_, ?_⟩
        · intro x hx hxn
          rcases addPackage_named_shape hprovRem hpprov hx hxn with ⟨y, hy, hyn, _⟩ |
            ⟨_, _, h3, _⟩
          · exact absurd hyn (hrnone y hy)
          · rw [h3]
            exact hpreal hpn
        · intro x hx y hy hxn hyn
          rcases addPackage_named_shape hprovRem hpprov hx hxn with ⟨z, hz, hzn, _⟩ |
            ⟨_, h2, _, _⟩
          · exact absurd hzn (hrnone z hz)
          · rcases addPackage_named_shape hprovRem hpprov hy hyn with ⟨z, hz, hzn, _⟩ |
              ⟨_, g2, _, _⟩
            · exact absurd hzn (hrnone z hz)
            · rw [h2, g2]
        · intro x hx hxn y hy hyn
          rcases addPackage_named_shape hprovRem hpprov hx hxn with ⟨z, hz, hzn, _⟩ |
            ⟨_, h2, _, _⟩
          · exact absurd hzn (hrnone z hz)
          · rw [h2, huniq' y hy hyn]
            exact le_of_lt hcmp
        · intro x hx hxn
          rcases addPackage_named_shape hprovRem hpprov hx hxn with ⟨z, hz, hzn, _⟩ |
            ⟨_, h2, _, _⟩
          · exact absurd hzn (hrnone z hz)
          · exact Or.inl ⟨hpn, h2⟩
        · intro _
          exact ⟨pkg, addPackage_fresh_named hrnone hpn hpprov, hpn, le_refl _⟩
      · have hsel2 : selectStep req s pkg = s := by
          rw [hsel, hdg]
          show (if e.ver < pkg.ver then addPackage (removePkg s e) pkg else s) = _
          rw [if_neg hcmp]
        rw [hsel2]
        refine ⟨hsprov, hsreal, hsuniq, ?_, ?_, ?_⟩
        · intro x hx hxn y hy hyn
          exact le_of_eq (hsuniq y hy x hx hyn hxn)
        · intro x hx hxn
          exact Or.inr ⟨x, hx, hxn, rfl⟩
        · intro _
          refine ⟨e, hef.1, hef.2, ?_⟩
          exact Nat.le_of_not_lt hcmp
  · -- a package of another name never touches the records named n
    have hothers : ∀ {b : DB},
        (∀ x ∈ b, x.name = n → ∃ y ∈ s, y.name = n ∧ x.ver = y.ver ∧
          x.isVirtual = y.isVirtual) →
        (∀ x ∈ b, ∀ possi ∈ provPossis x.provides, possi.name ≠ n) →
        ∀ x ∈ addPackage b pkg, x.name = n → ∃ y ∈ s, y.name = n ∧ x.ver = y.ver ∧
          x.isVirtual = y.isVirtual := by
      intro b hb hbprov x hx hxn
      rcases addPackage_named_shape hbprov hpprov hx hxn with ⟨z, hz, hzn, h2, h3, _⟩ |
        ⟨hn, _, _, _⟩
      · rcases hb z hz hzn with ⟨y, hy, hyn, g2, g3⟩
        exact ⟨y, hy, hyn, h2.trans g2, h3.trans g3⟩
      · exact absurd hn hpn
    have hremb : ∀ {e : Pkg}, ∀ x ∈ removePkg s e, x.name = n →
        ∃ y ∈ s, y.name = n ∧ x.ver = y.ver ∧ x.isVirtual = y.isVirtual := by
      intro e x hx hxn
      rcases mem_removePkg_shape hx with ⟨y, hy, h1, h2, h3, _⟩
      exact ⟨y, hy, h1.symm.trans hxn, h2, h3⟩
    have hmain : ∀ x ∈ selectStep req s pkg, x.name = n →
        ∃ y ∈ s, y.name = n ∧ x.ver = y.ver ∧ x.isVirtual = y.isVirtual := by
      have hid : ∀ x ∈ s, x.name = n →
          ∃ y ∈ s, y.name = n ∧ x.ver = y.ver ∧ x.isVirtual = y.isVirtual :=
        fun x hx hxn => ⟨x, hx, hxn, rfl, rfl⟩
      unfold selectStep
      split
      · split
        · exact hothers hid hsprov
        · exact hid
      · split
        · exact hothers hid hsprov
        · split
          · exact hothers hremb hprovRem
          · exact hid
    have hprovmain : ∀ x ∈ selectStep req s pkg, ∀ possi ∈ provPossis x.provides,
        possi.name ≠ n := by
      unfold selectStep
      split
      · split
        · exact hprovAdd hsprov
        · exact hsprov
      · split
        · exact hprovAdd hsprov
        · split
          · exact hprovAdd hprovRem
          · exact hsprov
    refine ⟨hprovmain, ?_, ?_, ?_, ?_, ?_⟩
    · intro x hx hxn
      rcases hmain x hx hxn with ⟨y, hy, hyn, _, h3⟩
      rw [h3]
      exact hsreal y hy hyn
    · intro x hx y hy hxn hyn
      rcases hmain x hx hxn with ⟨z, hz, hzn, h2, _⟩
      rcases hmain y hy hyn with ⟨w, hw, hwn, g2, _⟩
      rw [h2, g2]
      exact hsuniq z hz w hw hzn hwn
    · intro x hx hxn y hy hyn
      rcases hmain x hx hxn with ⟨z, hz, hzn, h2, _⟩
      rw [h2]
      exact le_of_eq (hsuniq y hy z hz hyn hzn)
    · intro x hx hxn
      rcases hmain x hx hxn with ⟨z, hz, hzn, h2, _⟩
      exact Or.inr ⟨z, hz, hzn, h2.symm⟩
    · intro hn
      exact absurd hn hpn

/-- `Add` leaves records untouched at keys other than the package key
and the provides keys. -/
theorem addPackage_get_other {db : DB} {pkg : Pkg} {k : Key} (h1 : k ≠ pkg.key)
    (h2 : k ∉ provKeys (mergedPkg db pkg)) :
    treeGet (addPackage db pkg) k = treeGet db k := by
  obtain ⟨hf1, _⟩ := fold_addProvider_get (mergedPkg db pkg).key
    (provPossis (mergedPkg db pkg).provides) (treeRo db (mergedPkg db pkg))
  show treeGet ((provPossis (mergedPkg db pkg).provides).foldl _ _) k = _
  rw [hf1 k h2]
  exact treeGet_treeRo_other (fun h => h1 (h.trans (mergedPkg_key db pkg)))

/-- `Remove` leaves records untouched at keys other than the removed
key and the provides keys. -/
theorem removePkg_get_other {db : DB} {u : Pkg} {k : Key} (hs : DBSorted db)
    (h1 : k ≠ u.key) (h2 : k ∉ provKeys u) :
    treeGet (removePkg db u) k = treeGet db k := by
  obtain ⟨hf1, _, _⟩ := fold_removeProvider_get u.key (provPossis u.provides)
    (treeDel db u.key) (treeDel_sorted _ hs)
  show treeGet ((provPossis u.provides).foldl _ _) k = _
  rw [hf1 k h2]
  exact treeGet_treeDel_other hs h1

/-- A key whose name is `n` is not a provides key of a record whose
provides never mention `n`. -/
theorem named_not_provKey {r : Pkg} {n : String}
    (hrprov : ∀ possi ∈ provPossis r.provides, possi.name ≠ n) {k : Key} (hk : k.1 = n) :
    k ∉ provKeys r := by
  intro hmem
  rcases List.mem_map.mp hmem with ⟨possi, hp, hkeq⟩
  exact hrprov possi hp ((congrArg Prod.fst hkeq).trans hk)

/-- One selection step never loses ground for a name `n`: any version
of `n` present before is dominated by some version present after. -/
theorem selectStep_persist {n : String} {req : String → Option (Option Ver)}
    (hreq : ∀ v : Ver, req n ≠ some (some v)) {s : DB} {pkg : Pkg}
    (hs : DBSorted s)
    (hsprov : ∀ x ∈ s, ∀ possi ∈ provPossis x.provides, possi.name ≠ n)
    (hsuniq : ∀ x ∈ s, ∀ y ∈ s, x.name = n → y.name = n → x.ver = y.ver)
    (hpprov : ∀ possi ∈ provPossis pkg.provides, possi.name ≠ n) :
    ∀ y ∈ s, y.name = n → ∃ w ∈ selectStep req s pkg, w.name = n ∧ y.ver ≤ w.ver := by
  intro y hy hyn
  have hykey : (y.key).1 = n := hyn
  by_cases hpn : pkg.name = n
  · have hsel : selectStep req s pkg =
        match dbGet s pkg.name with
        | [] => addPackage s pkg
        | e₀ :: _ => if e₀.ver < pkg.ver then addPackage (removePkg s e₀) pkg else s := by
      cases hrq : req pkg.name with
      | none => simp only [selectStep, hrq]
      | some vo =>
        cases vo with
        | none => simp only [selectStep, hrq]
        | some v => exact absurd (hpn ▸ hrq) (hreq v)
    cases hdg : dbGet s pkg.name with
    | nil =>
      exfalso
      have hf := dbGet_eq_filter pkg.name hs
      rw [hdg] at hf
      have hyin : y ∈ s.filter (fun p => p.name == pkg.name) :=
        List.mem_filter.mpr ⟨hy, by simp [hyn, hpn]⟩
      rw [← hf] at hyin
      exact absurd hyin (by simp)
    | cons e tl =>
      have hef : e ∈ s ∧ e.name = n := by
        have hf := dbGet_eq_filter pkg.name hs
        rw [hdg] at hf
        have hein : e ∈ s.filter (fun p => p.name == pkg.name) := by
          rw [← hf]
          exact List.mem_cons_self _ _
        have h1 := List.mem_filter.mp hein
        exact ⟨h1.1, (by simpa using h1.2 : e.name = pkg.name).trans hpn⟩
      have hyver : y.ver = e.ver := hsuniq y hy e hef.1 hyn hef.2
      by_cases hcmp : e.ver < pkg.ver
      · have hsel2 : selectStep req s pkg = addPackage (removePkg s e) pkg := by
          rw [hsel, hdg]
          show (if e.ver < pkg.ver then addPackage (removePkg s e) pkg else s) = _
          rw [if_pos hcmp]
        have hrnone : ∀ x ∈ removePkg s e, x.name ≠ n :=
          removePkg_named_none hs hef.1 hef.2 (hsprov e hef.1)
            (fun x hx hxn => hsuniq x hx e hef.1 hxn hef.2)
        rw [hsel2]
        refine ⟨pkg, addPackage_fresh_named hrnone hpn hpprov, hpn, ?_⟩
        rw [hyver]
        exact le_of_lt hcmp
      · have hsel2 : selectStep req s pkg = s := by
          rw [hsel, hdg]
          show (if e.ver < pkg.ver then addPackage (removePkg s e) pkg else s) = _
          rw [if_neg hcmp]
        rw [hsel2]
        exact ⟨y, hy, hyn, le_refl _⟩
  · -- another name: the record named n survives in place
    have hyk_pkg : y.key ≠ pkg.key := by
      intro hk
      exact hpn (((congrArg Prod.fst hk).symm.trans hyn).symm ▸ rfl)
    have hmprov : ∀ {b : DB}, (∀ x ∈ b, ∀ possi ∈ provPossis x.provides, possi.name ≠ n) →
        ∀ possi ∈ provPossis (mergedPkg b pkg).provides, possi.name ≠ n := by
      intro b hb
      unfold mergedPkg
      split
      · rename_i ex hex
        exact fun possi hp => hb ex (treeGet_mem hex) possi hp
      · exact hpprov
    have hmemAdd : ∀ {b : DB}, (∀ x ∈ b, ∀ possi ∈ provPossis x.provides, possi.name ≠ n) →
        treeGet b y.key = some y → y ∈ addPackage b pkg := by
      intro b hb hg
      have hg2 : treeGet (addPackage b pkg) y.key = some y := by
        rw [addPackage_get_other hyk_pkg (named_not_provKey (hmprov hb) hykey)]
        exact hg
      exact treeGet_mem hg2
    unfold selectStep
    split
    · split
      · exact ⟨y, hmemAdd hsprov (treeGet_of_mem hs hy), hyn, le_refl _⟩
      · exact ⟨y, hy, hyn, le_refl _⟩
    · split
      · exact ⟨y, hmemAdd hsprov (treeGet_of_mem hs hy), hyn, le_refl _⟩
      · split
        · rename_i e tail hdg hlt
          have he : e ∈ s := by
            have hf := dbGet_eq_filter pkg.name hs
            rw [hdg] at hf
            have hein : e ∈ s.filter (fun p => p.name == pkg.name) := by
              rw [← hf]
              exact List.mem_cons_self _ _
            exact (List.mem_filter.mp hein).1
          have hyk_e : y.key ≠ e.key := by
            intro hk
            have hen : e.name = n := ((congrArg Prod.fst hk).symm.trans hyn)
            have hepn : e.name = pkg.name := by
              have hf := dbGet_eq_filter pkg.name hs
              rw [hdg] at hf
              have hein : e ∈ s.filter (fun p => p.name == pkg.name) := by
                rw [← hf]
                exact List.mem_cons_self _ _
              simpa using (List.mem_filter.mp hein).2
            exact hpn (hepn.symm.trans hen ▸ rfl)
          have hrget : treeGet (removePkg s e) y.key = some y := by
            rw [removePkg_get_other hs hyk_e (named_not_provKey (hsprov e he) hykey)]
            exact treeGet_of_mem hs hy
          have hbprov : ∀ x ∈ removePkg s e, ∀ possi ∈ provPossis x.provides,
              possi.name ≠ n := by
            intro x hx possi hp
            rcases mem_removePkg_shape hx with ⟨z, hz, _, _, _, h4⟩
            rw [h4] at hp
            exact hsprov z hz possi hp
          exact ⟨y, hmemAdd hbprov hrget, hyn, le_refl _⟩
        · exact ⟨y, hy, hyn, le_refl _⟩

/-- The phase-4 fold from an unpinned name's standpoint: every selected
record named `n` is non-virtual and carries the maximum version of `n`
occurring among the folded candidates and the initial state and that
version is realised by one of them. -/
theorem selectFold_newest {n : String} {req : String → Option (Option Ver)}
    (hreq : ∀ v : Ver, req n ≠ some (some v)) :
    ∀ (L : List Pkg) (s : DB), DBSorted s →
      (∀ pkg ∈ L, ∀ possi ∈ provPossis pkg.provides, possi.name ≠ n) →
      (∀ pkg ∈ L, pkg.name = n → pkg.isVirtual = false) →
      (∀ x ∈ s, ∀ possi ∈ provPossis x.provides, possi.name ≠ n) →
      (∀ x ∈ s, x.name = n → x.isVirtual = false) →
      (∀ x ∈ s, ∀ y ∈ s, x.name = n → y.name = n → x.ver = y.ver) →
      ∀ x ∈ L.foldl (selectStep req) s, x.name = n →
        x.isVirtual = false ∧
        (∀ y ∈ L, y.name = n → y.ver ≤ x.ver) ∧
        (∀ y ∈ s, y.name = n → y.ver ≤ x.ver) ∧
        ((∃ y ∈ L, y.name = n ∧ y.ver = x.ver) ∨ (∃ y ∈ s, y.name = n ∧ y.ver = x.ver)) := by
  intro L
  induction L with
  | nil =>
    intro s hs _ _ hsprov hsreal hsuniq x hx hxn
    refine ⟨hsreal x hx hxn, ?_, ?_, ?_⟩
    · intro y hy
      exact absurd hy (by simp)
    · intro y hy hyn
      exact le_of_eq (hsuniq y hy x hx hyn hxn)
    · exact Or.inr ⟨x, hx, hxn, rfl⟩
  | cons pkg rest ih =>
    intro s hs hLprov hLreal hsprov hsreal hsuniq x hx hxn
    obtain ⟨hprov', hreal', huniq', _, _, _⟩ :=
      selectStep_newest hreq hs hsprov hsreal hsuniq
        (hLprov pkg (List.mem_cons_self _ _)) (hLreal pkg (List.mem_cons_self _ _))
    have hs' : DBSorted (selectStep req s pkg) := selectStep_sorted hs
    rw [List.foldl_cons] at hx
    obtain ⟨hxreal, hLmax, hs'max, hex⟩ := ih (selectStep req s pkg) hs'
      (fun q hq => hLprov q (List.mem_cons_of_mem _ hq))
      (fun q hq => hLreal q (List.mem_cons_of_mem _ hq))
      hprov' hreal' huniq' x hx hxn
    refine ⟨hxreal, ?_, ?_, ?_⟩
    · intro y hy hyn
      rcases List.mem_cons.mp hy with rfl | hy'
      · obtain ⟨_, _, _, _, _, hstep7⟩ :=
          selectStep_newest hreq hs hsprov hsreal hsuniq
            (hLprov y (List.mem_cons_self _ _)) (hLreal y (List.mem_cons_self _ _))
        rcases hstep7 hyn with ⟨w, hw, hwn, hwle⟩
        exact le_trans hwle (hs'max w hw hwn)
      · exact hLmax y hy' hyn
    · intro y hy hyn
      rcases selectStep_persist hreq hs hsprov hsuniq
          (hLprov pkg (List.mem_cons_self _ _)) y hy hyn with ⟨w, hw, hwn, hwle⟩
      exact le_trans hwle (hs'max w hw hwn)
    · rcases hex with ⟨y, hy, hyn, hyv⟩ | ⟨y, hy, hyn, hyv⟩
      · exact Or.inl ⟨y, List.mem_cons_of_mem _ hy, hyn, hyv⟩
      · obtain ⟨_, _, _, _, hstep6, _⟩ :=
          selectStep_newest hreq hs hsprov hsreal hsuniq
            (hLprov pkg (List.mem_cons_self _ _)) (hLreal pkg (List.mem_cons_self _ _))
        rcases hstep6 y hy hyn with ⟨hpn, hyp⟩ | ⟨z, hz, hzn, hzv⟩
        · exact Or.inl ⟨pkg, List.mem_cons_self _ _, hpn, hyp.symm ▸ hyv⟩
        · exact Or.inr ⟨z, hz, hzn, hzv.trans hyv⟩

theorem foldl_removePkg_shape : ∀ (L : List Pkg) (d : DB) (z : Pkg),
    z ∈ L.foldl removePkg d → ∃ y ∈ d, z.name = y.name ∧ z.ver = y.ver ∧
      z.isVirtual = y.isVirtual ∧ z.provides = y.provides := by
  intro L
  induction L with
  | nil =>
    intro d z hz
    exact ⟨z, hz, rfl, rfl, rfl, rfl⟩
  | cons p ps ih =>
    intro d z hz
    rw [List.foldl_cons] at hz
    rcases ih (removePkg d p) z hz with ⟨y, hy, h1, h2, h3, h4⟩
    rcases mem_removePkg_shape hy with ⟨w, hw, g1, g2, g3, g4⟩
    exact ⟨w, hw, h1.trans g1, h2.trans g2, h3.trans g3, h4.trans g4⟩

/-- Pruning only ever removes or trims records: every surviving record
carries the profile of a record of the pruning input. -/
theorem pruneFix_shape {pdb : DB} :
    ∀ (fuel : Nat) {cdb out : DB}, pruneFix pdb fuel cdb = .ok out →
      ∀ x ∈ out, ∃ y ∈ cdb, x.name = y.name ∧ x.ver = y.ver ∧ x.isVirtual = y.isVirtual ∧
        x.provides = y.provides := by
  intro fuel
  induction fuel with
  | zero =>
    intro cdb out h
    exact absurd h (by simp [pruneFix])
  | succ f ih =>
    intro cdb out h
    simp only [pruneFix] at h
    split at h
    · rw [← Except.ok.inj h]
      exact fun x hx => ⟨x, hx, rfl, rfl, rfl, rfl⟩
    · intro x hx
      rcases ih h x hx with ⟨y, hy, h1, h2, h3, h4⟩
      rcases foldl_removePkg_shape _ _ y hy with ⟨w, hw, g1, g2, g3, g4⟩
      exact ⟨w, hw, h1.trans g1, h2.trans g2, h3.trans g3, h4.trans g4⟩

/-- **C4, counterexample**: two real packages provide `n` at versions 1
and 2 while real packages `n` exist at versions 3 and 5.  With the bare
include list `a, b, n` resolution succeeds, yet the selected database
contains TWO non-virtual records named `n`, one of which (version 3) is
not the maximum candidate version: during selection the `Get(name)[0]`
the code compares against is a leftover provides-mirror virtual record,
not the real selected record. -/
theorem resolver_newest_counterexample :
    resolveFull 20 (addAll []
        [{ name := "a", ver := 1,
           provides := [[{ name := "n", rel := some { op := "=", ver := 1 } }]] },
         { name := "b", ver := 1,
           provides := [[{ name := "n", rel := some { op := "=", ver := 2 } }]] },
         { name := "n", ver := 3 }, { name := "n", ver := 5 }])
        [("a", none), ("b", none), ("n", none)] [] =
      .ok [{ name := "a", ver := 1,
             provides := [[{ name := "n", rel := some { op := "=", ver := 1 } }]] },
           { name := "b", ver := 1,
             provides := [[{ name := "n", rel := some { op := "=", ver := 2 } }]] },
           { name := "n", ver := 3 }, { name := "n", ver := 5 }] ∧
    (∃ x ∈ [({ name := "n", ver := 3 } : Pkg), { name := "n", ver := 5 }],
      x.isVirtual = false ∧ x.name = "n" ∧
      ∃ y ∈ [({ name := "n", ver := 3 } : Pkg), { name := "n", ver := 5 }],
        y.isVirtual = false ∧ y.name = "n" ∧ x.ver < y.ver) :=
  ⟨by decide, by decide⟩

/-- **C4 (amended)**.  The claim is false as stated
(`resolver_newest_counterexample`): leftover provides-mirror virtual
records participate in the `Get(name)[0]` comparison, which can leave
several records of one name.  When no phase-3 candidate's provides
mention the name — the situation with no virtual interference — the
claim holds: for an unpinned name `n`, every selected record named `n`
is non-virtual and carries exactly the maximum version of `n` among the
phase-3 candidates. -/
theorem resolver_newest_amended {fuel : Nat} {pdb cdb3 sdb : DB}
    {incl excl : List (String × Option Ver)} {n : String}
    (hpp : postPrune fuel pdb incl excl = .ok cdb3)
    (hok : resolveFull fuel pdb incl excl = .ok sdb)
    (hnopin : ∀ v : Ver, reqLookup incl n ≠ some (some v))
    (hnoprov : ∀ x ∈ cdb3, ∀ possi ∈ provPossis x.provides, possi.name ≠ n) :
    ∀ x ∈ sdb, x.name = n →
      x.isVirtual = false ∧
      (∀ y ∈ reals cdb3, y.name = n → y.ver ≤ x.ver) ∧
      (∃ y ∈ reals cdb3, y.name = n ∧ y.ver = x.ver) := by
  obtain ⟨cdb3', hpp', hpf, _⟩ := resolveFull_ok_elim hok
  rw [hpp] at hpp'
  have hc : cdb3' = cdb3 := (Except.ok.inj hpp').symm
  rw [hc] at hpf
  intro x hx hxn
  rcases pruneFix_shape fuel hpf x hx with ⟨w, hw, g1, g2, g3, _⟩
  have hwn : w.name = n := g1.symm.trans hxn
  have hLprov : ∀ pkg ∈ reals cdb3, ∀ possi ∈ provPossis pkg.provides, possi.name ≠ n := by
    intro pkg hpkg
    exact hnoprov pkg (List.mem_filter.mp hpkg).1
  have hLreal : ∀ pkg ∈ reals cdb3, pkg.name = n → pkg.isVirtual = false := by
    intro pkg hpkg _
    have h2 := (List.mem_filter.mp hpkg).2
    simpa using h2
  obtain ⟨hwreal, hwmax, _, hwex⟩ := selectFold_newest hnopin (reals cdb3) []
    List.Pairwise.nil hLprov hLreal
    (fun z hz => absurd hz (by simp)) (fun z hz => absurd hz (by simp))
    (fun z hz => absurd hz (by simp)) w hw hwn
  refine ⟨g3.trans hwreal, ?_, ?_⟩
  · intro y hy hyn
    rw [g2]
    exact hwmax y hy hyn
  · rcases hwex with ⟨y, hy, hyn, hyv⟩ | ⟨y, hy, _, _⟩
    · exact ⟨y, hy, hyn, hyv.trans g2.symm⟩
    · exact absurd hy (by simp)

/-- Witness for the amended C4: two versions of `m`, included bare —
the selected record is the newer one. -/
theorem resolver_newest_amended_witness :
    (postPrune 9 (addAll [] [{ name := "m", ver := 1 }, { name := "m", ver := 2 }])
        [("m", none)] [] =
      .ok [{ name := "m", ver := 1 }, { name := "m", ver := 2 }] ∧
     resolveFull 9 (addAll [] [{ name := "m", ver := 1 }, { name := "m", ver := 2 }])
        [("m", none)] [] =
      .ok [{ name := "m", ver := 2 }] ∧
     (∀ v : Ver, reqLookup [("m", none)] "m" ≠ some (some v)) ∧
     (∀ x ∈ [({ name := "m", ver := 1 } : Pkg), { name := "m", ver := 2 }],
       ∀ possi ∈ provPossis x.provides, possi.name ≠ "m")) ∧
    (∀ x ∈ [({ name := "m", ver := 2 } : Pkg)], x.name = "m" →
      x.isVirtual = false ∧
      (∀ y ∈ reals [{ name := "m", ver := 1 }, { name := "m", ver := 2 }], y.name = "m" →
        y.ver ≤ x.ver) ∧
      (∃ y ∈ reals [{ name := "m", ver := 1 }, { name := "m", ver := 2 }], y.name = "m" ∧
        y.ver = x.ver)) :=
  ⟨⟨by decide, by decide,
    fun v h => Option.noConfusion
      (Option.some_inj.mp ((by decide : reqLookup [("m", none)] "m" = some none) ▸ h)),
    by decide⟩,
   @resolver_newest_amended 9
     (addAll [] [{ name := "m", ver := 1 }, { name := "m", ver := 2 }])
     [{ name := "m", ver := 1 }, { name := "m", ver := 2 }]
     [{ name := "m", ver := 2 }] [("m", none)] [] "m"
     (by decide) (by decide)
     (fun v h => Option.noConfusion
       (Option.some_inj.mp ((by decide : reqLookup [("m", none)] "m" = some none) ▸ h)))
     (by decide)⟩

/-- **C5, counterexample**: a virtual record whose provider set `P` is
empty (its sole provider is absent from the database) is reached while
resolving the relation `Depends: w` — `resolveVirtualPackage` does fail
with `UnsatisfiableVirtual`, but the containing Relation does NOT fail:
the failing entry is dropped, the relation resolves to the real `w@1`,
and `Resolve` succeeds. -/
theorem virtual_resolution_counterexample :
    resolveVirtualPackage
        [{ name := "w", ver := 1 },
         { name := "w", ver := 5, isVirtual := true, providers := [("dead", 9)] },
         { name := "x", ver := 1, depends := [[{ name := "w", rel := none }]] }] []
        { name := "w", ver := 5, isVirtual := true, providers := [("dead", 9)] } =
      .error (.unsatisfiableVirtual "w") ∧
    resolveRelation
        [{ name := "w", ver := 1 },
         { name := "w", ver := 5, isVirtual := true, providers := [("dead", 9)] },
         { name := "x", ver := 1, depends := [[{ name := "w", rel := none }]] }]
        (addPackage [] { name := "x", ver := 1, depends := [[{ name := "w", rel := none }]] })
        [{ name := "w", rel := none }] =
      .ok [{ name := "w", ver := 1 }] ∧
    resolveFull 9
        [{ name := "w", ver := 1 },
         { name := "w", ver := 5, isVirtual := true, providers := [("dead", 9)] },
         { name := "x", ver := 1, depends := [[{ name := "w", rel := none }]] }]
        [("x", none)] [] =
      .ok [{ name := "w", ver := 1 },
           { name := "x", ver := 1, depends := [[{ name := "w", rel := none }]] }] :=
  ⟨by decide, by decide, by decide⟩

/-- **C5 (amended)**.  `resolveVirtualPackage` itself follows the
claimed three-way case analysis on the resolved provider set `P`
(empty → `UnsatisfiableVirtual`; singleton → that provider; several →
one already in the candidate DB, else one with required priority, else
`AmbiguousVirtual`) — but a failure is NOT propagated to the containing
Relation: the failing entry is dropped from the possibility's candidate
set and every non-virtual entry survives
(`virtual_resolution_counterexample`). -/
theorem virtual_resolution_amended {pdb cdb : DB} {vp : Pkg} {P : List Pkg}
    (hP : vp.providers.filterMap (fun pk => exactlyEqual pdb pk.1 pk.2) = P) :
    (P = [] → resolveVirtualPackage pdb cdb vp = .error (.unsatisfiableVirtual vp.name)) ∧
    (∀ p, P = [p] → resolveVirtualPackage pdb cdb vp = .ok p) ∧
    (∀ p₀ p₁ rest, P = p₀ :: p₁ :: rest →
      ((∃ p ∈ P, (exactlyEqual cdb p.name p.ver).isSome) →
        ∃ p ∈ P, (exactlyEqual cdb p.name p.ver).isSome ∧
          resolveVirtualPackage pdb cdb vp = .ok p) ∧
      ((∀ p ∈ P, (exactlyEqual cdb p.name p.ver).isSome = false) →
        ((∃ p ∈ P, p.priority = "required") →
          ∃ p ∈ P, p.priority = "required" ∧ resolveVirtualPackage pdb cdb vp = .ok p) ∧
        ((∀ p ∈ P, p.priority ≠ "required") →
          resolveVirtualPackage pdb cdb vp = .error (.ambiguousVirtual vp.name)))) ∧
    (∀ possi pl, resolveConstraint pdb possi = .ok pl →
      ∃ l, resolvePossi pdb cdb possi = .ok l ∧ ∀ p ∈ pl, p.isVirtual = false → p ∈ l) := by
  refine ⟨?_, ?_, ?_, ?_⟩
  · intro h0
    rw [h0] at hP
    unfold resolveVirtualPackage
    rw [hP]
  · intro p hp
    rw [hp] at hP
    unfold resolveVirtualPackage
    rw [hP]
  · intro p₀ p₁ rest hcons
    rw [hcons] at hP
    constructor
    · intro hex
      cases hf : P.find? (fun p => (exactlyEqual cdb p.name p.ver).isSome) with
      | none =>
        exfalso
        rcases hex with ⟨p, hp, hps⟩
        have h9 := List.find?_eq_none.mp hf p hp
        exact h9 hps
      | some q =>
        refine ⟨q, List.mem_of_find?_eq_some hf,
          by have h9 := List.find?_some hf; simpa using h9, ?_⟩
        unfold resolveVirtualPackage
        rw [hP]
        show (match (p₀ :: p₁ :: rest).find? (fun p => (exactlyEqual cdb p.name p.ver).isSome)
          with
          | some p => Except.ok p
          | none =>
            match (p₀ :: p₁ :: rest).find? (fun p => p.priority == "required") with
            | some p => Except.ok p
            | none => Except.error (RErr.ambiguousVirtual vp.name)) = Except.ok q
        rw [← hcons, hf]
    · intro hnone
      have hfnone : P.find? (fun p => (exactlyEqual cdb p.name p.ver).isSome) = none :=
        List.find?_eq_none.mpr (fun p hp => by simp [hnone p hp])
      constructor
      · intro hex
        cases hf : P.find? (fun p => p.priority == "required") with
        | none =>
          exfalso
          rcases hex with ⟨p, hp, hps⟩
          have h2 := List.find?_eq_none.mp hf p hp
          simp [hps] at h2
        | some q =>
          refine ⟨q, List.mem_of_find?_eq_some hf,
            by have h9 := List.find?_some hf; simpa using h9, ?_⟩
          unfold resolveVirtualPackage
          rw [hP]
          show (match (p₀ :: p₁ :: rest).find?
              (fun p => (exactlyEqual cdb p.name p.ver).isSome) with
            | some p => Except.ok p
            | none =>
              match (p₀ :: p₁ :: rest).find? (fun p => p.priority == "required") with
              | some p => Except.ok p
              | none => Except.error (RErr.ambiguousVirtual vp.name)) = Except.ok q
          rw [← hcons, hfnone, hf]
      · intro hall
        have hf2 : P.find? (fun p => p.priority == "required") = none :=
          List.find?_eq_none.mpr (fun p hp => by simp [hall p hp])
        unfold resolveVirtualPackage
        rw [hP]
        show (match (p₀ :: p₁ :: rest).find?
            (fun p => (exactlyEqual cdb p.name p.ver).isSome) with
          | some p => Except.ok p
          | none =>
            match (p₀ :: p₁ :: rest).find? (fun p => p.priority == "required") with
            | some p => Except.ok p
            | none => Except.error (RErr.ambiguousVirtual vp.name)) =
          Except.error (RErr.ambiguousVirtual vp.name)
        rw [← hcons, hfnone, hf2]
  · intro possi pl hpl
    refine ⟨pl.filterMap (fun p =>
      if p.isVirtual then (resolveVirtualPackage pdb cdb p).toOption else some p), ?_, ?_⟩
    · unfold resolvePossi
      rw [hpl]
    · intro p hp hpreal
      refine List.mem_filterMap.mpr ⟨p, hp, ?_⟩
      rw [hpreal]
      simp

/-- Witness for the amended C5: a virtual record with exactly one
resolvable provider resolves to that provider. -/
theorem virtual_resolution_amended_witness :
    resolveVirtualPackage [{ name := "w", ver := 1 }] []
        { name := "w", ver := 5, isVirtual := true, providers := [("w", 1)] } =
      .ok { name := "w", ver := 1 } :=
  (@virtual_resolution_amended [{ name := "w", ver := 1 }] []
      { name := "w", ver := 5, isVirtual := true, providers := [("w", 1)] }
      [{ name := "w", ver := 1 }] (by decide)).2.1 { name := "w", ver := 1 } rfl

/-! #### Where the names of selected records come from (claim C6) -/

theorem exactlyEqual_name {db : DB} {n : String} {v : Ver} {p : Pkg}
    (h : exactlyEqual db n v = some p) : p.name = n ∧ p.ver = v := by
  unfold exactlyEqual at h
  split at h
  · exact absurd h (by simp)
  · split at h
    · rename_i hcond
      exact (Option.some_inj.mp h) ▸ hcond
    · exact absurd h (by simp)

theorem mem_dbGet_name {db : DB} {n : String} {x : Pkg} (h : x ∈ dbGet db n) :
    x.name = n := by
  unfold dbGet at h
  have h2 := List.mem_takeWhile_imp h
  simpa using h2

theorem foldl_addPackage_real_shape : ∀ (L : List Pkg) (d : DB) (z : Pkg),
    z ∈ L.foldl addPackage d → z.isVirtual = false →
    (∃ y ∈ d, y.isVirtual = false ∧ z.name = y.name) ∨ ∃ p ∈ L, z.name = p.name := by
  intro L
  induction L with
  | nil =>
    intro d z hz hreal
    exact Or.inl ⟨z, hz, hreal, rfl⟩
  | cons p ps ih =>
    intro d z hz hreal
    rw [List.foldl_cons] at hz
    rcases ih (addPackage d p) z hz hreal with ⟨y, hy, hyreal, hyn⟩ | ⟨q, hq, hqn⟩
    · rcases mem_addPackage_shape hy with ⟨w, hw, g1, _, g3, _⟩ | ⟨g1, _, _, _⟩ | ⟨g1, _⟩
      · exact Or.inl ⟨w, hw, g3 ▸ hyreal, hyn.trans g1⟩
      · exact Or.inr ⟨p, List.mem_cons_self _ _, hyn.trans g1⟩
      · rw [g1] at hyreal
        exact absurd hyreal (by simp)
    · exact Or.inr ⟨q, List.mem_cons_of_mem _ hq, hqn⟩

theorem seed_real_names {pdb : DB} :
    ∀ (l : List (String × Option Ver)) (cdb out : DB), seed pdb l cdb = .ok out →
      ∀ x ∈ out, x.isVirtual = false →
        (∃ y ∈ cdb, y.isVirtual = false ∧ x.name = y.name) ∨
        x.name ∈ l.map (fun e => e.1) := by
  intro l
  induction l with
  | nil =>
    intro cdb out h x hx hreal
    refine Or.inl ⟨x, ?_, hreal, rfl⟩
    rw [Except.ok.inj (h : Except.ok cdb = .ok out)]
    exact hx
  | cons e rest ih =>
    intro cdb out h x hx hreal
    obtain ⟨n, vo⟩ := e
    cases vo with
    | some v =>
      simp only [seed] at h
      cases hg : exactlyEqual pdb n v with
      | none =>
        rw [hg] at h
        exact absurd h (by simp)
      | some p =>
        rw [hg] at h
        rcases ih (addPackage cdb p) out h x hx hreal with ⟨y, hy, hyreal, hyn⟩ | hname
        · rcases mem_addPackage_shape hy with ⟨w, hw, g1, _, g3, _⟩ | ⟨g1, _, _, _⟩ | ⟨g1, _⟩
          · exact Or.inl ⟨w, hw, g3 ▸ hyreal, hyn.trans g1⟩
          · right
            have hxn : x.name = n := (hyn.trans g1).trans (exactlyEqual_name hg).1
            simp [hxn]
          · rw [g1] at hyreal
            exact absurd hyreal (by simp)
        · right
          simp only [List.map_cons]
          exact List.mem_cons_of_mem _ hname
    | none =>
      simp only [seed] at h
      cases hg : dbGet pdb n with
      | nil =>
        rw [hg] at h
        exact absurd h (by simp)
      | cons p ps =>
        rw [hg] at h
        rcases ih (addAll cdb (p :: ps)) out h x hx hreal with ⟨y, hy, hyreal, hyn⟩ | hname
        · rcases foldl_addPackage_real_shape (p :: ps) cdb y hy hyreal with
            ⟨w, hw, hwreal, hwn⟩ | ⟨q, hq, hqn⟩
          · exact Or.inl ⟨w, hw, hwreal, hyn.trans hwn⟩
          · right
            have hqname : q.name = n := mem_dbGet_name (by rw [hg]; exact hq)
            have hxn : x.name = n := (hyn.trans hqn).trans hqname
            simp [hxn]
        · right
          simp only [List.map_cons]
          exact List.mem_cons_of_mem _ hname

theorem bfs_real_names {pdb : DB} {exn : List String} :
    ∀ (fuel : Nat) (queue : List Pkg) (visited : List Key) (cdb out : DB),
      bfs pdb exn fuel queue visited cdb = .ok out →
      ∀ x ∈ out, x.isVirtual = false →
        (∃ y ∈ cdb, y.isVirtual = false ∧ x.name = y.name) ∨ x.name ∉ exn := by
  intro fuel
  induction fuel with
  | zero =>
    intro queue visited cdb out h x hx hreal
    cases queue with
    | nil =>
      simp only [bfs] at h
      refine Or.inl ⟨x, ?_, hreal, rfl⟩
      rw [Except.ok.inj h]
      exact hx
    | cons q qs =>
      simp only [bfs] at h
      exact absurd h (by simp)
  | succ f ih =>
    intro queue visited cdb out h x hx hreal
    cases queue with
    | nil =>
      simp only [bfs] at h
      refine Or.inl ⟨x, ?_, hreal, rfl⟩
      rw [Except.ok.inj h]
      exact hx
    | cons pkg rest =>
      simp only [bfs] at h
      split at h
      · exact ih rest visited cdb out h x hx hreal
      · split at h
        · exact absurd h (by simp)
        · rename_i deps hdeps
          rcases ih _ _ _ _ h x hx hreal with ⟨y, hy, hyreal, hyn⟩ | hnm
          · rcases foldl_addPackage_real_shape _ cdb y hy hyreal with
              ⟨w, hw, hwreal, hwn⟩ | ⟨q, hq, hqn⟩
            · exact Or.inl ⟨w, hw, hwreal, hyn.trans hwn⟩
            · right
              have hfq := List.mem_filter.mp hq
              have hb : (!exn.contains q.name) = true := by
                have h3 := hfq.2
                simp only [Bool.and_eq_true] at h3
                exact h3.1
              have hcon : exn.contains q.name = false := by simpa using hb
              rw [hyn.trans hqn]
              intro hmem
              rw [(contains_iff_mem exn q.name).mpr hmem] at hcon
              exact absurd hcon (by simp)
          · exact Or.inr hnm

theorem postPrune_ok_elim {fuel : Nat} {pdb : DB} {incl excl : List (String × Option Ver)}
    {cdb3 : DB} (h : postPrune fuel pdb incl excl = .ok cdb3) :
    ∃ cdb2, closure fuel pdb incl excl = .ok cdb2 ∧ pruneFix pdb fuel cdb2 = .ok cdb3 := by
  unfold postPrune at h
  cases hc : closure fuel pdb incl excl with
  | error e =>
    rw [hc] at h
    exact absurd h (by simp [Bind.bind, Except.bind])
  | ok cdb2 =>
    rw [hc] at h
    simp only [Bind.bind, Except.bind] at h
    exact ⟨cdb2, rfl, h⟩

theorem closure_ok_elim {fuel : Nat} {pdb : DB} {incl excl : List (String × Option Ver)}
    {cdb2 : DB} (h : closure fuel pdb incl excl = .ok cdb2) :
    ∃ cdb1, seed pdb incl [] = .ok cdb1 ∧
      bfs pdb (excl.map (fun e => e.1)) fuel (reals cdb1) [] cdb1 = .ok cdb2 := by
  unfold closure at h
  cases hc : seed pdb incl [] with
  | error e =>
    rw [hc] at h
    exact absurd h (by simp [Bind.bind, Except.bind])
  | ok cdb1 =>
    rw [hc] at h
    simp only [Bind.bind, Except.bind] at h
    exact ⟨cdb1, rfl, h⟩

theorem mem_selectStep_shape {req : String → Option (Option Ver)} {s : DB} {pkg x : Pkg}
    (hx : x ∈ selectStep req s pkg) :
    (∃ y ∈ s, x.name = y.name ∧ x.isVirtual = y.isVirtual) ∨
    (x.name = pkg.name ∧ x.isVirtual = pkg.isVirtual) ∨ x.isVirtual = true := by
  have haddp : ∀ {b : DB}, (∀ z ∈ b, ∃ y ∈ s, z.name = y.name ∧ z.isVirtual = y.isVirtual) →
      x ∈ addPackage b pkg → (∃ y ∈ s, x.name = y.name ∧ x.isVirtual = y.isVirtual) ∨
      (x.name = pkg.name ∧ x.isVirtual = pkg.isVirtual) ∨ x.isVirtual = true := by
    intro b hb hx'
    rcases mem_addPackage_shape hx' with ⟨y, hy, h1, _, h3, _⟩ | ⟨h1, _, h3, _⟩ | ⟨h1, _⟩
    · rcases hb y hy with ⟨w, hw, g1, g3⟩
      exact Or.inl ⟨w, hw, h1.trans g1, h3.trans g3⟩
    · exact Or.inr (Or.inl ⟨h1, h3⟩)
    · exact Or.inr (Or.inr h1)
  unfold selectStep at hx
  split at hx
  · split at hx
    · exact haddp (fun z hz => ⟨z, hz, rfl, rfl⟩) hx
    · exact Or.inl ⟨x, hx, rfl, rfl⟩
  · split at hx
    · exact haddp (fun z hz => ⟨z, hz, rfl, rfl⟩) hx
    · split at hx
      · refine haddp ?_ hx
        intro z hz
        rcases mem_removePkg_shape hz with ⟨y, hy, h1, _, h3, _⟩
        exact ⟨y, hy, h1, h3⟩
      · exact Or.inl ⟨x, hx, rfl, rfl⟩

theorem foldl_selectStep_real_shape {req : String → Option (Option Ver)} :
    ∀ (L : List Pkg) (s : DB) (z : Pkg), z ∈ L.foldl (selectStep req) s →
      z.isVirtual = false →
      (∃ y ∈ s, y.isVirtual = false ∧ z.name = y.name) ∨ ∃ p ∈ L, z.name = p.name := by
  intro L
  induction L with
  | nil =>
    intro s z hz hreal
    exact Or.inl ⟨z, hz, hreal, rfl⟩
  | cons p ps ih =>
    intro s z hz hreal
    rw [List.foldl_cons] at hz
    rcases ih (selectStep req s p) z hz hreal with ⟨y, hy, hyreal, hyn⟩ | ⟨q, hq, hqn⟩
    · rcases mem_selectStep_shape hy with ⟨w, hw, g1, g3⟩ | ⟨g1, _⟩ | g1
      · exact Or.inl ⟨w, hw, g3 ▸ hyreal, hyn.trans g1⟩
      · exact Or.inr ⟨p, List.mem_cons_self _ _, hyn.trans g1⟩
      · rw [g1] at hyreal
        exact absurd hyreal (by simp)
    · exact Or.inr ⟨q, List.mem_cons_of_mem _ hq, hqn⟩

/-- **C6, counterexample**: `a` depends on `b` and `b` is excluded.
The excluded `b` still satisfies `a`'s dependency relation (the
relation resolves to `[b]`, not to an empty set), `a` is not flagged
unsatisfiable (the prune list of the candidate set is empty), and
`Resolve` succeeds selecting `a` — exclusion only ever blocks the
enqueueing of `b` as a candidate, it is not applied before the
satisfiability judgment. -/
theorem exclusion_counterexample :
    resolveFull 9
        (addAll [] [{ name := "a", ver := 1, depends := [[{ name := "b", rel := none }]] },
          { name := "b", ver := 1 }])
        [("a", none)] [("b", none)] =
      .ok [{ name := "a", ver := 1, depends := [[{ name := "b", rel := none }]] }] ∧
    resolveRelation
        (addAll [] [{ name := "a", ver := 1, depends := [[{ name := "b", rel := none }]] },
          { name := "b", ver := 1 }])
        (addPackage [] { name := "a", ver := 1, depends := [[{ name := "b", rel := none }]] })
        [{ name := "b", rel := none }] =
      .ok [{ name := "b", ver := 1 }] ∧
    pruneList
        (addPackage [] { name := "a", ver := 1, depends := [[{ name := "b", rel := none }]] })
        (addAll [] [{ name := "a", ver := 1, depends := [[{ name := "b", rel := none }]] },
          { name := "b", ver := 1 }]) =
      [] :=
  ⟨by decide, by decide, by decide⟩

/-- **C6 (amended)**.  Exclusion acts at enqueue time only
(`exclusion_counterexample` shows an excluded package satisfying a
relation with no per-record error): what `Resolve` does guarantee is
that an excluded name never appears as a selected (non-virtual) record
unless it was itself included — phase 2 never adds a record with an
excluded name to the candidate set, and every later phase only removes
records or reuses candidate names. -/
theorem resolver_exclusion_amended {fuel : Nat} {pdb sdb : DB}
    {incl excl : List (String × Option Ver)}
    (hok : resolveFull fuel pdb incl excl = .ok sdb) :
    ∀ x ∈ sdb, x.isVirtual = false →
      x.name ∈ excl.map (fun e => e.1) → x.name ∈ incl.map (fun e => e.1) := by
  obtain ⟨cdb3, hpp, hpf, _⟩ := resolveFull_ok_elim hok
  obtain ⟨cdb2, hcl, hprune⟩ := postPrune_ok_elim hpp
  obtain ⟨cdb1, hseed, hbfs⟩ := closure_ok_elim hcl
  intro x hx hreal hexcl
  -- back through the final prune to the selection output
  rcases pruneFix_shape fuel hpf x hx with ⟨w, hw, g1, _, g3, _⟩
  have hwreal : w.isVirtual = false := g3 ▸ hreal
  -- back through the selection to the phase-3 candidates
  rcases foldl_selectStep_real_shape (reals cdb3) [] w hw hwreal with ⟨y, hy, _, _⟩ |
    ⟨p, hp, hpn⟩
  · exact absurd hy (by simp)
  · have hpreal : p.isVirtual = false := by
      have h2 := (List.mem_filter.mp hp).2
      simpa using h2
    have hpmem : p ∈ cdb3 := (List.mem_filter.mp hp).1
    -- back through the phase-3 prune to the closure
    rcases pruneFix_shape fuel hprune p hpmem with ⟨z, hz, k1, _, k3, _⟩
    have hzreal : z.isVirtual = false := k3 ▸ hpreal
    -- the closure: either a seeded (included) name or a non-excluded name
    rcases bfs_real_names fuel (reals cdb1) [] cdb1 cdb2 hbfs z hz hzreal with
      ⟨u, hu, hureal, hun⟩ | hnotex
    · rcases seed_real_names incl [] cdb1 hseed u hu hureal with ⟨v', hv', _, _⟩ | hin
      · exact absurd hv' (by simp)
      · have hxz : x.name = z.name := g1.trans (hpn.trans k1)
        rw [hxz, hun]
        exact hin
    · exfalso
      have hxz : x.name = z.name := g1.trans (hpn.trans k1)
      rw [hxz] at hexcl
      exact hnotex hexcl

/-- Witness for the amended C6: `a` (included) and `c` (excluded and
not included) — `c` does not appear in the selected set, vacuously
satisfying the name condition. -/
theorem resolver_exclusion_amended_witness :
    resolveFull 9 (addAll [] [{ name := "a", ver := 1 }, { name := "c", ver := 1 }])
        [("a", none)] [("c", none)] =
      .ok [{ name := "a", ver := 1 }] ∧
    (∀ x ∈ [({ name := "a", ver := 1 } : Pkg)], x.isVirtual = false →
      x.name ∈ [(("c", none) : String × Option Ver)].map (fun e => e.1) →
      x.name ∈ [(("a", none) : String × Option Ver)].map (fun e => e.1)) :=
  ⟨by decide,
   @resolver_exclusion_amended 9
     (addAll [] [{ name := "a", ver := 1 }, { name := "c", ver := 1 }])
     [{ name := "a", ver := 1 }] [("a", none)] [("c", none)] (by decide)⟩

/-! #### The verifying reader (claim C8) -/

theorem toBytesBE_length : ∀ (k x : Nat), (toBytesBE k x).length = k := by
  intro k
  induction k with
  | zero =>
    intro x
    rfl
  | succ n ih =>
    intro x
    simp [toBytesBE, ih]

theorem sha256Compress_length (st blk : List Nat) : (sha256Compress st blk).length = 8 := by
  unfold sha256Compress
  simp

theorem foldl_length8 {β : Type} (f : List Nat → β → List Nat)
    (hf : ∀ st b, (f st b).length = 8) :
    ∀ (l : List β) (st : List Nat), st.length = 8 → (l.foldl f st).length = 8 := by
  intro l
  induction l with
  | nil => exact fun st h => h
  | cons x xs ih =>
    intro st h
    exact ih _ (hf st x)

/-- The digest always has 32 bytes. -/
theorem sha256_length (m : List Nat) : (sha256 m).length = 32 := by
  have hflat : ∀ (l : List Nat),
      (l.flatMap (fun wv => toBytesBE 4 wv)).length = 4 * l.length := by
    intro l
    induction l with
    | nil => rfl
    | cons a as ih =>
      simp only [List.flatMap_cons, List.length_append, toBytesBE_length, ih,
        List.length_cons]
      omega
  simp only [sha256]
  rw [hflat]
  generalize (m ++ 128 :: (List.replicate (padZeros m.length) 0 ++ toBytesBE 8 (m.length * 8)))
    = padded
  have h8 : (List.foldl (fun st i => sha256Compress st ((padded.drop (64 * i)).take 64))
      sha256Init (List.range (padded.length / 64))).length = 8 :=
    foldl_length8 _ (fun st b => sha256Compress_length st _) _ _ rfl
  rw [h8]

/-- **C8, counterexample**: an expected string that is not valid hex
makes `Verify` return the hex decoding error, not the hash mismatch
error — refuting "it fails with HashMismatch otherwise". -/
theorem hash_error_kind_counterexample :
    verify [] "zz" = .error .hexError ∧ ¬ verify [] "zz" = .error .hashMismatch :=
  ⟨by decide, by decide⟩

/-- **C8 (amended)**.  `Verify(expected)` succeeds exactly when
`expected` hex-decodes to the 32-byte SHA-256 digest of the consumed
bytes; valid hex that differs from the digest (including any
wrong-length decode) yields the hash-mismatch error; but invalid hex
yields the decode error, not HashMismatch
(`hash_error_kind_counterexample`).  (The single-altered-byte clause
is collision resistance of SHA-256 and is not a statable property of
this code.) -/
theorem hashreader_verify_amended (consumed : List Nat) (expected : String) :
    (verify consumed expected = .ok () ↔ hexDecode expected = some (sha256 consumed)) ∧
    (sha256 consumed).length = 32 ∧
    (∀ eh, hexDecode expected = some eh → eh ≠ sha256 consumed →
      verify consumed expected = .error .hashMismatch) ∧
    (hexDecode expected = none → verify consumed expected = .error .hexError) := by
  refine ⟨?_, sha256_length consumed, ?_, ?_⟩
  · cases hh : hexDecode expected with
    | none =>
      simp only [verify, hh]
      constructor
      · intro h
        exact absurd h (by simp)
      · intro h
        exact absurd h (by simp)
    | some eh =>
      simp only [verify, hh]
      by_cases he : sha256 consumed = eh
      · rw [if_pos he, he]
        simp
      · rw [if_neg he]
        constructor
        · intro h
          exact absurd h (by simp)
        · intro h
          exact absurd (Option.some_inj.mp h).symm he
  · intro eh hh hne
    simp only [verify, hh]
    rw [if_neg (fun hc => hne hc.symm)]
  · intro hh
    simp only [verify, hh]

set_option maxRecDepth 10000 in
/-- Witness for the amended C8: the NIST test vector for `"abc"`. -/
theorem hashreader_verify_amended_witness :
    verify [97, 98, 99]
        "ba7816bf8f01cfea414140de5dae2223b00361a396177a9cb410ff61f20015ad" = .ok () :=
  (hashreader_verify_amended [97, 98, 99]
      "ba7816bf8f01cfea414140de5dae2223b00361a396177a9cb410ff61f20015ad").1.mpr (by decide)

/-! #### The unpackers (claims C9 and C10) -/

theorem infoPath_inj_name {a b m : String} (h : infoPath a m = infoPath b m) : a = b := by
  unfold infoPath at h
  have hd := congrArg String.data h
  simp only [String.data_append] at hd
  exact string_eq_of_data_eq
    (List.append_cancel_left (List.append_cancel_right (List.append_cancel_right hd)))

/-- **C9**.  In the memfs `Unpack`, the per-package
`var/lib/dpkg/info/<package>.list` member carries every data-archive
entry path (the root `.` excluded by `getDataArchiveFileList`), one per
line with a final newline, and is present exactly when the data archive
has entries.  The hypotheses rule out an unrelated member occupying the
same path: no control member and no distinct package maps to this
`.list` path. -/
theorem unpack_list_member (marshal : List String → String) (pkgs : List DebPkg) (p : DebPkg)
    (hp : p ∈ pkgs)
    (hctrl : ∀ q ∈ pkgs, ∀ m ∈ q.controlMembers, infoPath q.name m.1 ≠ infoPath p.name "list")
    (hstatus : ("var/lib/dpkg/status" : String) ≠ infoPath p.name "list")
    (hnames : ∀ q ∈ pkgs, q.name = p.name → q = p) :
    (p.dataPaths ≠ [] →
      (infoPath p.name "list", listContent p.dataPaths) ∈ unpackMemMembers marshal pkgs) ∧
    (p.dataPaths = [] →
      ∀ c, (infoPath p.name "list", c) ∉ unpackMemMembers marshal pkgs) := by
  constructor
  · intro hne
    unfold unpackMemMembers
    refine List.mem_append.mpr (Or.inl ?_)
    refine List.mem_flatMap.mpr ⟨p, hp, ?_⟩
    refine List.mem_append.mpr (Or.inr ?_)
    rw [if_neg (by simpa using hne)]
    exact List.mem_singleton.mpr rfl
  · intro hemp c hc
    unfold unpackMemMembers at hc
    rcases List.mem_append.mp hc with hin | hst
    · rcases List.mem_flatMap.mp hin with ⟨q, hq, hqin⟩
      rcases List.mem_append.mp hqin with hcm | hlm
      · rcases List.mem_map.mp hcm with ⟨m, hm, hmeq⟩
        exact hctrl q hq m hm (congrArg Prod.fst hmeq)
      · by_cases hqe : q.dataPaths.isEmpty
        · rw [if_pos hqe] at hlm
          exact absurd hlm (by simp)
        · rw [if_neg hqe] at hlm
          have hfst : infoPath q.name "list" = infoPath p.name "list" :=
            (congrArg Prod.fst (List.mem_singleton.mp hlm)).symm
          have hqp : q = p := hnames q hq (infoPath_inj_name hfst)
          rw [hqp, hemp] at hqe
          exact hqe (by simp)
    · exact hstatus (congrArg Prod.fst (List.mem_singleton.mp hst)).symm

/-- Witness for C9 at two concrete packages, one with an empty data
archive. -/
theorem unpack_list_member_witness :
    ((({ name := "a", controlMembers := [("md5sums", "X")],
         dataPaths := ["./usr", "./usr/bin"], dataArchivePath := "a_data.tar" } : DebPkg) ∈
        ([{ name := "a", controlMembers := [("md5sums", "X")],
            dataPaths := ["./usr", "./usr/bin"], dataArchivePath := "a_data.tar" },
          { name := "b", controlMembers := [], dataPaths := [],
            dataArchivePath := "b_data.tar" }] : List DebPkg)) ∧
      (["./usr", "./usr/bin"] : List String) ≠ []) ∧
    (infoPath "a" "list", listContent ["./usr", "./usr/bin"]) ∈
      unpackMemMembers (fun _ => "STATUS")
        [{ name := "a", controlMembers := [("md5sums", "X")],
           dataPaths := ["./usr", "./usr/bin"], dataArchivePath := "a_data.tar" },
         { name := "b", controlMembers := [], dataPaths := [],
           dataArchivePath := "b_data.tar" }] :=
  ⟨⟨by decide, by decide⟩,
   ((unpack_list_member (fun _ => "STATUS")
      [{ name := "a", controlMembers := [("md5sums", "X")],
         dataPaths := ["./usr", "./usr/bin"], dataArchivePath := "a_data.tar" },
       { name := "b", controlMembers := [], dataPaths := [],
         dataArchivePath := "b_data.tar" }]
      { name := "a", controlMembers := [("md5sums", "X")],
        dataPaths := ["./usr", "./usr/bin"], dataArchivePath := "a_data.tar" }
      (by decide) (by decide) (by decide) (by decide)).1 (by decide))⟩

end Debco
